import Mathlib

/-!
Verification of the Election Ledger Engine (C sources under src/).

This file gives a shallow embedding of the engine's core:

* the open-addressing hash table (`src/core/hash_table.c`),
* the tournament/selection tree (`src/core/selection_tree.c`),
* the application layer (`src/app/app.c`): registration, login, election
  lifecycle, vote casting, and reload from the persisted tables,
* the password hash (`src/auth/auth.c`).

Modelling conventions:

* C unsigned integers are `Nat` with explicit `% 2^64` (resp. `% 2^32`,
  `% 2^8`) wherever C arithmetic can wrap.
* C strings are `List Nat` of their (nonzero) bytes; `strncpy` into a field
  of size `n` is `List.take (n-1)`.
* Heap pointers to records owned by the three record collections are
  modelled as the record's position in the owning list (a stable handle:
  records are only appended, never removed or moved).
* Allocation is assumed to succeed (`malloc`/`calloc` failure paths of the
  C code are not modelled).
* The unbounded `for (;;)` probe loops of the hash table are modelled with
  fuel equal to the table capacity and result type `Option _`, where `none`
  means the C loop never terminates.  This is exact: the probe index steps
  through `idx, idx+1, ...` masked to `capacity` (a power of two), so the
  loop revisits the same buckets with unchanged state after `capacity`
  steps, and if no exit was taken in the first `capacity` steps none is
  ever taken.
-/

set_option maxRecDepth 20000

/-! ## Hash table (`src/core/hash_table.c`) -/

/-- One bucket of the open-addressing table: `state` 0 = empty, 1 = used,
2 = tombstone, mirroring `hash_bucket_t`. -/
structure hash_bucket where
  key : Nat
  value : Nat
  state : Nat
deriving DecidableEq, Inhabited

/-- The table `hash_table_t`: bucket array plus the `capacity` and `size`
fields kept by the C code. -/
structure hash_table where
  buckets : List hash_bucket
  capacity : Nat
  size : Nat
deriving DecidableEq, Inhabited

/-- `mix64` from hash_table.c: the 64-bit avalanche finalizer. -/
def mix64 (x : Nat) : Nat :=
  let x1 := x ^^^ (x >>> 33)
  let x2 := (x1 * 0xff51afd7ed558ccd) % 2 ^ 64
  let x3 := x2 ^^^ (x2 >>> 33)
  let x4 := (x3 * 0xc4ceb9fe1a85ec53) % 2 ^ 64
  x4 ^^^ (x4 >>> 33)

/-- Loop body of `clamp_capacity`: double `p` until `p >= cap`.  The C loop
is `while (n < cap) n <<= 1;` starting from 1; fuel `cap` is enough because
doubling from 1 reaches `cap` within `cap` steps. -/
def clamp_capacity_go (cap : Nat) : Nat → Nat → Nat
  | 0, p => p
  | Nat.succ f, p => if p < cap then clamp_capacity_go cap f (p * 2) else p

/-- `clamp_capacity` from hash_table.c: smallest power of two reached by
doubling from 1 that is `≥ cap`. -/
def clamp_capacity (cap : Nat) : Nat :=
  clamp_capacity_go cap cap 1

/-- `hash_table_init`: a zeroed bucket array of the clamped capacity
(`capacity ? capacity : 8`).  `calloc` is assumed to succeed. -/
def hash_table_init (capacity : Nat) : hash_table :=
  let cap := clamp_capacity (if capacity = 0 then 8 else capacity)
  ⟨List.replicate cap ⟨0, 0, 0⟩, cap, 0⟩

/-- Probe loop of `hash_table_get`.  Returns `none` if the C loop never
terminates, `some none` for `-1` (not found), `some (some v)` for a hit. -/
def hash_table_get_probe (bs : List hash_bucket) (mask key : Nat) :
    Nat → Nat → Option (Option Nat)
  | 0, _ => none
  | Nat.succ fuel, idx =>
    let b := bs.getD idx default
    if b.state = 0 then some none
    else if b.state = 1 ∧ b.key = key then some (some b.value)
    else hash_table_get_probe bs mask key fuel ((idx + 1) &&& mask)

/-- `hash_table_get` from hash_table.c. -/
def hash_table_get (ht : hash_table) (key : Nat) : Option (Option Nat) :=
  hash_table_get_probe ht.buckets (ht.capacity - 1) key ht.capacity
    (mix64 key &&& (ht.capacity - 1))

/-- Probe loop of `hash_table_put`.  Mirrors the C loop: remembers the first
tombstone, inserts into it (or into the first empty bucket) on hitting an
empty bucket, overwrites the value on a key match.  The returned `Bool` is
`true` when a fresh slot was occupied (the C code then does `size++`). -/
def hash_table_put_probe (bs : List hash_bucket) (mask key value : Nat) :
    Nat → Nat → Option Nat → Option (List hash_bucket × Bool)
  | 0, _, _ => none
  | Nat.succ fuel, idx, first_tomb =>
    let b := bs.getD idx default
    if b.state = 0 then
      let dest := first_tomb.getD idx
      some (bs.set dest ⟨key, value, 1⟩, true)
    else if b.state = 2 ∧ first_tomb = none then
      hash_table_put_probe bs mask key value fuel ((idx + 1) &&& mask) (some idx)
    else if b.state = 1 ∧ b.key = key then
      some (bs.set idx ⟨b.key, value, b.state⟩, false)
    else
      hash_table_put_probe bs mask key value fuel ((idx + 1) &&& mask) first_tomb

/-- `rehash` from hash_table.c, parametrised by the put operation used to
re-insert the live entries (the C code calls `hash_table_put` recursively;
the parameter keeps the recursion structural).  The fresh `calloc`ed table
of capacity `new_cap` starts zeroed with `size = 0`. -/
def rehash_with (putf : hash_table → Nat → Nat → Option hash_table)
    (ht : hash_table) (new_cap : Nat) : Option hash_table :=
  ht.buckets.foldl
    (fun acc b =>
      match acc with
      | none => none
      | some t => if b.state = 1 then putf t b.key b.value else some t)
    (some ⟨List.replicate new_cap ⟨0, 0, 0⟩, new_cap, 0⟩)

/-- `hash_table_put` (together with `maybe_grow` and `rehash`), with `fuel`
bounding the depth of the put → rehash → put recursion, which the C source
does not bound.  For every table arising in this development that depth is
at most 1 (`rehash` re-inserts into a table that is at most 35% loaded, so
the inner puts never grow again); hence fuel 2 is exact, and `none` models
nontermination of the C code. -/
def hash_table_put_fuel : Nat → hash_table → Nat → Nat → Option hash_table
  | 0, _, _, _ => none
  | Nat.succ fuel, ht, key, value =>
    let grown : Option hash_table :=
      if (ht.size + 1) * 10 ≥ ht.capacity * 7 then
        rehash_with (hash_table_put_fuel fuel) ht (ht.capacity * 2)
      else some ht
    match grown with
    | none => none
    | some ht1 =>
      match hash_table_put_probe ht1.buckets (ht1.capacity - 1) key value
          ht1.capacity (mix64 key &&& (ht1.capacity - 1)) none with
      | none => none
      | some (bs, fresh) =>
        some ⟨bs, ht1.capacity, if fresh then ht1.size + 1 else ht1.size⟩

/-- `hash_table_put` from hash_table.c (see `hash_table_put_fuel`). -/
def hash_table_put (ht : hash_table) (key value : Nat) : Option hash_table :=
  hash_table_put_fuel 2 ht key value

/-- Probe loop of `hash_table_delete`: `none` = the C loop never terminates,
`some none` = `-1` (not found), `some (some bs)` = bucket turned into a
tombstone. -/
def hash_table_delete_probe (bs : List hash_bucket) (mask key : Nat) :
    Nat → Nat → Option (Option (List hash_bucket))
  | 0, _ => none
  | Nat.succ fuel, idx =>
    let b := bs.getD idx default
    if b.state = 0 then some none
    else if b.state = 1 ∧ b.key = key then
      some (some (bs.set idx ⟨b.key, b.value, 2⟩))
    else hash_table_delete_probe bs mask key fuel ((idx + 1) &&& mask)

/-- `hash_table_delete` from hash_table.c.  On a hit the C code does
`ht->size--` (on reachable tables a hit implies `size ≥ 1`, so the `Nat`
subtraction agrees with the `size_t` decrement). -/
def hash_table_delete (ht : hash_table) (key : Nat) :
    Option (Option hash_table) :=
  match hash_table_delete_probe ht.buckets (ht.capacity - 1) key ht.capacity
      (mix64 key &&& (ht.capacity - 1)) with
  | none => none
  | some none => some none
  | some (some bs) => some (some ⟨bs, ht.capacity, ht.size - 1⟩)

/-! ## Selection (tournament) tree (`src/core/selection_tree.c`) -/

/-- `selection_tree_t`. -/
structure selection_tree where
  leaf_count : Nat
  tree_size : Nat
  tree : List Nat
deriving DecidableEq, Inhabited

/-- Loop body of `next_pow2`: double `p` until `p >= n`; fuel `n` is enough
because doubling from 1 reaches `n` within `n` steps. -/
def next_pow2_go (n : Nat) : Nat → Nat → Nat
  | 0, p => p
  | Nat.succ f, p => if p < n then next_pow2_go n f (p * 2) else p

/-- `next_pow2` from selection_tree.c. -/
def next_pow2 (n : Nat) : Nat :=
  next_pow2_go n n 1

/-- The loop `for (i = 0; i < n; i++) t->tree[base + i] = leaves[i];`,
started at position `base`. -/
def place_leaves : List Nat → Nat → List Nat → List Nat
  | t, _, [] => t
  | t, i, x :: xs => place_leaves (t.set i x) (i + 1) xs

/-- The loop `for (i = base - 1; i > 0; i--)` filling each internal node
with the larger of its two children, the left child winning ties
(`left >= right ? left : right`).  `fill_down t i` processes indices
`i, i-1, ..., 1`. -/
def fill_down : List Nat → Nat → List Nat
  | t, 0 => t
  | t, Nat.succ i =>
    let left := t.getD ((i + 1) * 2) 0
    let right := t.getD ((i + 1) * 2 + 1) 0
    fill_down (t.set (i + 1) (if left ≥ right then left else right)) i

/-- `selection_tree_build` from selection_tree.c (allocation assumed to
succeed; the `tree` array is `calloc`ed to zero, so padding leaves are 0). -/
def selection_tree_build (leaves : List Nat) : selection_tree :=
  let n := leaves.length
  let base := next_pow2 n
  let t0 := List.replicate (base * 2) 0
  let t1 := place_leaves t0 base leaves
  ⟨n, base * 2, fill_down t1 (base - 1)⟩

/-- Scan loop of `selection_tree_winner`: first leaf index (among the
`leaf_count` real leaves) whose value equals `best`; `winner` stays 0 when
no leaf matches. -/
def winner_scan (tr : List Nat) (base best : Nat) : Nat → Nat → Nat
  | 0, _ => 0
  | Nat.succ r, i => if tr.getD (base + i) 0 = best then i else winner_scan tr base best r (i + 1)

/-- `selection_tree_winner` from selection_tree.c: the root value is
`tree[1]`, the leaves start at `tree_size / 2`. -/
def selection_tree_winner (t : selection_tree) : Nat :=
  let base := t.tree_size / 2
  let best := t.tree.getD 1 0
  winner_scan t.tree base best t.leaf_count 0

/-! ## Hash table: well-formedness and probe reasoning -/

/-- Bucket at index `i` (out-of-range reads, which the verified lemmas never
perform, give the zeroed bucket). -/
def bucketAt (bs : List hash_bucket) (i : Nat) : hash_bucket :=
  bs.getD i default

/-- Key `k` is live with value `v` somewhere in the table. -/
def livePair (ht : hash_table) (k v : Nat) : Prop :=
  ∃ i, i < ht.capacity ∧ bucketAt ht.buckets i = ⟨k, v, 1⟩

/-- Key `k` is live in the table. -/
def liveKey (ht : hash_table) (k : Nat) : Prop :=
  ∃ v, livePair ht k v

/-- No tombstones.  All tables of the application layer satisfy this: the
engine never calls `hash_table_delete`. -/
def tomb_free (ht : hash_table) : Prop :=
  ∀ b ∈ ht.buckets, b.state ≠ 2

/-- Well-formedness of a table, as maintained by the C code: power-of-two
capacity matching the array length, `size` counting the live buckets, load
factor strictly below 0.7, pairwise-distinct live keys, and the
linear-probing invariant: no empty bucket sits on the probe path from a
live key's home bucket to its actual bucket. -/
structure table_wf (ht : hash_table) : Prop where
  pow : ∃ e, ht.capacity = 2 ^ e
  len : ht.buckets.length = ht.capacity
  states : ∀ b ∈ ht.buckets, b.state = 0 ∨ b.state = 1 ∨ b.state = 2
  size_eq : ht.size = (ht.buckets.filter (fun b => b.state == 1)).length
  load : ht.size * 10 < ht.capacity * 7
  nodup : ∀ i j, i < ht.capacity → j < ht.capacity → i ≠ j →
    (bucketAt ht.buckets i).state = 1 → (bucketAt ht.buckets j).state = 1 →
    (bucketAt ht.buckets i).key ≠ (bucketAt ht.buckets j).key
  path : ∀ i, i < ht.capacity → (bucketAt ht.buckets i).state = 1 →
    ∀ d, d < (i + ht.capacity - mix64 (bucketAt ht.buckets i).key % ht.capacity) % ht.capacity →
      (bucketAt ht.buckets
        ((mix64 (bucketAt ht.buckets i).key % ht.capacity + d) % ht.capacity)).state ≠ 0

theorem land_mask (x e : Nat) : x &&& (2 ^ e - 1) = x % 2 ^ e := by
  apply Nat.eq_of_testBit_eq
  intro i
  simp [Nat.testBit_land, Nat.testBit_mod_two_pow, Nat.testBit_two_pow_sub_one, Bool.and_comm]

theorem table_wf.cap_pos {ht : hash_table} (h : table_wf ht) : 0 < ht.capacity := by
  obtain ⟨e, he⟩ := h.pow
  rw [he]; exact Nat.pos_pow_of_pos e (by norm_num)

theorem probe_inj {cap h d1 d2 : Nat} (_hcap : 0 < cap) (h1 : d1 < cap) (h2 : d2 < cap)
    (heq : (h + d1) % cap = (h + d2) % cap) : d1 = d2 := by
  have : d1 % cap = d2 % cap := Nat.ModEq.add_left_cancel' h heq
  rwa [Nat.mod_eq_of_lt h1, Nat.mod_eq_of_lt h2] at this

theorem pdist_add {cap h i : Nat} (_hcap : 0 < cap) (hh : h < cap) (hi : i < cap) :
    (h + (i + cap - h) % cap) % cap = i := by
  have h1 : (h + (i + cap - h) % cap) % cap = (h + (i + cap - h)) % cap := by
    rw [Nat.add_mod, Nat.mod_mod_of_dvd _ (dvd_refl cap), ← Nat.add_mod]
  rw [h1]
  have h2 : h + (i + cap - h) = i + cap := by omega
  rw [h2, Nat.add_mod_right, Nat.mod_eq_of_lt hi]

/-- The probe loop continues past bucket `b` when looking for `key`. -/
def probe_cont (key : Nat) (b : hash_bucket) : Prop :=
  b.state ≠ 0 ∧ ¬(b.state = 1 ∧ b.key = key)

instance (key : Nat) (b : hash_bucket) : Decidable (probe_cont key b) := by
  unfold probe_cont; infer_instance

theorem bucketAt_def (bs : List hash_bucket) (i : Nat) :
    bs.getD i default = bucketAt bs i := rfl

/-- Running the get-probe loop: if the first `m` probed buckets (offsets
`0..m-1` from `start`) let the probe continue and the bucket at offset `m`
stops it, the loop returns that bucket's verdict. -/
theorem get_probe_reaches (bs : List hash_bucket) (e key : Nat) :
    ∀ (m fuel start : Nat), m < fuel →
    (∀ d, d < m → probe_cont key (bucketAt bs ((start + d) % 2 ^ e))) →
    ¬ probe_cont key (bucketAt bs ((start + m) % 2 ^ e)) →
    hash_table_get_probe bs (2 ^ e - 1) key fuel (start % 2 ^ e) =
      (if (bucketAt bs ((start + m) % 2 ^ e)).state = 0 then some none
       else some (some (bucketAt bs ((start + m) % 2 ^ e)).value)) := by
  intro m
  induction m with
  | zero =>
    intro fuel start hm hcont hstop
    obtain ⟨f, rfl⟩ : ∃ f, fuel = f + 1 := ⟨fuel - 1, by omega⟩
    rw [Nat.add_zero] at hstop ⊢
    unfold probe_cont at hstop
    push_neg at hstop
    simp only [hash_table_get_probe, bucketAt_def]
    by_cases h0 : (bucketAt bs (start % 2 ^ e)).state = 0
    · simp [h0]
    · have hm1 : (bucketAt bs (start % 2 ^ e)).state = 1 ∧
          (bucketAt bs (start % 2 ^ e)).key = key := hstop h0
      simp [h0, hm1]
  | succ m ih =>
    intro fuel start hm hcont hstop
    obtain ⟨f, rfl⟩ : ∃ f, fuel = f + 1 := ⟨fuel - 1, by omega⟩
    have hc0 : probe_cont key (bucketAt bs ((start + 0) % 2 ^ e)) :=
      hcont 0 (Nat.succ_pos m)
    rw [Nat.add_zero] at hc0
    obtain ⟨hs0, hsm⟩ := hc0
    simp only [hash_table_get_probe, bucketAt_def]
    rw [if_neg hs0, if_neg hsm, land_mask, Nat.mod_add_mod]
    have harg : ∀ d : Nat, start + 1 + d = start + (d + 1) := by omega
    have h1 := ih f (start + 1) (by omega)
      (fun d hd => by rw [harg d]; exact hcont (d + 1) (by omega))
      (by rw [harg m]; exact hstop)
    rw [h1, harg m]

theorem state_ne_two_at (ht : hash_table) (htf : tomb_free ht) (i : Nat) :
    (bucketAt ht.buckets i).state ≠ 2 := by
  by_cases hlt : i < ht.buckets.length
  · have : bucketAt ht.buckets i ∈ ht.buckets := by
      rw [bucketAt, List.getD_eq_getElem _ _ hlt]
      exact List.getElem_mem hlt
    exact htf _ this
  · rw [bucketAt, List.getD_eq_default _ _ (by omega)]
    simp [default]

/-- If key `k` is live with value `v`, `hash_table_get` finds it. -/
theorem get_found {ht : hash_table} {k v : Nat} (hwf : table_wf ht)
    (h : livePair ht k v) : hash_table_get ht k = some (some v) := by
  obtain ⟨e, he⟩ := hwf.pow
  obtain ⟨i, hi, hbi⟩ := h
  have hcap : 0 < ht.capacity := hwf.cap_pos
  have hh0lt : mix64 k % ht.capacity < ht.capacity := Nat.mod_lt _ hcap
  have hmlt : (i + ht.capacity - mix64 k % ht.capacity) % ht.capacity < ht.capacity :=
    Nat.mod_lt _ hcap
  have hidx : (mix64 k + (i + ht.capacity - mix64 k % ht.capacity) % ht.capacity) %
      ht.capacity = i := by
    rw [← Nat.mod_add_mod]
    exact pdist_add hcap hh0lt hi
  have hcont : ∀ d, d < (i + ht.capacity - mix64 k % ht.capacity) % ht.capacity →
      probe_cont k (bucketAt ht.buckets ((mix64 k + d) % ht.capacity)) := by
    intro d hd
    have hne0 : (bucketAt ht.buckets ((mix64 k % ht.capacity + d) % ht.capacity)).state ≠ 0 := by
      have := hwf.path i hi (by rw [hbi]) d (by rw [hbi]; exact hd)
      rwa [hbi] at this
    rw [Nat.mod_add_mod] at hne0
    refine ⟨hne0, ?_⟩
    rintro ⟨hs1, hk1⟩
    have hjlt : (mix64 k + d) % ht.capacity < ht.capacity := Nat.mod_lt _ hcap
    have hne : (mix64 k + d) % ht.capacity ≠ i := by
      intro hcontra
      have : d = (i + ht.capacity - mix64 k % ht.capacity) % ht.capacity :=
        probe_inj hcap (by omega) hmlt (by rw [hcontra, hidx])
      omega
    exact hwf.nodup _ i hjlt hi hne hs1 (by rw [hbi]) (by rw [hbi, hk1])
  have hstop : ¬ probe_cont k (bucketAt ht.buckets
      ((mix64 k + (i + ht.capacity - mix64 k % ht.capacity) % ht.capacity) % ht.capacity)) := by
    rw [hidx, hbi]
    rintro ⟨-, hno⟩
    exact hno ⟨rfl, rfl⟩
  unfold hash_table_get
  rw [he] at hmlt hidx hcont hstop ⊢
  rw [land_mask]
  rw [get_probe_reaches ht.buckets e k _ (2 ^ e) (mix64 k) hmlt hcont hstop, hidx, hbi]
  simp

theorem exists_empty {ht : hash_table} (hwf : table_wf ht) (htf : tomb_free ht) :
    ∃ i, i < ht.capacity ∧ (bucketAt ht.buckets i).state = 0 := by
  by_contra hno
  push_neg at hno
  have hall : ∀ b ∈ ht.buckets, b.state == 1 := by
    intro b hb
    obtain ⟨i, hlt, hbe⟩ := List.mem_iff_getElem.mp hb
    have hcapi : i < ht.capacity := by rw [← hwf.len]; exact hlt
    have hbat : bucketAt ht.buckets i = b := by
      rw [bucketAt, List.getD_eq_getElem _ _ hlt, hbe]
    have hb0 : b.state ≠ 0 := by rw [← hbat]; exact hno i hcapi
    have hb2 : b.state ≠ 2 := by rw [← hbat]; exact state_ne_two_at ht htf i
    have hst := hwf.states b hb
    simp only [beq_iff_eq]
    omega
  have hfe : ht.buckets.filter (fun b => b.state == 1) = ht.buckets :=
    List.filter_eq_self.mpr hall
  have hsize : ht.size = ht.capacity := by rw [hwf.size_eq, hfe, hwf.len]
  have hload := hwf.load
  have hcap := hwf.cap_pos
  omega

/-- If key `k` is not live and the table is tombstone-free, `hash_table_get`
reports not-found (`-1`). -/
theorem get_not_found {ht : hash_table} {k : Nat} (hwf : table_wf ht)
    (htf : tomb_free ht) (h : ¬ liveKey ht k) : hash_table_get ht k = some none := by
  obtain ⟨e, he⟩ := hwf.pow
  have hcap : 0 < ht.capacity := hwf.cap_pos
  obtain ⟨i0, hi0, hs0⟩ := exists_empty hwf htf
  have hPex : ∃ d, (bucketAt ht.buckets ((mix64 k + d) % ht.capacity)).state = 0 :=
    ⟨(i0 + ht.capacity - mix64 k % ht.capacity) % ht.capacity, by
      rw [← Nat.mod_add_mod, pdist_add hcap (Nat.mod_lt _ hcap) hi0]
      exact hs0⟩
  classical
  have hPm := Nat.find_spec hPex
  have hmin : ∀ d, d < Nat.find hPex →
      (bucketAt ht.buckets ((mix64 k + d) % ht.capacity)).state ≠ 0 :=
    fun d hd => Nat.find_min hPex hd
  have hmlt : Nat.find hPex < ht.capacity :=
    Nat.lt_of_le_of_lt (Nat.find_min' hPex (by
      rw [← Nat.mod_add_mod, pdist_add hcap (Nat.mod_lt _ hcap) hi0]
      exact hs0)) (Nat.mod_lt _ hcap)
  have hcont : ∀ d, d < Nat.find hPex →
      probe_cont k (bucketAt ht.buckets ((mix64 k + d) % ht.capacity)) := by
    intro d hd
    refine ⟨hmin d hd, ?_⟩
    rintro ⟨hs1, hk1⟩
    apply h
    refine ⟨(bucketAt ht.buckets ((mix64 k + d) % ht.capacity)).value,
      (mix64 k + d) % ht.capacity, Nat.mod_lt _ hcap, ?_⟩
    cases hbk : bucketAt ht.buckets ((mix64 k + d) % ht.capacity) with
    | mk bk bv bs => rw [hbk] at hs1 hk1; simp_all
  have hstop : ¬ probe_cont k
      (bucketAt ht.buckets ((mix64 k + Nat.find hPex) % ht.capacity)) := by
    rintro ⟨hne0, -⟩
    exact hne0 hPm
  obtain ⟨m, hPm2, hmlt2, hcont2, hstop2⟩ :
      ∃ m, (bucketAt ht.buckets ((mix64 k + m) % ht.capacity)).state = 0 ∧
        m < ht.capacity ∧
        (∀ d, d < m → probe_cont k (bucketAt ht.buckets ((mix64 k + d) % ht.capacity))) ∧
        ¬ probe_cont k (bucketAt ht.buckets ((mix64 k + m) % ht.capacity)) :=
    ⟨Nat.find hPex, hPm, hmlt, hcont, hstop⟩
  unfold hash_table_get
  rw [he] at hPm2 hmlt2 hcont2 hstop2 ⊢
  rw [land_mask]
  rw [get_probe_reaches ht.buckets e k _ (2 ^ e) (mix64 k) hmlt2 hcont2 hstop2, if_pos hPm2]

/-- Characterization of a successful lookup on well-formed tombstone-free
tables. -/
theorem get_some_iff {ht : hash_table} {k v : Nat} (hwf : table_wf ht)
    (htf : tomb_free ht) : hash_table_get ht k = some (some v) ↔ livePair ht k v := by
  constructor
  · intro hg
    by_cases hl : liveKey ht k
    · obtain ⟨v', hv'⟩ := hl
      have := get_found hwf hv'
      rw [this] at hg
      obtain rfl : v' = v := by injection hg with h1; injection h1
      exact hv'
    · rw [get_not_found hwf htf hl] at hg
      injection hg with h1
      exact absurd h1 (by simp)
  · exact get_found hwf

/-- Characterization of a failed lookup on well-formed tombstone-free
tables. -/
theorem get_none_iff {ht : hash_table} {k : Nat} (hwf : table_wf ht)
    (htf : tomb_free ht) : hash_table_get ht k = some none ↔ ¬ liveKey ht k := by
  constructor
  · intro hg hl
    obtain ⟨v', hv'⟩ := hl
    rw [get_found hwf hv'] at hg
    injection hg with h1
    exact absurd h1 (by simp)
  · exact get_not_found hwf htf

theorem bucketAt_set_self {bs : List hash_bucket} {j : Nat} (b : hash_bucket)
    (hj : j < bs.length) : bucketAt (bs.set j b) j = b := by
  rw [bucketAt, List.getD_eq_getElem _ _ (by simpa using hj)]
  simp [List.getElem_set_self]

theorem bucketAt_set_ne {bs : List hash_bucket} {i j : Nat} (b : hash_bucket)
    (hne : i ≠ j) : bucketAt (bs.set j b) i = bucketAt bs i := by
  by_cases hlt : i < bs.length
  · rw [bucketAt, List.getD_eq_getElem _ _ (by simpa using hlt), bucketAt,
      List.getD_eq_getElem _ _ hlt]
    exact List.getElem_set_ne (Ne.symm hne) _
  · rw [bucketAt, List.getD_eq_default _ _ (by simp only [List.length_set]; omega), bucketAt,
      List.getD_eq_default _ _ (by omega)]

theorem filter_length_set (p : hash_bucket → Bool) :
    ∀ (bs : List hash_bucket) (j : Nat) (b : hash_bucket), j < bs.length →
    ((bs.set j b).filter p).length + (if p (bucketAt bs j) then 1 else 0) =
      (bs.filter p).length + (if p b then 1 else 0) := by
  intro bs
  induction bs with
  | nil => intro j b hj; simp at hj
  | cons hd tl ih =>
    intro j b hj
    cases j with
    | zero =>
      show ((b :: tl).filter p).length + _ = _
      by_cases hhd : p hd <;> by_cases hb : p b <;>
        simp [List.filter, hhd, hb, bucketAt]
    | succ j' =>
      have hj' : j' < tl.length := by simpa using hj
      have hrec := ih j' b hj'
      have hbat : bucketAt (hd :: tl) (j' + 1) = bucketAt tl j' := rfl
      have hset : (hd :: tl).set (j' + 1) b = hd :: tl.set j' b := rfl
      rw [hbat, hset]
      by_cases hhd : p hd <;> by_cases hb2 : p (bucketAt tl j') <;> by_cases hb : p b <;>
          simp [List.filter_cons, hhd, hb2, hb] at hrec ⊢ <;> omega

/-- Running the put-probe loop on a tombstone-free array: same stop
condition as the get probe; it inserts at the first empty bucket or
overwrites on the first key match. -/
theorem put_probe_reaches (bs : List hash_bucket) (e key value : Nat)
    (h2 : ∀ i, (bucketAt bs i).state ≠ 2) :
    ∀ (m fuel start : Nat), m < fuel →
    (∀ d, d < m → probe_cont key (bucketAt bs ((start + d) % 2 ^ e))) →
    ¬ probe_cont key (bucketAt bs ((start + m) % 2 ^ e)) →
    hash_table_put_probe bs (2 ^ e - 1) key value fuel (start % 2 ^ e) none =
      some (bs.set ((start + m) % 2 ^ e) ⟨key, value, 1⟩,
        decide ((bucketAt bs ((start + m) % 2 ^ e)).state = 0)) := by
  intro m
  induction m with
  | zero =>
    intro fuel start hm hcont hstop
    obtain ⟨f, rfl⟩ : ∃ f, fuel = f + 1 := ⟨fuel - 1, by omega⟩
    rw [Nat.add_zero] at hstop ⊢
    unfold probe_cont at hstop
    push_neg at hstop
    simp only [hash_table_put_probe, bucketAt_def]
    by_cases h0 : (bucketAt bs (start % 2 ^ e)).state = 0
    · simp [h0, Option.getD]
    · have hm1 : (bucketAt bs (start % 2 ^ e)).state = 1 ∧
          (bucketAt bs (start % 2 ^ e)).key = key := hstop h0
      rw [if_neg h0, if_neg (by rintro ⟨hx, -⟩; exact h2 (start % 2 ^ e) hx), if_pos hm1]
      simp [hm1.1, hm1.2]
  | succ m ih =>
    intro fuel start hm hcont hstop
    obtain ⟨f, rfl⟩ : ∃ f, fuel = f + 1 := ⟨fuel - 1, by omega⟩
    have hc0 : probe_cont key (bucketAt bs ((start + 0) % 2 ^ e)) :=
      hcont 0 (Nat.succ_pos m)
    rw [Nat.add_zero] at hc0
    obtain ⟨hs0, hsm⟩ := hc0
    simp only [hash_table_put_probe, bucketAt_def]
    rw [if_neg hs0, if_neg (by rintro ⟨hx, -⟩; exact h2 (start % 2 ^ e) hx), if_neg hsm,
      land_mask, Nat.mod_add_mod]
    have harg : ∀ d : Nat, start + 1 + d = start + (d + 1) := by omega
    have h1 := ih f (start + 1) (by omega)
      (fun d hd => by rw [harg d]; exact hcont (d + 1) (by omega))
      (by rw [harg m]; exact hstop)
    rw [h1, harg m]

theorem pdist_eq {cap h m : Nat} (hcap : 0 < cap) (hh : h < cap) (hm : m < cap) :
    ((h + m) % cap + cap - h) % cap = m :=
  probe_inj hcap (Nat.mod_lt _ hcap) hm (by rw [pdist_add hcap hh (Nat.mod_lt _ hcap)])

/-- Buckets on the probe path before a live key's bucket let the probe for
that key continue. -/
theorem cont_before_live {ht : hash_table} {k v0 : Nat} (hwf : table_wf ht)
    {i : Nat} (hi : i < ht.capacity)
    (hbi : bucketAt ht.buckets i = ⟨k, v0, 1⟩) :
    ∀ d, d < (i + ht.capacity - mix64 k % ht.capacity) % ht.capacity →
      probe_cont k (bucketAt ht.buckets ((mix64 k + d) % ht.capacity)) := by
  have hcap : 0 < ht.capacity := hwf.cap_pos
  have hh0lt : mix64 k % ht.capacity < ht.capacity := Nat.mod_lt _ hcap
  have hmlt : (i + ht.capacity - mix64 k % ht.capacity) % ht.capacity < ht.capacity :=
    Nat.mod_lt _ hcap
  have hidx : (mix64 k + (i + ht.capacity - mix64 k % ht.capacity) % ht.capacity) %
      ht.capacity = i := by
    rw [← Nat.mod_add_mod]
    exact pdist_add hcap hh0lt hi
  intro d hd
  have hne0 : (bucketAt ht.buckets ((mix64 k % ht.capacity + d) % ht.capacity)).state ≠ 0 := by
    have := hwf.path i hi (by rw [hbi]) d (by rw [hbi]; exact hd)
    rwa [hbi] at this
  rw [Nat.mod_add_mod] at hne0
  refine ⟨hne0, ?_⟩
  rintro ⟨hs1, hk1⟩
  have hjlt : (mix64 k + d) % ht.capacity < ht.capacity := Nat.mod_lt _ hcap
  have hne : (mix64 k + d) % ht.capacity ≠ i := by
    intro hcontra
    have : d = (i + ht.capacity - mix64 k % ht.capacity) % ht.capacity :=
      probe_inj hcap (by omega) hmlt (by rw [hcontra, hidx])
    omega
  exact hwf.nodup _ i hjlt hi hne hs1 (by rw [hbi]) (by rw [hbi, hk1])

/-- On a tombstone-free well-formed table, putting an already-live key
overwrites its bucket in place and reports no fresh slot. -/
theorem put_probe_overwrite {ht : hash_table} {k v0 : Nat} (hwf : table_wf ht)
    (htf : tomb_free ht) {i : Nat} (hi : i < ht.capacity)
    (hbi : bucketAt ht.buckets i = ⟨k, v0, 1⟩) (v : Nat) :
    hash_table_put_probe ht.buckets (ht.capacity - 1) k v ht.capacity
      (mix64 k &&& (ht.capacity - 1)) none =
      some (ht.buckets.set i ⟨k, v, 1⟩, false) := by
  obtain ⟨e, he⟩ := hwf.pow
  have hcap : 0 < ht.capacity := hwf.cap_pos
  have hh0lt : mix64 k % ht.capacity < ht.capacity := Nat.mod_lt _ hcap
  have hmlt : (i + ht.capacity - mix64 k % ht.capacity) % ht.capacity < ht.capacity :=
    Nat.mod_lt _ hcap
  have hidx : (mix64 k + (i + ht.capacity - mix64 k % ht.capacity) % ht.capacity) %
      ht.capacity = i := by
    rw [← Nat.mod_add_mod]
    exact pdist_add hcap hh0lt hi
  have hcont := cont_before_live hwf hi hbi
  have hstop : ¬ probe_cont k (bucketAt ht.buckets
      ((mix64 k + (i + ht.capacity - mix64 k % ht.capacity) % ht.capacity) % ht.capacity)) := by
    rw [hidx, hbi]
    rintro ⟨-, hno⟩
    exact hno ⟨rfl, rfl⟩
  have h2 : ∀ x, (bucketAt ht.buckets x).state ≠ 2 := state_ne_two_at ht htf
  rw [he] at hmlt hidx hcont hstop ⊢
  rw [land_mask]
  rw [put_probe_reaches ht.buckets e k v h2 _ (2 ^ e) (mix64 k) hmlt hcont hstop, hidx, hbi]
  simp

/-- On a tombstone-free well-formed table, putting an absent key inserts it
into the first empty bucket on its probe path and reports a fresh slot. -/
theorem put_probe_insert {ht : hash_table} {k : Nat} (hwf : table_wf ht)
    (htf : tomb_free ht) (h : ¬ liveKey ht k) (v : Nat) :
    ∃ j, j < ht.capacity ∧ (bucketAt ht.buckets j).state = 0 ∧
      (∀ d, d < (j + ht.capacity - mix64 k % ht.capacity) % ht.capacity →
        (bucketAt ht.buckets ((mix64 k % ht.capacity + d) % ht.capacity)).state ≠ 0) ∧
      hash_table_put_probe ht.buckets (ht.capacity - 1) k v ht.capacity
        (mix64 k &&& (ht.capacity - 1)) none =
        some (ht.buckets.set j ⟨k, v, 1⟩, true) := by
  obtain ⟨e, he⟩ := hwf.pow
  have hcap : 0 < ht.capacity := hwf.cap_pos
  obtain ⟨i0, hi0, hs0⟩ := exists_empty hwf htf
  have hPex : ∃ d, (bucketAt ht.buckets ((mix64 k + d) % ht.capacity)).state = 0 :=
    ⟨(i0 + ht.capacity - mix64 k % ht.capacity) % ht.capacity, by
      rw [← Nat.mod_add_mod, pdist_add hcap (Nat.mod_lt _ hcap) hi0]
      exact hs0⟩
  classical
  have hPm := Nat.find_spec hPex
  have hmin : ∀ d, d < Nat.find hPex →
      (bucketAt ht.buckets ((mix64 k + d) % ht.capacity)).state ≠ 0 :=
    fun d hd => Nat.find_min hPex hd
  have hmlt : Nat.find hPex < ht.capacity :=
    Nat.lt_of_le_of_lt (Nat.find_min' hPex (by
      rw [← Nat.mod_add_mod, pdist_add hcap (Nat.mod_lt _ hcap) hi0]
      exact hs0)) (Nat.mod_lt _ hcap)
  have hcont : ∀ d, d < Nat.find hPex →
      probe_cont k (bucketAt ht.buckets ((mix64 k + d) % ht.capacity)) := by
    intro d hd
    refine ⟨hmin d hd, ?_⟩
    rintro ⟨hs1, hk1⟩
    apply h
    refine ⟨(bucketAt ht.buckets ((mix64 k + d) % ht.capacity)).value,
      (mix64 k + d) % ht.capacity, Nat.mod_lt _ hcap, ?_⟩
    cases hbk : bucketAt ht.buckets ((mix64 k + d) % ht.capacity) with
    | mk bk bv bst => rw [hbk] at hs1 hk1; simp_all
  have hstop : ¬ probe_cont k
      (bucketAt ht.buckets ((mix64 k + Nat.find hPex) % ht.capacity)) := by
    rintro ⟨hne0, -⟩
    exact hne0 hPm
  have h2 : ∀ x, (bucketAt ht.buckets x).state ≠ 2 := state_ne_two_at ht htf
  obtain ⟨m, hPm2, hmlt2, hcont2, hstop2⟩ :
      ∃ m, (bucketAt ht.buckets ((mix64 k + m) % ht.capacity)).state = 0 ∧
        m < ht.capacity ∧
        (∀ d, d < m → probe_cont k (bucketAt ht.buckets ((mix64 k + d) % ht.capacity))) ∧
        ¬ probe_cont k (bucketAt ht.buckets ((mix64 k + m) % ht.capacity)) :=
    ⟨Nat.find hPex, hPm, hmlt, hcont, hstop⟩
  refine ⟨(mix64 k + m) % ht.capacity, Nat.mod_lt _ hcap, hPm2, ?_, ?_⟩
  · intro d hd
    have hdm : d < m := by
      have heqm : ((mix64 k + m) % ht.capacity + ht.capacity - mix64 k % ht.capacity) %
          ht.capacity = m := by
        rw [← Nat.mod_add_mod]
        exact pdist_eq hcap (Nat.mod_lt _ hcap) hmlt2
      omega
    rw [Nat.mod_add_mod]
    exact (hcont2 d hdm).1
  · rw [he] at hmlt2 hcont2 hstop2 hPm2 ⊢
    rw [land_mask]
    rw [put_probe_reaches ht.buckets e k v h2 _ (2 ^ e) (mix64 k) hmlt2 hcont2 hstop2]
    simp [hPm2]

/-- Effect of the put probe (no growth involved) on a well-formed
tombstone-free table that has room for one more entry: the probe succeeds
and the resulting table is the functional update of the original. -/
theorem put_step_ok (t : hash_table) (k v : Nat) (hwf : table_wf t) (htf : tomb_free t)
    (hfit : (t.size + 1) * 10 < t.capacity * 7) :
    ∃ bs2 fresh, hash_table_put_probe t.buckets (t.capacity - 1) k v t.capacity
        (mix64 k &&& (t.capacity - 1)) none = some (bs2, fresh) ∧
      table_wf ⟨bs2, t.capacity, if fresh then t.size + 1 else t.size⟩ ∧
      tomb_free ⟨bs2, t.capacity, if fresh then t.size + 1 else t.size⟩ ∧
      (∀ k2 v2, livePair ⟨bs2, t.capacity, if fresh then t.size + 1 else t.size⟩ k2 v2 ↔
        ((k2 = k ∧ v2 = v) ∨ (k2 ≠ k ∧ livePair t k2 v2))) ∧
      (fresh = true ↔ ¬ liveKey t k) := by
  have hcap : 0 < t.capacity := hwf.cap_pos
  by_cases hlk : liveKey t k
  · -- overwrite case
    obtain ⟨v0, i, hi, hbi⟩ := hlk
    have hil : i < t.buckets.length := by rw [hwf.len]; exact hi
    refine ⟨t.buckets.set i ⟨k, v, 1⟩, false, put_probe_overwrite hwf htf hi hbi v,
      ?_, ?_, ?_, by simp [livePair]; exact ⟨v0, i, hi, hbi⟩⟩
    · -- profiles: state and key at every index are unchanged
      have hprof : ∀ x, (bucketAt (t.buckets.set i ⟨k, v, 1⟩) x).state =
          (bucketAt t.buckets x).state ∧
          (bucketAt (t.buckets.set i ⟨k, v, 1⟩) x).key = (bucketAt t.buckets x).key := by
        intro x
        by_cases hx : x = i
        · subst hx
          rw [bucketAt_set_self _ hil, hbi]
          exact ⟨rfl, rfl⟩
        · rw [bucketAt_set_ne _ hx]
          exact ⟨rfl, rfl⟩
      refine ⟨?_, ?_, ?_, ?_, ?_, ?_, ?_⟩
      · exact hwf.pow
      · simp [List.length_set, hwf.len]
      · intro b hb
        rcases List.mem_or_eq_of_mem_set hb with hmem | rfl
        · exact hwf.states b hmem
        · right; left; rfl
      · show t.size = ((t.buckets.set i ⟨k, v, 1⟩).filter (fun b => b.state == 1)).length
        have hfls := filter_length_set (fun b => b.state == 1) t.buckets i ⟨k, v, 1⟩ hil
        rw [hbi] at hfls
        simp only [show ((⟨k, v0, 1⟩ : hash_bucket).state == 1) = true from rfl,
          show ((⟨k, v, 1⟩ : hash_bucket).state == 1) = true from rfl, if_true] at hfls
        have hsz := hwf.size_eq
        omega
      · show t.size * 10 < t.capacity * 7
        exact hwf.load
      · intro x y hx hy hxy hsx hsy
        rw [(hprof x).1] at hsx
        rw [(hprof y).1] at hsy
        rw [(hprof x).2, (hprof y).2]
        exact hwf.nodup x y hx hy hxy hsx hsy
      · intro x hx hsx d hd
        rw [(hprof x).1] at hsx
        rw [(hprof x).2] at hd ⊢
        have := hwf.path x hx hsx d hd
        rw [(hprof ((mix64 (bucketAt t.buckets x).key % t.capacity + d) % t.capacity)).1]
        exact this
    · intro b hb
      rcases List.mem_or_eq_of_mem_set hb with hmem | rfl
      · exact htf b hmem
      · simp
    · intro k2 v2
      constructor
      · rintro ⟨x, hx, hbx⟩
        by_cases hxi : x = i
        · subst hxi
          rw [bucketAt_set_self _ hil] at hbx
          injection hbx.symm with h1 h2 h3
          exact Or.inl ⟨h1, h2⟩
        · rw [bucketAt_set_ne _ hxi] at hbx
          right
          refine ⟨?_, x, hx, hbx⟩
          intro hk2
          subst hk2
          exact hwf.nodup x i hx hi hxi (by rw [hbx]) (by rw [hbi])
            (by rw [hbx, hbi])
      · rintro (⟨rfl, rfl⟩ | ⟨hne, x, hx, hbx⟩)
        · exact ⟨i, hi, bucketAt_set_self _ hil⟩
        · have hxi : x ≠ i := by
            intro hcontra
            subst hcontra
            rw [hbi] at hbx
            injection hbx with h1
            exact hne h1.symm
          exact ⟨x, hx, by rw [bucketAt_set_ne _ hxi]; exact hbx⟩
  · -- insert case
    obtain ⟨j, hj, hj0, hjpath, heq⟩ := put_probe_insert hwf htf hlk v
    have hjl : j < t.buckets.length := by rw [hwf.len]; exact hj
    have hpres : ∀ x, (bucketAt t.buckets x).state ≠ 0 →
        (bucketAt (t.buckets.set j ⟨k, v, 1⟩) x).state ≠ 0 := by
      intro x hx
      by_cases hxj : x = j
      · subst hxj; rw [bucketAt_set_self _ hjl]; simp
      · rw [bucketAt_set_ne _ hxj]; exact hx
    refine ⟨t.buckets.set j ⟨k, v, 1⟩, true, heq, ?_, ?_, ?_, by simp [hlk]⟩
    · refine ⟨?_, ?_, ?_, ?_, ?_, ?_, ?_⟩
      · exact hwf.pow
      · simp [List.length_set, hwf.len]
      · intro b hb
        rcases List.mem_or_eq_of_mem_set hb with hmem | rfl
        · exact hwf.states b hmem
        · right; left; rfl
      · show t.size + 1 = ((t.buckets.set j ⟨k, v, 1⟩).filter (fun b => b.state == 1)).length
        have hfls := filter_length_set (fun b => b.state == 1) t.buckets j ⟨k, v, 1⟩ hjl
        have hj0' : ((bucketAt t.buckets j).state == 1) = false := by
          simp [hj0]
        simp [hj0'] at hfls
        have hsz := hwf.size_eq
        omega
      · show (t.size + 1) * 10 < t.capacity * 7
        exact hfit
      · intro x y hx hy hxy hsx hsy
        by_cases hxj : x = j <;> by_cases hyj : y = j
        · exact absurd (hxj.trans hyj.symm) hxy
        · subst hxj
          rw [bucketAt_set_self _ hjl] at hsx ⊢
          rw [bucketAt_set_ne _ hyj] at hsy ⊢
          intro hkeq
          apply hlk
          refine ⟨(bucketAt t.buckets y).value, y, hy, ?_⟩
          cases hby : bucketAt t.buckets y with
          | mk bk bv bst =>
            rw [hby] at hsy hkeq
            simp at hkeq hsy ⊢
            exact ⟨hkeq.symm, hsy⟩
        · subst hyj
          rw [bucketAt_set_self _ hjl] at hsy ⊢
          rw [bucketAt_set_ne _ hxj] at hsx ⊢
          intro hkeq
          apply hlk
          refine ⟨(bucketAt t.buckets x).value, x, hx, ?_⟩
          cases hbx : bucketAt t.buckets x with
          | mk bk bv bst =>
            rw [hbx] at hsx hkeq
            simp at hkeq hsx ⊢
            exact ⟨hkeq, hsx⟩
        · rw [bucketAt_set_ne _ hxj] at hsx ⊢
          rw [bucketAt_set_ne _ hyj] at hsy ⊢
          exact hwf.nodup x y hx hy hxy hsx hsy
      · intro x hx hsx d hd
        by_cases hxj : x = j
        · subst hxj
          rw [bucketAt_set_self _ hjl] at hd ⊢
          apply hpres
          exact hjpath d hd
        · rw [bucketAt_set_ne _ hxj] at hsx hd ⊢
          apply hpres
          exact hwf.path x hx hsx d hd
    · intro b hb
      rcases List.mem_or_eq_of_mem_set hb with hmem | rfl
      · exact htf b hmem
      · simp
    · intro k2 v2
      constructor
      · rintro ⟨x, hx, hbx⟩
        by_cases hxj : x = j
        · subst hxj
          rw [bucketAt_set_self _ hjl] at hbx
          injection hbx with h1 h2 h3
          exact Or.inl ⟨h1.symm, h2.symm⟩
        · rw [bucketAt_set_ne _ hxj] at hbx
          right
          refine ⟨?_, x, hx, hbx⟩
          rintro rfl
          exact hlk ⟨v2, x, hx, hbx⟩
      · rintro (⟨rfl, rfl⟩ | ⟨hne, x, hx, hbx⟩)
        · exact ⟨j, hj, bucketAt_set_self _ hjl⟩
        · have hxj : x ≠ j := by
            intro hcontra
            subst hcontra
            rw [hbx] at hj0
            simp at hj0
          exact ⟨x, hx, by rw [bucketAt_set_ne _ hxj]; exact hbx⟩

theorem livePair_iff_mem {ht : hash_table} (hwf : table_wf ht) (k v : Nat) :
    livePair ht k v ↔ (⟨k, v, 1⟩ : hash_bucket) ∈ ht.buckets := by
  constructor
  · rintro ⟨i, hi, hbi⟩
    have hil : i < ht.buckets.length := by rw [hwf.len]; exact hi
    rw [← hbi, bucketAt, List.getD_eq_getElem _ _ hil]
    exact List.getElem_mem hil
  · intro hmem
    obtain ⟨i, hlt, hbe⟩ := List.mem_iff_getElem.mp hmem
    exact ⟨i, by rw [← hwf.len]; exact hlt,
      by rw [bucketAt, List.getD_eq_getElem _ _ hlt, hbe]⟩

theorem bucketAt_replicate_zero (n x : Nat) :
    (bucketAt (List.replicate n ⟨0, 0, 0⟩) x).state = 0 := by
  by_cases hx : x < n
  · rw [bucketAt, List.getD_eq_getElem _ _ (by simpa using hx)]
    simp
  · rw [bucketAt, List.getD_eq_default _ _ (by simpa using hx)]
    simp [default]

/-- One put with fuel, in the case where the load check does not trigger a
rehash. -/
theorem put_fuel_no_grow (f : Nat) (ht : hash_table) (k v : Nat)
    (hwf : table_wf ht) (htf : tomb_free ht)
    (hng : (ht.size + 1) * 10 < ht.capacity * 7) :
    ∃ ht2, hash_table_put_fuel (f + 1) ht k v = some ht2 ∧
      table_wf ht2 ∧ tomb_free ht2 ∧ ht2.capacity = ht.capacity ∧
      (¬ liveKey ht k → ht2.size = ht.size + 1) ∧
      (liveKey ht k → ht2.size = ht.size) ∧
      (∀ k2 v2, livePair ht2 k2 v2 ↔ ((k2 = k ∧ v2 = v) ∨ (k2 ≠ k ∧ livePair ht k2 v2))) := by
  obtain ⟨bs2, fresh, heq, hwf2, htf2, hpairs, hfresh⟩ := put_step_ok ht k v hwf htf hng
  refine ⟨⟨bs2, ht.capacity, if fresh then ht.size + 1 else ht.size⟩, ?_, hwf2, htf2, rfl,
    ?_, ?_, hpairs⟩
  · simp only [hash_table_put_fuel,
      if_neg (show ¬ (ht.size + 1) * 10 ≥ ht.capacity * 7 by omega), heq]
  · intro hnl
    have : fresh = true := hfresh.mpr hnl
    subst this
    rfl
  · intro hl
    cases hfr : fresh with
    | true => exact absurd (hfresh.mp hfr) (by simpa using hl)
    | false => subst hfr; rfl

/-- The re-insertion loop of `rehash`: folding the old bucket array into a
fresh table via `hash_table_put`.  All inner puts stay below the load
threshold, so none of them grows the accumulator. -/
theorem rehash_fold_ok (f : Nat) :
    ∀ (l : List hash_bucket) (acc : hash_table) (S : Nat),
    table_wf acc → tomb_free acc →
    (∀ b ∈ l, b.state = 1 → ¬ liveKey acc b.key) →
    List.Pairwise (fun b1 b2 => b1.state = 1 → b2.state = 1 → b1.key ≠ b2.key) l →
    acc.size + (l.filter (fun b => b.state == 1)).length ≤ S →
    S * 10 < acc.capacity * 7 →
    ∃ t2, l.foldl (fun a b => match a with
        | none => none
        | some t => if b.state = 1 then hash_table_put_fuel (f + 1) t b.key b.value
          else some t) (some acc) = some t2 ∧
      table_wf t2 ∧ tomb_free t2 ∧ t2.capacity = acc.capacity ∧
      t2.size = acc.size + (l.filter (fun b => b.state == 1)).length ∧
      (∀ k v, livePair t2 k v ↔
        (livePair acc k v ∨ (⟨k, v, 1⟩ : hash_bucket) ∈ l)) := by
  intro l
  induction l with
  | nil =>
    intro acc S hwf htf hdisj hpw hsz hS
    exact ⟨acc, rfl, hwf, htf, rfl, by simp, by simp⟩
  | cons b rest ih =>
    intro acc S hwf htf hdisj hpw hsz hS
    rw [List.pairwise_cons] at hpw
    obtain ⟨hpwb, hpwrest⟩ := hpw
    by_cases hb1 : b.state = 1
    · -- live entry: insert it, then continue
      have hfilt : ((b :: rest).filter (fun x => x.state == 1)).length =
          (rest.filter (fun x => x.state == 1)).length + 1 := by
        simp [List.filter_cons, hb1]
      have hng : (acc.size + 1) * 10 < acc.capacity * 7 := by
        have : acc.size + 1 ≤ S := by omega
        nlinarith [hS]
      obtain ⟨acc2, heq2, hwf2, htf2, hcap2, hfr2, -, hpairs2⟩ :=
        put_fuel_no_grow f acc b.key b.value hwf htf hng
      have hnl : ¬ liveKey acc b.key := hdisj b (by simp) hb1
      have hsz2 : acc2.size = acc.size + 1 := hfr2 hnl
      have hdisj2 : ∀ x ∈ rest, x.state = 1 → ¬ liveKey acc2 x.key := by
        intro x hx hx1 hlx
        obtain ⟨vx, hvx⟩ := hlx
        rcases (hpairs2 x.key vx).mp hvx with ⟨hk, -⟩ | ⟨-, hp⟩
        · exact hpwb x hx hb1 hx1 hk.symm
        · exact hdisj x (by simp [hx]) hx1 ⟨vx, hp⟩
      obtain ⟨t2, heqf, hwft, htft, hcapt, hszt, hpairst⟩ :=
        ih acc2 S hwf2 htf2 hdisj2 hpwrest
          (by rw [hsz2, hcap2] at *; omega) (by rw [hcap2]; exact hS)
      refine ⟨t2, ?_, hwft, htft, by rw [hcapt, hcap2], by omega, ?_⟩
      · simp only [List.foldl_cons, if_pos hb1, heq2]
        exact heqf
      · intro k v
        rw [hpairst k v]
        constructor
        · rintro (hp2 | hmem)
          · rcases (hpairs2 k v).mp hp2 with ⟨rfl, rfl⟩ | ⟨hne, hp⟩
            · right
              have : b = ⟨b.key, b.value, 1⟩ := by
                cases b with
                | mk bk bv bst => simp_all
              simp [← this]
            · exact Or.inl hp
          · simp [hmem]
        · rintro (hp | hmem)
          · left
            apply (hpairs2 k v).mpr
            right
            refine ⟨?_, hp⟩
            rintro rfl
            exact hnl ⟨v, hp⟩
          · rcases List.mem_cons.mp hmem with rfl | hmem2
            · left
              apply (hpairs2 k v).mpr
              left
              exact ⟨rfl, rfl⟩
            · exact Or.inr hmem2
    · -- non-live entry: skipped by the loop
      have hfilt : ((b :: rest).filter (fun x => x.state == 1)).length =
          (rest.filter (fun x => x.state == 1)).length := by
        simp [List.filter_cons, hb1]
      obtain ⟨t2, heqf, hwft, htft, hcapt, hszt, hpairst⟩ :=
        ih acc S hwf htf (fun x hx => hdisj x (by simp [hx])) hpwrest (by omega) hS
      refine ⟨t2, ?_, hwft, htft, hcapt, by omega, ?_⟩
      · simp only [List.foldl_cons, if_neg hb1]
        exact heqf
      · intro k v
        rw [hpairst k v]
        have hbne : (⟨k, v, 1⟩ : hash_bucket) ≠ b := by
          intro hcontra
          rw [← hcontra] at hb1
          exact hb1 rfl
        constructor
        · rintro (hp | hmem)
          · exact Or.inl hp
          · exact Or.inr (by simp [hmem])
        · rintro (hp | hmem)
          · exact Or.inl hp
          · rcases List.mem_cons.mp hmem with rfl | hmem2
            · exact absurd rfl hbne
            · exact Or.inr hmem2

/-- `hash_table_put` on a well-formed tombstone-free table: it succeeds and
the result is the functional update (insert-or-overwrite) of the input.
This covers the growth path through `rehash`. -/
theorem hash_table_put_ok (ht : hash_table) (k v : Nat)
    (hwf : table_wf ht) (htf : tomb_free ht) :
    ∃ ht2, hash_table_put ht k v = some ht2 ∧ table_wf ht2 ∧ tomb_free ht2 ∧
      (¬ liveKey ht k → ht2.size = ht.size + 1) ∧
      (liveKey ht k → ht2.size = ht.size) ∧
      ((ht.size + 1) * 10 < ht.capacity * 7 → ht2.capacity = ht.capacity) ∧
      (∀ k2 v2, livePair ht2 k2 v2 ↔ ((k2 = k ∧ v2 = v) ∨ (k2 ≠ k ∧ livePair ht k2 v2))) := by
  have hcap : 0 < ht.capacity := hwf.cap_pos
  by_cases hng : (ht.size + 1) * 10 ≥ ht.capacity * 7
  · -- growth path
    obtain ⟨e, he⟩ := hwf.pow
    have hacc0wf : table_wf ⟨List.replicate (ht.capacity * 2) ⟨0, 0, 0⟩, ht.capacity * 2, 0⟩ := by
      refine ⟨⟨e + 1, by rw [he]; ring⟩, by simp, ?_, ?_, ?_, ?_, ?_⟩
      · intro b hb
        rw [List.eq_of_mem_replicate hb]
        left; rfl
      · show (0 : Nat) = _
        have hnil : (List.replicate (ht.capacity * 2) (⟨0, 0, 0⟩ : hash_bucket)).filter
            (fun b => b.state == 1) = [] := by
          rw [List.filter_eq_nil_iff]
          intro b hb
          rw [List.eq_of_mem_replicate hb]
          simp
        rw [hnil]
        rfl
      · show 0 * 10 < ht.capacity * 2 * 7
        omega
      · intro x y hx hy hxy hsx hsy
        exfalso
        have h0 := bucketAt_replicate_zero (ht.capacity * 2) x
        have hsx' : (bucketAt (List.replicate (ht.capacity * 2) ⟨0, 0, 0⟩) x).state = 1 := hsx
        omega
      · intro x hx hsx d hd
        exfalso
        have h0 := bucketAt_replicate_zero (ht.capacity * 2) x
        have hsx' : (bucketAt (List.replicate (ht.capacity * 2) ⟨0, 0, 0⟩) x).state = 1 := hsx
        omega
    have hacc0tf : tomb_free ⟨List.replicate (ht.capacity * 2) ⟨0, 0, 0⟩, ht.capacity * 2, 0⟩ := by
      intro b hb
      rw [List.eq_of_mem_replicate hb]
      simp
    have hnolive0 : ∀ k2, ¬ liveKey
        ⟨List.replicate (ht.capacity * 2) ⟨0, 0, 0⟩, ht.capacity * 2, 0⟩ k2 := by
      rintro k2 ⟨v2, i2, hi2, hbi2⟩
      have h0 := bucketAt_replicate_zero (ht.capacity * 2) i2
      rw [hbi2] at h0
      simp at h0
    have hpw : List.Pairwise (fun b1 b2 => b1.state = 1 → b2.state = 1 → b1.key ≠ b2.key)
        ht.buckets := by
      rw [List.pairwise_iff_getElem]
      intro i j h1 h2 hlt
      have hbi : ht.buckets[i] = bucketAt ht.buckets i := by
        rw [bucketAt, List.getD_eq_getElem _ _ h1]
      have hbj : ht.buckets[j] = bucketAt ht.buckets j := by
        rw [bucketAt, List.getD_eq_getElem _ _ h2]
      rw [hbi, hbj]
      intro hs1 hs2
      exact hwf.nodup i j (by rw [← hwf.len]; exact h1) (by rw [← hwf.len]; exact h2)
        (by omega) hs1 hs2
    have hdisj0 : ∀ b ∈ ht.buckets, b.state = 1 →
        ¬ liveKey ⟨List.replicate (ht.capacity * 2) ⟨0, 0, 0⟩, ht.capacity * 2, 0⟩ b.key :=
      fun b _ _ => hnolive0 b.key
    have hsz0 : (0 : Nat) + (ht.buckets.filter (fun b => b.state == 1)).length ≤ ht.size := by
      have := hwf.size_eq
      omega
    have hS0 : ht.size * 10 <
        (⟨List.replicate (ht.capacity * 2) ⟨0, 0, 0⟩, ht.capacity * 2, 0⟩ : hash_table).capacity
          * 7 := by
      show ht.size * 10 < ht.capacity * 2 * 7
      have := hwf.load
      omega
    obtain ⟨ht1, heq1, hwf1, htf1, hcap1, hsz1, hpairs1⟩ :=
      rehash_fold_ok 0 ht.buckets
        ⟨List.replicate (ht.capacity * 2) ⟨0, 0, 0⟩, ht.capacity * 2, 0⟩ ht.size
        hacc0wf hacc0tf hdisj0 hpw hsz0 hS0
    have hsz1' : ht1.size = ht.size := by
      have h1 : ht1.size = 0 + (ht.buckets.filter (fun b => b.state == 1)).length := hsz1
      have h2 := hwf.size_eq
      omega
    have hcap1' : ht1.capacity = ht.capacity * 2 := hcap1
    have hpairs1' : ∀ k2 v2, livePair ht1 k2 v2 ↔ livePair ht k2 v2 := by
      intro k2 v2
      rw [hpairs1]
      constructor
      · rintro (hp | hmem)
        · exact absurd ⟨v2, hp⟩ (hnolive0 k2)
        · exact (livePair_iff_mem hwf _ _).mpr hmem
      · intro hp
        exact Or.inr ((livePair_iff_mem hwf _ _).mp hp)
    have hfit1 : (ht1.size + 1) * 10 < ht1.capacity * 7 := by
      rw [hsz1', hcap1']
      have := hwf.load
      omega
    obtain ⟨bs2, fresh, heqp, hwf2, htf2, hpairs2, hfresh2⟩ := put_step_ok ht1 k v hwf1 htf1 hfit1
    have hlive1 : liveKey ht1 k ↔ liveKey ht k := by
      constructor
      · rintro ⟨vv, hp⟩; exact ⟨vv, (hpairs1' k vv).mp hp⟩
      · rintro ⟨vv, hp⟩; exact ⟨vv, (hpairs1' k vv).mpr hp⟩
    refine ⟨⟨bs2, ht1.capacity, if fresh then ht1.size + 1 else ht1.size⟩, ?_, hwf2, htf2,
      ?_, ?_, ?_, ?_⟩
    · show hash_table_put_fuel (1 + 1) ht k v = _
      have hre : rehash_with (hash_table_put_fuel 1) ht (ht.capacity * 2) = some ht1 := heq1
      have hunf : hash_table_put_fuel (1 + 1) ht k v =
          (match rehash_with (hash_table_put_fuel 1) ht (ht.capacity * 2) with
          | none => none
          | some ht1 =>
            match hash_table_put_probe ht1.buckets (ht1.capacity - 1) k v
                ht1.capacity (mix64 k &&& (ht1.capacity - 1)) none with
            | none => none
            | some (bs, fresh) =>
              some ⟨bs, ht1.capacity, if fresh then ht1.size + 1 else ht1.size⟩) := by
        simp only [hash_table_put_fuel, if_pos hng]
      rw [hunf, hre]
      show (match hash_table_put_probe ht1.buckets (ht1.capacity - 1) k v
          ht1.capacity (mix64 k &&& (ht1.capacity - 1)) none with
        | none => none
        | some (bs, fresh) =>
          some (⟨bs, ht1.capacity, if fresh then ht1.size + 1 else ht1.size⟩ : hash_table)) = _
      rw [heqp]
    · intro hnl
      have hfr : fresh = true := hfresh2.mpr (fun hx => hnl (hlive1.mp hx))
      subst hfr
      show ht1.size + 1 = ht.size + 1
      omega
    · intro hl
      cases hfr : fresh with
      | true => exact absurd (hlive1.mpr hl) (hfresh2.mp hfr)
      | false =>
        subst hfr
        show ht1.size = ht.size
        omega
    · intro hfit
      omega
    · intro k2 v2
      rw [hpairs2 k2 v2]
      constructor
      · rintro (⟨rfl, rfl⟩ | ⟨hne, hp⟩)
        · exact Or.inl ⟨rfl, rfl⟩
        · exact Or.inr ⟨hne, (hpairs1' k2 v2).mp hp⟩
      · rintro (⟨rfl, rfl⟩ | ⟨hne, hp⟩)
        · exact Or.inl ⟨rfl, rfl⟩
        · exact Or.inr ⟨hne, (hpairs1' k2 v2).mpr hp⟩
  · obtain ⟨ht2, heq, hwf2, htf2, hcap2, hfr, hnf, hpairs⟩ :=
      put_fuel_no_grow 1 ht k v hwf htf (by omega)
    exact ⟨ht2, heq, hwf2, htf2, hfr, hnf, fun _ => hcap2, hpairs⟩

theorem clamp_capacity_go_pow (cap : Nat) :
    ∀ f p, (∃ e, p = 2 ^ e) → ∃ e, clamp_capacity_go cap f p = 2 ^ e := by
  intro f
  induction f with
  | zero => intro p hp; exact hp
  | succ f ih =>
    intro p hp
    simp only [clamp_capacity_go]
    by_cases hlt : p < cap
    · rw [if_pos hlt]
      obtain ⟨e, rfl⟩ := hp
      exact ih (2 ^ e * 2) ⟨e + 1, by ring⟩
    · rw [if_neg hlt]
      exact hp

/-- The freshly initialized table is well formed, tombstone-free and
empty. -/
theorem hash_table_init_ok (c : Nat) :
    table_wf (hash_table_init c) ∧ tomb_free (hash_table_init c) ∧
      ∀ k v, ¬ livePair (hash_table_init c) k v := by
  have hpow : ∃ e, clamp_capacity (if c = 0 then 8 else c) = 2 ^ e :=
    clamp_capacity_go_pow _ _ 1 ⟨0, rfl⟩
  obtain ⟨e, he⟩ := hpow
  refine ⟨⟨⟨e, he⟩, by simp [hash_table_init], ?_, ?_, ?_, ?_, ?_⟩, ?_, ?_⟩
  · intro b hb
    rw [List.eq_of_mem_replicate hb]
    left; rfl
  · show (0 : Nat) = _
    have hnil : (List.replicate (clamp_capacity (if c = 0 then 8 else c))
        (⟨0, 0, 0⟩ : hash_bucket)).filter (fun b => b.state == 1) = [] := by
      rw [List.filter_eq_nil_iff]
      intro b hb
      rw [List.eq_of_mem_replicate hb]
      simp
    rw [show (hash_table_init c).buckets =
      List.replicate (clamp_capacity (if c = 0 then 8 else c)) ⟨0, 0, 0⟩ from rfl, hnil]
    rfl
  · show 0 * 10 < clamp_capacity (if c = 0 then 8 else c) * 7
    have : 0 < 2 ^ e := Nat.pos_pow_of_pos e (by norm_num)
    omega
  · intro x y hx hy hxy hsx hsy
    exfalso
    have h0 := bucketAt_replicate_zero (clamp_capacity (if c = 0 then 8 else c)) x
    have hsx' : (bucketAt (List.replicate (clamp_capacity (if c = 0 then 8 else c))
        ⟨0, 0, 0⟩) x).state = 1 := hsx
    omega
  · intro x hx hsx d hd
    exfalso
    have h0 := bucketAt_replicate_zero (clamp_capacity (if c = 0 then 8 else c)) x
    have hsx' : (bucketAt (List.replicate (clamp_capacity (if c = 0 then 8 else c))
        ⟨0, 0, 0⟩) x).state = 1 := hsx
    omega
  · intro b hb
    have hb' : b ∈ List.replicate (clamp_capacity (if c = 0 then 8 else c))
        (⟨0, 0, 0⟩ : hash_bucket) := hb
    rw [List.eq_of_mem_replicate hb']
    simp
  · rintro k v ⟨i, hi, hbi⟩
    have h0 := bucketAt_replicate_zero (clamp_capacity (if c = 0 then 8 else c)) i
    have hbi' : bucketAt (List.replicate (clamp_capacity (if c = 0 then 8 else c))
        ⟨0, 0, 0⟩) i = ⟨k, v, 1⟩ := hbi
    rw [hbi'] at h0
    simp at h0

/-- On well-formed tombstone-free tables `hash_table_get` always returns
(never diverges). -/
theorem get_total {ht : hash_table} (hwf : table_wf ht) (htf : tomb_free ht) (k : Nat) :
    ∃ r, hash_table_get ht k = some r := by
  by_cases hl : liveKey ht k
  · obtain ⟨v, hv⟩ := hl
    exact ⟨some v, get_found hwf hv⟩
  · exact ⟨none, get_not_found hwf htf hl⟩

/-! ## Selection tree: specification layer -/

/-- Specification value of node `j` of a tournament tree with `base` leaf
slots over leaf vector `leaves` (positions `≥ leaves.length` read as the
zero padding of the `calloc`ed array): internal nodes take the larger
child, the left child winning ties. -/
def node_val (leaves : List Nat) (base : Nat) (j : Nat) : Nat :=
  if base ≤ j then leaves.getD (j - base) 0
  else if j = 0 then 0
  else
    let l := node_val leaves base (2 * j)
    let r := node_val leaves base (2 * j + 1)
    if l ≥ r then l else r
termination_by base * 2 - j
decreasing_by
  all_goals omega

/-- Leaf indices below node `j`. -/
def node_leaves (base : Nat) (j : Nat) : List Nat :=
  if base ≤ j then [j - base]
  else if j = 0 then []
  else node_leaves base (2 * j) ++ node_leaves base (2 * j + 1)
termination_by base * 2 - j
decreasing_by
  all_goals omega

theorem node_val_leaf {leaves : List Nat} {base j : Nat} (h : base ≤ j) :
    node_val leaves base j = leaves.getD (j - base) 0 := by
  rw [node_val, if_pos h]

theorem node_val_internal {leaves : List Nat} {base j : Nat} (h1 : ¬ base ≤ j)
    (h0 : j ≠ 0) :
    node_val leaves base j =
      (if node_val leaves base (2 * j) ≥ node_val leaves base (2 * j + 1)
       then node_val leaves base (2 * j) else node_val leaves base (2 * j + 1)) := by
  rw [node_val]
  simp only [if_neg h1, if_neg h0]

theorem node_leaves_leaf {base j : Nat} (h : base ≤ j) :
    node_leaves base j = [j - base] := by
  rw [node_leaves, if_pos h]

theorem node_leaves_internal {base j : Nat} (h1 : ¬ base ≤ j) (h0 : j ≠ 0) :
    node_leaves base j = node_leaves base (2 * j) ++ node_leaves base (2 * j + 1) := by
  rw [node_leaves]
  simp only [if_neg h1, if_neg h0]

/-- Every leaf index below a node is in range, and its value is bounded by
the node's value. -/
theorem node_val_ge_leaves (leaves : List Nat) (base : Nat) :
    ∀ (d j : Nat), 1 ≤ j → j < base * 2 → base * 2 - j ≤ d →
    ∀ i ∈ node_leaves base j, i < base ∧ leaves.getD i 0 ≤ node_val leaves base j := by
  intro d
  induction d with
  | zero => intro j h1 h2 h3; omega
  | succ d ih =>
    intro j h1 h2 h3 i hi
    by_cases hleaf : base ≤ j
    · rw [node_leaves_leaf hleaf] at hi
      rw [List.mem_singleton] at hi
      subst hi
      rw [node_val_leaf hleaf]
      exact ⟨by omega, le_refl _⟩
    · have h0 : j ≠ 0 := by omega
      rw [node_leaves_internal hleaf h0] at hi
      rw [node_val_internal hleaf h0]
      rcases List.mem_append.mp hi with hil | hir
      · obtain ⟨hlt, hle⟩ := ih (2 * j) (by omega) (by omega) (by omega) i hil
        refine ⟨hlt, ?_⟩
        by_cases hge : node_val leaves base (2 * j) ≥ node_val leaves base (2 * j + 1)
        · rw [if_pos hge]; exact hle
        · rw [if_neg hge]; omega
      · obtain ⟨hlt, hle⟩ := ih (2 * j + 1) (by omega) (by omega) (by omega) i hir
        refine ⟨hlt, ?_⟩
        by_cases hge : node_val leaves base (2 * j) ≥ node_val leaves base (2 * j + 1)
        · rw [if_pos hge]; omega
        · rw [if_neg hge]; exact hle

/-- Every node's value is attained by one of its leaves. -/
theorem node_val_attained (leaves : List Nat) (base : Nat) :
    ∀ (d j : Nat), 1 ≤ j → j < base * 2 → base * 2 - j ≤ d →
    ∃ i ∈ node_leaves base j, node_val leaves base j = leaves.getD i 0 := by
  intro d
  induction d with
  | zero => intro j h1 h2 h3; omega
  | succ d ih =>
    intro j h1 h2 h3
    by_cases hleaf : base ≤ j
    · rw [node_leaves_leaf hleaf, node_val_leaf hleaf]
      exact ⟨j - base, List.mem_singleton_self _, rfl⟩
    · have h0 : j ≠ 0 := by omega
      rw [node_leaves_internal hleaf h0, node_val_internal hleaf h0]
      by_cases hge : node_val leaves base (2 * j) ≥ node_val leaves base (2 * j + 1)
      · obtain ⟨i, hi, hv⟩ := ih (2 * j) (by omega) (by omega) (by omega)
        exact ⟨i, List.mem_append_left _ hi, by rw [if_pos hge]; exact hv⟩
      · obtain ⟨i, hi, hv⟩ := ih (2 * j + 1) (by omega) (by omega) (by omega)
        exact ⟨i, List.mem_append_right _ hi, by rw [if_neg hge]; exact hv⟩

/-- Every real leaf index lies below the root. -/
theorem mem_node_leaves_root (base : Nat) (e : Nat) (hbase : base = 2 ^ e) :
    ∀ i, i < base → i ∈ node_leaves base 1 := by
  intro i hi
  have key : ∀ d, d ≤ e → i ∈ node_leaves base ((base + i) / 2 ^ d) := by
    intro d
    induction d with
    | zero =>
      intro hd0
      simp only [pow_zero, Nat.div_one]
      rw [node_leaves_leaf (by omega)]
      simp
    | succ d ih =>
      intro hde
      have hrec := ih (by omega)
      have hdiv : (base + i) / 2 ^ (d + 1) = (base + i) / 2 ^ d / 2 := by
        rw [Nat.div_div_eq_div_mul, pow_succ]
      set jd := (base + i) / 2 ^ d with hjd
      have hjdlo : 2 ^ (e - d) ≤ jd := by
        rw [hjd]
        rw [Nat.le_div_iff_mul_le (Nat.pos_pow_of_pos d (by norm_num))]
        have : 2 ^ (e - d) * 2 ^ d = 2 ^ e := by
          rw [← pow_add]
          congr 1
          omega
        rw [this, hbase]
        omega
      have hjdhi : jd < 2 ^ (e - d) * 2 := by
        rw [hjd]
        apply Nat.div_lt_of_lt_mul
        have hmul : 2 ^ d * (2 ^ (e - d) * 2) = 2 ^ e * 2 := by
          rw [← mul_assoc, mul_comm (2 ^ d) (2 ^ (e - d)), ← pow_add]
          have hexp : e - d + d = e := by omega
          rw [hexp]
        rw [hmul, ← hbase]
        omega
      rw [hdiv]
      have h2a : (2 : Nat) ≤ 2 ^ (e - d) := by
        have h1 : (2 : Nat) ^ 1 ≤ 2 ^ (e - d) := Nat.pow_le_pow_right (by norm_num) (by omega)
        simpa using h1
      have h2b : (2 : Nat) ^ (e - d) ≤ 2 ^ e := Nat.pow_le_pow_right (by norm_num) (by omega)
      rw [node_leaves_internal (by omega) (by omega)]
      have hchild : jd = 2 * (jd / 2) ∨ jd = 2 * (jd / 2) + 1 := by omega
      rcases hchild with hc | hc
      · exact List.mem_append_left _ (by rw [← hc]; exact hrec)
      · exact List.mem_append_right _ (by rw [← hc]; exact hrec)
  have hfin := key e (le_refl e)
  have : (base + i) / 2 ^ e = 1 := by
    rw [hbase] at hi ⊢
    rw [Nat.div_eq_of_lt_le] <;> omega
  rwa [this] at hfin

theorem next_pow2_go_spec (n : Nat) :
    ∀ f p, (∃ e, p = 2 ^ e) → n ≤ 2 ^ f * p →
    n ≤ next_pow2_go n f p ∧ ∃ e, next_pow2_go n f p = 2 ^ e := by
  intro f
  induction f with
  | zero =>
    intro p hp hle
    simp only [next_pow2_go]
    simp only [pow_zero, one_mul] at hle
    exact ⟨hle, hp⟩
  | succ f ih =>
    intro p hp hle
    simp only [next_pow2_go]
    by_cases hlt : p < n
    · rw [if_pos hlt]
      apply ih
      · obtain ⟨e, rfl⟩ := hp
        exact ⟨e + 1, by ring⟩
      · calc n ≤ 2 ^ (f + 1) * p := hle
          _ = 2 ^ f * (p * 2) := by ring
    · rw [if_neg hlt]
      exact ⟨by omega, hp⟩

theorem next_pow2_spec (n : Nat) :
    n ≤ next_pow2 n ∧ ∃ e, next_pow2 n = 2 ^ e := by
  apply next_pow2_go_spec n n 1 ⟨0, rfl⟩
  have := Nat.lt_two_pow n
  omega

theorem natAt_set_self {l : List Nat} {j : Nat} (x : Nat) (hj : j < l.length) :
    (l.set j x).getD j 0 = x := by
  rw [List.getD_eq_getElem _ _ (by simpa using hj)]
  simp [List.getElem_set_self]

theorem natAt_set_ne {l : List Nat} {i j : Nat} (x : Nat) (hne : i ≠ j) :
    (l.set j x).getD i 0 = l.getD i 0 := by
  by_cases hlt : i < l.length
  · rw [List.getD_eq_getElem _ _ (by simpa using hlt), List.getD_eq_getElem _ _ hlt]
    exact List.getElem_set_ne (Ne.symm hne) _
  · rw [List.getD_eq_default _ _ (by simp only [List.length_set]; omega),
      List.getD_eq_default _ _ (by omega)]

/-- Placing the real leaves writes exactly positions `i .. i+|xs|-1`. -/
theorem place_leaves_getD :
    ∀ (xs : List Nat) (t : List Nat) (i x : Nat), i + xs.length ≤ t.length →
    (place_leaves t i xs).getD x 0 =
      (if i ≤ x ∧ x < i + xs.length then xs.getD (x - i) 0 else t.getD x 0) := by
  intro xs
  induction xs with
  | nil =>
    intro t i x hlen
    simp only [place_leaves, List.length_nil, Nat.add_zero]
    rw [if_neg (by omega)]
  | cons y ys ih =>
    intro t i x hlen
    simp only [place_leaves]
    have hlen' : (i + 1) + ys.length ≤ (t.set i y).length := by
      simp only [List.length_set, List.length_cons] at hlen ⊢
      omega
    rw [ih (t.set i y) (i + 1) x hlen']
    simp only [List.length_cons]
    by_cases hx1 : i + 1 ≤ x ∧ x < i + 1 + ys.length
    · rw [if_pos hx1, if_pos (by omega)]
      have hxi : x - i = (x - (i + 1)) + 1 := by omega
      rw [hxi]
      rfl
    · rw [if_neg hx1]
      by_cases hxe : x = i
      · subst hxe
        rw [if_pos (by omega)]
        rw [natAt_set_self y (by simp only [List.length_cons] at hlen; omega),
          Nat.sub_self]
        rfl
      · rw [if_neg (by omega), natAt_set_ne y hxe]

theorem place_leaves_length :
    ∀ (xs : List Nat) (t : List Nat) (i : Nat),
      (place_leaves t i xs).length = t.length := by
  intro xs
  induction xs with
  | nil => intro t i; rfl
  | cons y ys ih =>
    intro t i
    simp only [place_leaves]
    rw [ih]
    simp

/-- Correctness of the bottom-up fill loop: after processing indices
`i, .., 1`, the array holds leaf values above `base` and specification node
values on `(i, base)`. -/
theorem fill_down_correct (leaves : List Nat) (base : Nat) :
    ∀ (i : Nat) (t : List Nat), i < base → t.length = base * 2 →
    (∀ x, base ≤ x → x < base * 2 → t.getD x 0 = leaves.getD (x - base) 0) →
    (∀ x, i < x → x < base → t.getD x 0 = node_val leaves base x) →
    (∀ x, base ≤ x → x < base * 2 →
        (fill_down t i).getD x 0 = leaves.getD (x - base) 0) ∧
    (∀ x, 0 < x → x < base → (fill_down t i).getD x 0 = node_val leaves base x) := by
  intro i
  induction i with
  | zero =>
    intro t hi hlen hleaf hint
    simp only [fill_down]
    exact ⟨hleaf, fun x hx0 hxb => hint x hx0 hxb⟩
  | succ i ih =>
    intro t hi hlen hleaf hint
    simp only [fill_down]
    have hc1 : i + 1 < base := hi
    have hc2 : (i + 1) * 2 < base * 2 := by omega
    have hc3 : (i + 1) * 2 + 1 < base * 2 := by omega
    -- the children already hold their specification values
    have hchild : ∀ c, i + 1 < c → c < base * 2 → t.getD c 0 = node_val leaves base c := by
      intro c hcl hcu
      by_cases hcb : base ≤ c
      · rw [hleaf c hcb hcu, node_val_leaf hcb]
      · exact hint c hcl (by omega)
    have hv1 : t.getD ((i + 1) * 2) 0 = node_val leaves base (2 * (i + 1)) := by
      rw [hchild ((i + 1) * 2) (by omega) hc2]
      congr 1
      ring
    have hv2 : t.getD ((i + 1) * 2 + 1) 0 = node_val leaves base (2 * (i + 1) + 1) := by
      rw [hchild ((i + 1) * 2 + 1) (by omega) hc3]
      congr 1
      ring
    have hval : (if t.getD ((i + 1) * 2) 0 ≥ t.getD ((i + 1) * 2 + 1) 0
        then t.getD ((i + 1) * 2) 0 else t.getD ((i + 1) * 2 + 1) 0) =
        node_val leaves base (i + 1) := by
      rw [hv1, hv2, node_val_internal (show ¬ base ≤ i + 1 by omega)
        (show i + 1 ≠ 0 by omega)]
    rw [hval]
    apply ih
    · omega
    · simp [hlen]
    · intro x hxb hxu
      rw [natAt_set_ne _ (by omega), hleaf x hxb hxu]
    · intro x hxl hxu
      by_cases hxe : x = i + 1
      · subst hxe
        rw [natAt_set_self _ (by omega)]
      · rw [natAt_set_ne _ hxe]
        exact hint x (by omega) hxu

/-- The scan in `selection_tree_winner` returns the least matching leaf
index, provided one exists in the scanned range. -/
theorem winner_scan_least (tr : List Nat) (base best : Nat) :
    ∀ (r i m : Nat), i ≤ m → m < i + r → tr.getD (base + m) 0 = best →
    (∀ x, x < m → tr.getD (base + x) 0 ≠ best) →
    winner_scan tr base best r i = m := by
  intro r
  induction r with
  | zero => intro i m h1 h2; omega
  | succ r ih =>
    intro i m h1 h2 h3 h4
    simp only [winner_scan]
    by_cases hhit : tr.getD (base + i) 0 = best
    · rw [if_pos hhit]
      by_contra hne
      exact h4 i (by omega) hhit
    · rw [if_neg hhit]
      have hmi : i ≠ m := by
        intro hcontra
        subst hcontra
        exact hhit h3
      exact ih (i + 1) m (by omega) (by omega) h3 h4

theorem natAt_replicate_zero (m x : Nat) : (List.replicate m (0 : Nat)).getD x 0 = 0 := by
  by_cases hx : x < m
  · rw [List.getD_eq_getElem _ _ (by simpa using hx)]
    simp
  · rw [List.getD_eq_default _ _ (by simpa using hx)]

theorem getD_le_foldr_max (l : List Nat) : ∀ i, l.getD i 0 ≤ l.foldr max 0 := by
  induction l with
  | nil => intro i; simp
  | cons x xs ih =>
    intro i
    cases i with
    | zero => exact le_max_left _ _
    | succ i =>
      calc (x :: xs).getD (i + 1) 0 = xs.getD i 0 := rfl
        _ ≤ xs.foldr max 0 := ih i
        _ ≤ (x :: xs).foldr max 0 := le_max_right _ _

theorem foldr_max_attained (l : List Nat) :
    l.foldr max 0 = 0 ∨ ∃ i, i < l.length ∧ l.getD i 0 = l.foldr max 0 := by
  induction l with
  | nil => left; rfl
  | cons x xs ih =>
    rcases le_total (xs.foldr max 0) x with hle | hle
    · right
      exact ⟨0, by simp, (max_eq_left hle).symm⟩
    · rcases ih with h0 | ⟨i, hi, he⟩
      · rcases Nat.eq_zero_of_le_zero (h0 ▸ hle) with rfl
        left
        simp [h0]
      · right
        refine ⟨i + 1, by simpa using hi, ?_⟩
        calc (x :: xs).getD (i + 1) 0 = xs.getD i 0 := rfl
          _ = xs.foldr max 0 := he
          _ = (x :: xs).foldr max 0 := (max_eq_right hle).symm

/-- C3: For every vote-count vector of length `n ≥ 1`, building the
tournament (selection) tree and querying the winner returns the lowest
index attaining the maximum count: the winner index is in range, its count
equals the maximum `counts.foldr max 0`, and every lower index has a
strictly different (hence smaller) count. -/
theorem claim_C3_tournament_winner_lowest_index (counts : List Nat)
    (h : 1 ≤ counts.length) :
    selection_tree_winner (selection_tree_build counts) < counts.length ∧
    counts.getD (selection_tree_winner (selection_tree_build counts)) 0 =
      counts.foldr max 0 ∧
    ∀ j, j < selection_tree_winner (selection_tree_build counts) →
      counts.getD j 0 ≠ counts.foldr max 0 := by
  classical
  obtain ⟨hnb, e, hbe⟩ := next_pow2_spec counts.length
  have hb1 : 1 ≤ next_pow2 counts.length := by
    rw [hbe]
    exact Nat.pos_pow_of_pos e (by norm_num)
  set n := counts.length with hn
  set base := next_pow2 counts.length with hbase
  set t1 := place_leaves (List.replicate (base * 2) 0) base counts with ht1
  set t2 := fill_down t1 (base - 1) with ht2
  have htree : (selection_tree_build counts).tree = t2 := rfl
  have hsize : (selection_tree_build counts).tree_size = base * 2 := rfl
  have hleafc : (selection_tree_build counts).leaf_count = n := rfl
  have ht1len : t1.length = base * 2 := by
    rw [ht1, place_leaves_length]
    simp
  have ht1get : ∀ x, base ≤ x → x < base * 2 → t1.getD x 0 = counts.getD (x - base) 0 := by
    intro x hx1 hx2
    rw [ht1, place_leaves_getD counts (List.replicate (base * 2) 0) base x
      (by simp; omega)]
    by_cases hxr : base ≤ x ∧ x < base + n
    · rw [if_pos hxr]
    · rw [if_neg hxr, natAt_replicate_zero]
      have hxn : n ≤ x - base := by omega
      rw [List.getD_eq_default _ _ (by omega)]
  obtain ⟨hL, hI⟩ := fill_down_correct counts base (base - 1) t1 (by omega) ht1len
    ht1get (by intro x hx1 hx2; omega)
  have hroot : t2.getD 1 0 = node_val counts base 1 := by
    by_cases hb2 : base ≤ 1
    · rw [← ht2] at hL
      rw [hL 1 hb2 (by omega), node_val_leaf hb2]
    · rw [← ht2] at hI
      exact hI 1 (by omega) (by omega)
  have hM1 : ∀ i, i < base → counts.getD i 0 ≤ node_val counts base 1 := by
    intro i hib
    have hmem := mem_node_leaves_root base e hbe i hib
    exact (node_val_ge_leaves counts base (base * 2) 1 (by omega) (by omega)
      (by omega) i hmem).2
  have hM2 : ∃ i, i < base ∧ node_val counts base 1 = counts.getD i 0 := by
    obtain ⟨i, himem, hv⟩ := node_val_attained counts base (base * 2) 1 (by omega)
      (by omega) (by omega)
    exact ⟨i, (node_val_ge_leaves counts base (base * 2) 1 (by omega) (by omega)
      (by omega) i himem).1, hv⟩
  have hrootM : node_val counts base 1 = counts.foldr max 0 := by
    apply le_antisymm
    · obtain ⟨i0, hi0, hv0⟩ := hM2
      rw [hv0]
      exact getD_le_foldr_max counts i0
    · rcases foldr_max_attained counts with h0 | ⟨i, hi, he⟩
      · omega
      · rw [← he]
        exact hM1 i (by omega)
  have hleaves2 : ∀ x, x < base → t2.getD (base + x) 0 = counts.getD x 0 := by
    intro x hx
    rw [← ht2] at hL
    rw [hL (base + x) (by omega) (by omega)]
    congr 1
    omega
  have hPex : ∃ m, counts.getD m 0 = counts.foldr max 0 := by
    rcases foldr_max_attained counts with h0 | ⟨i, hi, he⟩
    · refine ⟨0, ?_⟩
      have := getD_le_foldr_max counts 0
      omega
    · exact ⟨i, he⟩
  have hPlt : Nat.find hPex < n := by
    rcases foldr_max_attained counts with h0 | ⟨i, hi, he⟩
    · have h00 : counts.getD 0 0 = counts.foldr max 0 := by
        have := getD_le_foldr_max counts 0
        omega
      have := Nat.find_min' hPex h00
      omega
    · have := Nat.find_min' hPex he
      omega
  have hwinner : selection_tree_winner (selection_tree_build counts) = Nat.find hPex := by
    have hunf : selection_tree_winner (selection_tree_build counts) =
        winner_scan t2 (base * 2 / 2) (t2.getD 1 0) n 0 := rfl
    rw [hunf, Nat.mul_div_cancel _ (by norm_num)]
    apply winner_scan_least
    · omega
    · omega
    · rw [hleaves2 _ (by omega), hroot, hrootM]
      exact Nat.find_spec hPex
    · intro x hx
      rw [hleaves2 _ (by omega), hroot, hrootM]
      exact Nat.find_min hPex hx
  rw [hwinner]
  refine ⟨hPlt, Nat.find_spec hPex, fun j hj => Nat.find_min hPex hj⟩

/-- Witness for C3 at the spec's concrete examples: counts `[3,5,5,2]` give
winner index 1 and counts `[0,0,0]` give winner index 0. -/
theorem claim_C3_witness :
    selection_tree_winner (selection_tree_build [3, 5, 5, 2]) = 1 ∧
    selection_tree_winner (selection_tree_build [0, 0, 0]) = 0 := by
  constructor
  · obtain ⟨h1, h2, h3⟩ := claim_C3_tournament_winner_lowest_index [3, 5, 5, 2] (by decide)
    set w := selection_tree_winner (selection_tree_build [3, 5, 5, 2]) with hw
    clear hw
    clear_value w
    have hub : w < 4 := by simpa using h1
    interval_cases w
    · exact absurd h2 (by decide)
    · rfl
    · exact absurd (show ([3, 5, 5, 2] : List Nat).getD 1 0 =
        ([3, 5, 5, 2] : List Nat).foldr max 0 by decide) (h3 1 (by decide))
    · exact absurd (show ([3, 5, 5, 2] : List Nat).getD 1 0 =
        ([3, 5, 5, 2] : List Nat).foldr max 0 by decide) (h3 1 (by decide))
  · obtain ⟨h1, h2, h3⟩ := claim_C3_tournament_winner_lowest_index [0, 0, 0] (by decide)
    set w := selection_tree_winner (selection_tree_build [0, 0, 0]) with hw
    clear hw
    clear_value w
    have hub : w < 3 := by simpa using h1
    interval_cases w
    · rfl
    · exact absurd (show ([0, 0, 0] : List Nat).getD 0 0 =
        ([0, 0, 0] : List Nat).foldr max 0 by decide) (h3 0 (by decide))
    · exact absurd (show ([0, 0, 0] : List Nat).getD 0 0 =
        ([0, 0, 0] : List Nat).foldr max 0 by decide) (h3 0 (by decide))

/-! ## Authentication (`src/auth/auth.c`) -/

/-- The 32-byte expansion loop of `simple_hash` (xorshift on a `uint32`,
emitting the low byte each round). -/
def hash_expand (h : Nat) : Nat → List Nat
  | 0 => []
  | Nat.succ n =>
    let h1 := h ^^^ ((h <<< 13) % 2 ^ 32)
    let h2 := h1 ^^^ (h1 >>> 7)
    let h3 := h2 ^^^ ((h2 <<< 17) % 2 ^ 32)
    (h3 &&& 255) :: hash_expand h3 n

/-- `simple_hash` from auth.c: FNV-1a over salt then password bytes,
expanded to a 32-byte digest. -/
def simple_hash (salt password : List Nat) : List Nat :=
  let h0 := salt.foldl (fun h c => ((h ^^^ c) * 16777619) % 2 ^ 32) 2166136261
  let h1 := password.foldl (fun h c => ((h ^^^ c) * 16777619) % 2 ^ 32) h0
  hash_expand h1 32

/-- `auth_verify_password`: recompute and compare the digest. -/
def auth_verify_password (salt pass_hash password : List Nat) : Bool :=
  simple_hash salt password == pass_hash

/-! ## Application layer (`src/app/app.c`) -/

/-- `email_hash64` from app.c: 64-bit FNV-1a over the bytes of the string
(C strings contain no zero byte). -/
def email_hash64 (s : List Nat) : Nat :=
  s.foldl (fun h c => ((h ^^^ c) * 1099511628211) % 2 ^ 64) 14695981039346656037

/-- `vote_key` from app.c: `(election_id << 32) ^ (voter_id & 0xffffffff)`
in 64-bit arithmetic. -/
def vote_key (election_id voter_id : Nat) : Nat :=
  ((election_id <<< 32) % 2 ^ 64) ^^^ (voter_id &&& 0xffffffff)

def ROLE_VOTER : Nat := 0
def ROLE_ADMIN : Nat := 1
def ELECTION_CREATED : Nat := 0
def REGISTRATION_OPEN : Nat := 1
def VOTING_OPEN : Nat := 2
def VOTING_CLOSED : Nat := 3
def TALLY_COMPLETE : Nat := 4

/-- `user_rec_t` (models/user.h).  Strings are byte lists; the fixed-size
C buffers are reflected by truncation at write time. -/
structure user_rec where
  id : Nat
  name : List Nat
  email : List Nat
  role : Nat
  salt : List Nat
  pass_hash : List Nat
  active : Nat
deriving DecidableEq, Inhabited

/-- `election_rec_t` (models/election.h).  `phase` is the numeric value of
`election_phase_t` (reload casts arbitrary parsed integers into it);
`start_time`/`end_time` are `time_t` values, 0 meaning unset. -/
structure election_rec where
  id : Nat
  title : List Nat
  description : List Nat
  phase : Nat
  start_time : Nat
  end_time : Nat
  candidate_count : Nat
  candidates : List (List Nat)
deriving DecidableEq, Inhabited

/-- `vote_rec_t` (models/vote.h). -/
structure vote_rec where
  id : Nat
  election_id : Nat
  voter_id : Nat
  choice : Nat
deriving DecidableEq, Inhabited

/-- `app_state_t` (app/app.h).  The C code stores raw pointers to records
as hash-table values; records live in the append-only lists, so a pointer
is modelled as the record's position in its list (see the header comment).
`current_user` is the position of the logged-in user, `none` for NULL. -/
structure app_state where
  next_user_id : Nat
  next_election_id : Nat
  next_vote_id : Nat
  admin_pin : List Nat
  admin_exists : Nat
  users : List user_rec
  elections : List election_rec
  votes : List vote_rec
  user_by_id : hash_table
  user_by_email : hash_table
  election_by_id : hash_table
  has_voted : hash_table
  current_user : Option Nat
deriving DecidableEq, Inhabited

def bytesOfString (s : String) : List Nat :=
  s.data.map Char.toNat

/-- `app_init` from app.c. -/
def app_init : app_state :=
  ⟨1, 1, 1, bytesOfString "1234", 0, [], [], [],
   hash_table_init 64, hash_table_init 64, hash_table_init 64, hash_table_init 64, none⟩

/-- `app_register_user` from app.c.  Returns `some (code, state)` with the
C return code, `none` if a hash-table probe loop would not terminate.
`salt` is all zeros ("salt can be zeros for demo"). -/
def app_register_user (s : app_state) (name email password : List Nat) (role : Nat) :
    Option (Int × app_state) :=
  if role = ROLE_ADMIN ∧ s.admin_exists ≠ 0 then some (-1, s)
  else
    match hash_table_get s.user_by_email (email_hash64 email) with
    | none => none
    | some (some _) => some (-1, s)
    | some none =>
      let u : user_rec := ⟨s.next_user_id, name.take 63, email.take 127, role,
        List.replicate 16 0, simple_hash (List.replicate 16 0) password, 1⟩
      let s1 := { s with next_user_id := (s.next_user_id + 1) % 2 ^ 64,
                         users := s.users ++ [u] }
      match hash_table_put s1.user_by_id u.id s.users.length with
      | none => none
      | some t1 =>
        match hash_table_put s1.user_by_email (email_hash64 email) s.users.length with
        | none => none
        | some t2 =>
          some (0, { s1 with
            user_by_id := t1
            user_by_email := t2
            admin_exists := if role = ROLE_ADMIN then 1 else s.admin_exists })

/-- `app_login` from app.c. -/
def app_login (s : app_state) (email password : List Nat)
    (admin_pin_opt : Option (List Nat)) : Option (Int × app_state) :=
  match hash_table_get s.user_by_email (email_hash64 email) with
  | none => none
  | some none => some (-1, s)
  | some (some p) =>
    let u := s.users.getD p default
    if auth_verify_password u.salt u.pass_hash password = false then some (-1, s)
    else if u.role = ROLE_ADMIN ∧ admin_pin_opt ≠ some s.admin_pin then some (-1, s)
    else some (0, { s with current_user := some p })

/-- `app_logout` from app.c. -/
def app_logout (s : app_state) : app_state :=
  { s with current_user := none }

/-- `app_create_election` from app.c.  The C caller passes the candidate
array together with its count; the model takes the list of candidate
names. -/
def app_create_election (s : app_state) (title desc : List Nat)
    (candidates : List (List Nat)) : Option (Int × app_state) :=
  match s.current_user with
  | none => some (-1, s)
  | some up =>
    if (s.users.getD up default).role ≠ ROLE_ADMIN then some (-1, s)
    else
      let el : election_rec := ⟨s.next_election_id, title.take 127, desc.take 511,
        ELECTION_CREATED, 0, 0, candidates.length,
        candidates.map (fun c => c.take 63)⟩
      let s1 := { s with next_election_id := (s.next_election_id + 1) % 2 ^ 64,
                         elections := s.elections ++ [el] }
      match hash_table_put s1.election_by_id el.id s.elections.length with
      | none => none
      | some t => some (0, { s1 with election_by_id := t })

/-- `find_election_by_id` from app.c, as used in theorem statements: the
lookup through the id index, dereferencing the stored handle.  (In the
operation definitions below the lookup is inlined so that a diverging
probe loop is propagated as `none`.) -/
def find_election_by_id (s : app_state) (e : Nat) : Option election_rec :=
  match hash_table_get s.election_by_id e with
  | some (some p) => some (s.elections.getD p default)
  | _ => none

/-- `app_open_voting` from app.c. -/
def app_open_voting (s : app_state) (election_id : Nat) : Option (Int × app_state) :=
  match hash_table_get s.election_by_id election_id with
  | none => none
  | some none => some (-1, s)
  | some (some p) =>
    match s.current_user with
    | none => some (-1, s)
    | some up =>
      if (s.users.getD up default).role ≠ ROLE_ADMIN then some (-1, s)
      else
        let el := s.elections.getD p default
        if el.phase = ELECTION_CREATED ∨ el.phase = REGISTRATION_OPEN then
          some (0, { s with
            elections := s.elections.set p { el with phase := VOTING_OPEN } })
        else some (-1, s)

/-- `app_close_voting` from app.c. -/
def app_close_voting (s : app_state) (election_id : Nat) : Option (Int × app_state) :=
  match hash_table_get s.election_by_id election_id with
  | none => none
  | some none => some (-1, s)
  | some (some p) =>
    match s.current_user with
    | none => some (-1, s)
    | some up =>
      if (s.users.getD up default).role ≠ ROLE_ADMIN then some (-1, s)
      else
        let el := s.elections.getD p default
        if el.phase = VOTING_OPEN then
          some (0, { s with
            elections := s.elections.set p { el with phase := VOTING_CLOSED } })
        else some (-1, s)

/-- `app_cast_vote` from app.c. -/
def app_cast_vote (s : app_state) (election_id choice : Nat) : Option (Int × app_state) :=
  match s.current_user with
  | none => some (-1, s)
  | some up =>
    match hash_table_get s.election_by_id election_id with
    | none => none
    | some none => some (-1, s)
    | some (some p) =>
      let el := s.elections.getD p default
      if el.phase ≠ VOTING_OPEN then some (-1, s)
      else if el.candidate_count ≤ choice then some (-1, s)
      else
        let w := (s.users.getD up default).id
        match hash_table_get s.has_voted (vote_key election_id w) with
        | none => none
        | some (some _) => some (-1, s)
        | some none =>
          let v : vote_rec := ⟨s.next_vote_id, election_id, w, choice⟩
          let s1 := { s with next_vote_id := (s.next_vote_id + 1) % 2 ^ 64,
                             votes := s.votes ++ [v] }
          match hash_table_put s1.has_voted (vote_key election_id w) 1 with
          | none => none
          | some t => some (0, { s1 with has_voted := t })

/-- The engine operations on the in-memory state (the persistence mirror
is modelled separately). -/
inductive app_op where
  | register (name email password : List Nat) (role : Nat)
  | login (email password : List Nat) (admin_pin_opt : Option (List Nat))
  | logout
  | create_election (title desc : List Nat) (candidates : List (List Nat))
  | open_voting (election_id : Nat)
  | close_voting (election_id : Nat)
  | cast_vote (election_id choice : Nat)
deriving DecidableEq

/-- One engine operation (the C return code is discarded by callers that
continue running). -/
def app_step (s : app_state) : app_op → Option app_state
  | .register n e p r => (app_register_user s n e p r).map Prod.snd
  | .login e p pin => (app_login s e p pin).map Prod.snd
  | .logout => some (app_logout s)
  | .create_election t d c => (app_create_election s t d c).map Prod.snd
  | .open_voting e => (app_open_voting s e).map Prod.snd
  | .close_voting e => (app_close_voting s e).map Prod.snd
  | .cast_vote e c => (app_cast_vote s e c).map Prod.snd

/-- Running a sequence of engine operations from a state. -/
def app_run : List app_op → app_state → Option app_state
  | [], s => some s
  | op :: rest, s =>
    match app_step s op with
    | none => none
    | some s1 => app_run rest s1

/-- States reachable from `app_init` by engine operations. -/
def app_reach (s : app_state) : Prop :=
  ∃ ops, app_run ops app_init = some s

/-! ## Application-level invariants -/

/-- Invariant of reachable engine states: the four index tables are
well-formed and tombstone-free, the has-voted index contains the key of
every vote and the votes carry pairwise distinct keys, the election index
stores valid handles, and the admin flag and email index are consistent
with the user list (each user's stored email is the 127-byte truncation of
the email it was registered under, and those registration emails have
pairwise distinct 64-bit hashes, which are exactly the keys of the email
index). -/
structure app_inv (s : app_state) : Prop where
  uid_wf : table_wf s.user_by_id
  uid_tf : tomb_free s.user_by_id
  uem_wf : table_wf s.user_by_email
  uem_tf : tomb_free s.user_by_email
  eid_wf : table_wf s.election_by_id
  eid_tf : tomb_free s.election_by_id
  hv_wf : table_wf s.has_voted
  hv_tf : tomb_free s.has_voted
  votes_in_hv : ∀ v ∈ s.votes, liveKey s.has_voted (vote_key v.election_id v.voter_id)
  votes_nodup : (s.votes.map (fun v => vote_key v.election_id v.voter_id)).Nodup
  eid_sound : ∀ k p, livePair s.election_by_id k p →
    ∃ el, s.elections.get? p = some el ∧ el.id = k
  eid_complete : ∀ el ∈ s.elections, liveKey s.election_by_id el.id
  admin_flag : s.admin_exists ≠ 0 ↔ ∃ u ∈ s.users, u.role = ROLE_ADMIN
  emails : ∃ origs : List (List Nat), origs.length = s.users.length ∧
    (∀ i, i < s.users.length →
      (s.users.getD i default).email = (origs.getD i default).take 127) ∧
    (origs.map email_hash64).Nodup ∧
    (∀ k, liveKey s.user_by_email k ↔ ∃ o ∈ origs, email_hash64 o = k)

theorem app_inv_init : app_inv app_init := by
  obtain ⟨hw, ht, hn⟩ := hash_table_init_ok 64
  refine ⟨hw, ht, hw, ht, hw, ht, hw, ht, ?_, ?_, ?_, ?_, ?_, ?_⟩
  · intro v hv
    simp [app_init] at hv
  · simp [app_init]
  · rintro k p ⟨i, hi, hbi⟩
    exact absurd ⟨i, hi, hbi⟩ (hn k p)
  · intro el hel
    simp [app_init] at hel
  · constructor
    · intro h
      exact absurd rfl h
    · rintro ⟨u, hu, -⟩
      simp [app_init] at hu
  · refine ⟨[], by simp [app_init], by simp [app_init], by simp, ?_⟩
    intro k
    constructor
    · rintro ⟨v, hp⟩
      exact absurd hp (hn k v)
    · rintro ⟨o, ho, -⟩
      simp at ho

theorem getD_app_left {α : Type} (l l' : List α) (i : Nat) (d : α) (h : i < l.length) :
    (l ++ l').getD i d = l.getD i d := by
  rw [List.getD_eq_getElem?_getD, List.getD_eq_getElem?_getD, List.getElem?_append,
    if_pos h]

theorem getD_app_pt {α : Type} (l : List α) (x d : α) :
    (l ++ [x]).getD l.length d = x := by
  rw [List.getD_eq_getElem?_getD, List.getElem?_append, if_neg (lt_irrefl _)]
  simp
theorem liveKey_iff_of_pairs {t t' : hash_table} {k0 v0 : Nat}
    (hpairs : ∀ k v, livePair t' k v ↔ ((k = k0 ∧ v = v0) ∨ (k ≠ k0 ∧ livePair t k v))) :
    ∀ k, liveKey t' k ↔ (k = k0 ∨ liveKey t k) := by
  intro k
  constructor
  · rintro ⟨v, hp⟩
    rcases (hpairs k v).mp hp with ⟨rfl, -⟩ | ⟨hne, hp2⟩
    · exact Or.inl rfl
    · exact Or.inr ⟨v, hp2⟩
  · rintro (rfl | ⟨v, hp⟩)
    · exact ⟨v0, (hpairs k v0).mpr (Or.inl ⟨rfl, rfl⟩)⟩
    · by_cases hk : k = k0
      · exact ⟨v0, (hpairs k v0).mpr (Or.inl ⟨hk, rfl⟩)⟩
      · exact ⟨v, (hpairs k v).mpr (Or.inr ⟨hk, hp⟩)⟩

theorem app_inv_register {s : app_state} (hinv : app_inv s) (n e pw : List Nat)
    (role : Nat) {r : Int} {s' : app_state}
    (h : app_register_user s n e pw role = some (r, s')) : app_inv s' := by
  unfold app_register_user at h
  by_cases hadm : role = ROLE_ADMIN ∧ s.admin_exists ≠ 0
  · rw [if_pos hadm] at h
    simp only [Option.some.injEq, Prod.mk.injEq] at h
    obtain ⟨-, rfl⟩ := h
    exact hinv
  · rw [if_neg hadm] at h
    split at h
    · exact absurd h (by simp)
    · simp only [Option.some.injEq, Prod.mk.injEq] at h
      obtain ⟨-, rfl⟩ := h
      exact hinv
    · rename_i hg
      obtain ⟨t1, heq1, hwf1, htf1, -, -, -, -⟩ :=
        hash_table_put_ok s.user_by_id s.next_user_id s.users.length
          hinv.uid_wf hinv.uid_tf
      obtain ⟨t2, heq2, hwf2, htf2, -, -, -, hpairs2⟩ :=
        hash_table_put_ok s.user_by_email (email_hash64 e) s.users.length
          hinv.uem_wf hinv.uem_tf
      simp only [heq1, heq2, Option.some.injEq, Prod.mk.injEq] at h
      obtain ⟨-, rfl⟩ := h
      have hnl : ¬ liveKey s.user_by_email (email_hash64 e) :=
        (get_none_iff hinv.uem_wf hinv.uem_tf).mp hg
      obtain ⟨origs, holen, hotr, honodup, hoiff⟩ := hinv.emails
      refine ⟨hwf1, htf1, hwf2, htf2, hinv.eid_wf, hinv.eid_tf, hinv.hv_wf,
        hinv.hv_tf, hinv.votes_in_hv, hinv.votes_nodup, hinv.eid_sound,
        hinv.eid_complete, ?_, ?_⟩
      · show (if role = ROLE_ADMIN then 1 else s.admin_exists) ≠ 0 ↔ _
        by_cases hrole : role = ROLE_ADMIN
        · rw [if_pos hrole]
          constructor
          · intro h10
            refine ⟨⟨s.next_user_id, n.take 63, e.take 127, role, List.replicate 16 0,
              simple_hash (List.replicate 16 0) pw, 1⟩, ?_, hrole⟩
            exact List.mem_append_right _ (List.mem_singleton_self _)
          · intro h10
            exact one_ne_zero
        · rw [if_neg hrole]
          rw [hinv.admin_flag]
          constructor
          · rintro ⟨u, hu, hur⟩
            exact ⟨u, List.mem_append_left _ hu, hur⟩
          · rintro ⟨u, hu, hur⟩
            rcases List.mem_append.mp hu with hu2 | hu2
            · exact ⟨u, hu2, hur⟩
            · rw [List.mem_singleton] at hu2
              subst hu2
              exact absurd hur hrole
      · refine ⟨origs ++ [e], by simp [holen], ?_, ?_, ?_⟩
        · intro i hi
          simp only [List.length_append, List.length_cons, List.length_nil] at hi
          by_cases hilt : i < s.users.length
          · rw [getD_app_left _ _ _ _ hilt, getD_app_left _ _ _ _ (by omega),
              hotr i hilt]
          · have hie : i = s.users.length := by omega
            rw [hie, getD_app_pt, ← holen, getD_app_pt]
        · rw [List.map_append]
          rw [List.nodup_append]
          refine ⟨honodup, by simp, ?_⟩
          intro a ha hb
          simp only [List.map_cons, List.map_nil, List.mem_singleton] at hb
          subst hb
          obtain ⟨o, ho, hoh⟩ := List.mem_map.mp ha
          exact hnl ((hoiff (email_hash64 e)).mpr ⟨o, ho, hoh⟩)
        · intro k
          rw [liveKey_iff_of_pairs hpairs2 k]
          constructor
          · rintro (rfl | hl)
            · exact ⟨e, List.mem_append_right _ (List.mem_singleton_self _), rfl⟩
            · obtain ⟨o, ho, hoh⟩ := (hoiff k).mp hl
              exact ⟨o, List.mem_append_left _ ho, hoh⟩
          · rintro ⟨o, ho, hoh⟩
            rcases List.mem_append.mp ho with ho2 | ho2
            · exact Or.inr ((hoiff k).mpr ⟨o, ho2, hoh⟩)
            · rw [List.mem_singleton] at ho2
              subst ho2
              exact Or.inl hoh.symm

theorem get?_app_pt {α : Type} (l : List α) (x : α) :
    (l ++ [x]).get? l.length = some x := by
  rw [List.get?_eq_getElem?, List.getElem?_append, if_neg (lt_irrefl _)]
  simp

theorem get?_app_left {α : Type} (l l' : List α) (i : Nat) (h : i < l.length) :
    (l ++ l').get? i = l.get? i := by
  rw [List.get?_eq_getElem?, List.get?_eq_getElem?, List.getElem?_append, if_pos h]

theorem get?_set_self {α : Type} (l : List α) (i : Nat) (a : α) (h : i < l.length) :
    (l.set i a).get? i = some a := by
  rw [List.get?_eq_getElem?, List.getElem?_eq_getElem (by simpa using h)]
  simp [List.getElem_set_self]

theorem get?_set_ne {α : Type} {l : List α} {i j : Nat} (a : α) (h : i ≠ j) :
    (l.set j a).get? i = l.get? i := by
  by_cases hlt : i < l.length
  · rw [List.get?_eq_getElem?, List.getElem?_eq_getElem (by simpa using hlt),
      List.get?_eq_getElem?, List.getElem?_eq_getElem hlt]
    rw [List.getElem_set_ne (Ne.symm h) _]
  · rw [List.get?_eq_getElem?, List.getElem?_eq_none (by simp only [List.length_set]; omega),
      List.get?_eq_getElem?, List.getElem?_eq_none (by omega)]

/-- Changing only `current_user` preserves the invariant (it does not
mention the session). -/
theorem app_inv_current {s : app_state} (cu : Option Nat) (hinv : app_inv s) :
    app_inv { s with current_user := cu } := by
  obtain ⟨h1, h2, h3, h4, h5, h6, h7, h8, h9, h10, h11, h12, h13, h14⟩ := hinv
  exact ⟨h1, h2, h3, h4, h5, h6, h7, h8, h9, h10, h11, h12, h13, h14⟩

theorem app_inv_login {s : app_state} (hinv : app_inv s) (e pw : List Nat)
    (pin : Option (List Nat)) {r : Int} {s' : app_state}
    (h : app_login s e pw pin = some (r, s')) : app_inv s' := by
  unfold app_login at h
  split at h
  · exact absurd h (by simp)
  · simp only [Option.some.injEq, Prod.mk.injEq] at h
    obtain ⟨-, rfl⟩ := h
    exact hinv
  · dsimp only at h
    split_ifs at h <;> simp only [Option.some.injEq, Prod.mk.injEq] at h <;>
      obtain ⟨-, rfl⟩ := h
    · exact hinv
    · exact hinv
    · exact app_inv_current _ hinv

theorem app_inv_logout {s : app_state} (hinv : app_inv s) :
    app_inv (app_logout s) := app_inv_current none hinv

theorem app_inv_create {s : app_state} (hinv : app_inv s) (t d : List Nat)
    (cands : List (List Nat)) {r : Int} {s' : app_state}
    (h : app_create_election s t d cands = some (r, s')) : app_inv s' := by
  unfold app_create_election at h
  split at h
  · simp only [Option.some.injEq, Prod.mk.injEq] at h
    obtain ⟨-, rfl⟩ := h
    exact hinv
  · split_ifs at h with hrole
    · simp only [Option.some.injEq, Prod.mk.injEq] at h
      obtain ⟨-, rfl⟩ := h
      exact hinv
    · obtain ⟨t1, heq1, hwf1, htf1, -, -, -, hpairs1⟩ :=
        hash_table_put_ok s.election_by_id s.next_election_id s.elections.length
          hinv.eid_wf hinv.eid_tf
      simp only [heq1, Option.some.injEq, Prod.mk.injEq] at h
      obtain ⟨-, rfl⟩ := h
      refine ⟨hinv.uid_wf, hinv.uid_tf, hinv.uem_wf, hinv.uem_tf, hwf1, htf1,
        hinv.hv_wf, hinv.hv_tf, hinv.votes_in_hv, hinv.votes_nodup, ?_, ?_,
        hinv.admin_flag, hinv.emails⟩
      · intro k p hp
        rcases (hpairs1 k p).mp hp with ⟨rfl, rfl⟩ | ⟨hne, hp2⟩
        · exact ⟨_, get?_app_pt _ _, rfl⟩
        · obtain ⟨el', hg, hid⟩ := hinv.eid_sound k p hp2
          have hlt : p < s.elections.length := by
            by_contra hge
            rw [List.get?_eq_getElem?, List.getElem?_eq_none (by omega)] at hg
            exact absurd hg (by simp)
          exact ⟨el', by rw [get?_app_left _ _ _ hlt]; exact hg, hid⟩
      · intro el2 hel2
        rcases List.mem_append.mp hel2 with h2 | h2
        · by_cases hk : el2.id = s.next_election_id
          · exact ⟨s.elections.length, (hpairs1 _ _).mpr (Or.inl ⟨hk, rfl⟩)⟩
          · obtain ⟨v, hp⟩ := hinv.eid_complete el2 h2
            exact ⟨v, (hpairs1 _ _).mpr (Or.inr ⟨hk, hp⟩)⟩
        · rw [List.mem_singleton] at h2
          subst h2
          exact ⟨s.elections.length, (hpairs1 _ _).mpr (Or.inl ⟨rfl, rfl⟩)⟩

/-- Replacing an election in place with one carrying the same id preserves
the invariant. -/
theorem app_inv_elections_set {s : app_state} (hinv : app_inv s) {p : Nat}
    {newel : election_rec} (hplt : p < s.elections.length)
    (hid : newel.id = (s.elections.getD p default).id) :
    app_inv { s with elections := s.elections.set p newel } := by
  have hold : s.elections.get? p = some (s.elections.getD p default) := by
    rw [List.get?_eq_getElem?, List.getElem?_eq_getElem hplt,
      List.getD_eq_getElem?_getD, List.getElem?_eq_getElem hplt]
    rfl
  refine ⟨hinv.uid_wf, hinv.uid_tf, hinv.uem_wf, hinv.uem_tf, hinv.eid_wf,
    hinv.eid_tf, hinv.hv_wf, hinv.hv_tf, hinv.votes_in_hv, hinv.votes_nodup,
    ?_, ?_, hinv.admin_flag, hinv.emails⟩
  · intro k q hpq
    obtain ⟨el', hg', hid'⟩ := hinv.eid_sound k q hpq
    by_cases hqp : q = p
    · subst hqp
      rw [hold] at hg'
      injection hg' with hg'
      subst hg'
      refine ⟨newel, get?_set_self _ _ _ hplt, ?_⟩
      rw [hid]
      exact hid'
    · exact ⟨el', by rw [get?_set_ne _ hqp]; exact hg', hid'⟩
  · intro el2 hel2
    obtain ⟨q, hq⟩ := List.mem_iff_get?.mp hel2
    by_cases hqp : q = p
    · subst hqp
      rw [get?_set_self _ _ _ hplt] at hq
      injection hq with hq
      subst hq
      rw [hid]
      exact hinv.eid_complete _ (List.mem_iff_get?.mpr ⟨_, hold⟩)
    · rw [get?_set_ne _ hqp] at hq
      exact hinv.eid_complete el2 (List.mem_iff_get?.mpr ⟨q, hq⟩)

theorem app_inv_open {s : app_state} (hinv : app_inv s) (eid : Nat) {r : Int}
    {s' : app_state} (h : app_open_voting s eid = some (r, s')) : app_inv s' := by
  unfold app_open_voting at h
  split at h
  · exact absurd h (by simp)
  · simp only [Option.some.injEq, Prod.mk.injEq] at h
    obtain ⟨-, rfl⟩ := h
    exact hinv
  · rename_i p hget
    split at h
    · simp only [Option.some.injEq, Prod.mk.injEq] at h
      obtain ⟨-, rfl⟩ := h
      exact hinv
    · dsimp only at h
      split_ifs at h <;> simp only [Option.some.injEq, Prod.mk.injEq] at h <;>
        obtain ⟨-, rfl⟩ := h
      · exact hinv
      · have hlp : livePair s.election_by_id eid p :=
          (get_some_iff hinv.eid_wf hinv.eid_tf).mp hget
        obtain ⟨el', hg', hid'⟩ := hinv.eid_sound eid p hlp
        have hplt : p < s.elections.length := by
          by_contra hge
          rw [List.get?_eq_getElem?, List.getElem?_eq_none (by omega)] at hg'
          exact absurd hg' (by simp)
        exact app_inv_elections_set hinv hplt rfl
      · exact hinv

theorem app_inv_close {s : app_state} (hinv : app_inv s) (eid : Nat) {r : Int}
    {s' : app_state} (h : app_close_voting s eid = some (r, s')) : app_inv s' := by
  unfold app_close_voting at h
  split at h
  · exact absurd h (by simp)
  · simp only [Option.some.injEq, Prod.mk.injEq] at h
    obtain ⟨-, rfl⟩ := h
    exact hinv
  · rename_i p hget
    split at h
    · simp only [Option.some.injEq, Prod.mk.injEq] at h
      obtain ⟨-, rfl⟩ := h
      exact hinv
    · dsimp only at h
      split_ifs at h <;> simp only [Option.some.injEq, Prod.mk.injEq] at h <;>
        obtain ⟨-, rfl⟩ := h
      · exact hinv
      · have hlp : livePair s.election_by_id eid p :=
          (get_some_iff hinv.eid_wf hinv.eid_tf).mp hget
        obtain ⟨el', hg', hid'⟩ := hinv.eid_sound eid p hlp
        have hplt : p < s.elections.length := by
          by_contra hge
          rw [List.get?_eq_getElem?, List.getElem?_eq_none (by omega)] at hg'
          exact absurd hg' (by simp)
        exact app_inv_elections_set hinv hplt rfl
      · exact hinv

theorem app_inv_cast {s : app_state} (hinv : app_inv s) (eid c : Nat) {r : Int}
    {s' : app_state} (h : app_cast_vote s eid c = some (r, s')) : app_inv s' := by
  unfold app_cast_vote at h
  split at h
  · simp only [Option.some.injEq, Prod.mk.injEq] at h
    obtain ⟨-, rfl⟩ := h
    exact hinv
  · rename_i up hcu
    split at h
    · exact absurd h (by simp)
    · simp only [Option.some.injEq, Prod.mk.injEq] at h
      obtain ⟨-, rfl⟩ := h
      exact hinv
    · rename_i p hget
      dsimp only at h
      split_ifs at h with hph hcc
      · simp only [Option.some.injEq, Prod.mk.injEq] at h
        obtain ⟨-, rfl⟩ := h
        exact hinv
      · simp only [Option.some.injEq, Prod.mk.injEq] at h
        obtain ⟨-, rfl⟩ := h
        exact hinv
      · split at h
        · exact absurd h (by simp)
        · simp only [Option.some.injEq, Prod.mk.injEq] at h
          obtain ⟨-, rfl⟩ := h
          exact hinv
        · rename_i hgv
          obtain ⟨t1, heq1, hwf1, htf1, -, -, -, hpairs1⟩ :=
            hash_table_put_ok s.has_voted
              (vote_key eid (s.users.getD up default).id) 1
              hinv.hv_wf hinv.hv_tf
          simp only [heq1, Option.some.injEq, Prod.mk.injEq] at h
          obtain ⟨-, rfl⟩ := h
          have hnl : ¬ liveKey s.has_voted (vote_key eid (s.users.getD up default).id) :=
            (get_none_iff hinv.hv_wf hinv.hv_tf).mp hgv
          refine ⟨hinv.uid_wf, hinv.uid_tf, hinv.uem_wf, hinv.uem_tf, hinv.eid_wf,
            hinv.eid_tf, hwf1, htf1, ?_, ?_, hinv.eid_sound, hinv.eid_complete,
            hinv.admin_flag, hinv.emails⟩
          · intro v hv
            rcases List.mem_append.mp hv with h2 | h2
            · by_cases hk : vote_key v.election_id v.voter_id =
                  vote_key eid (s.users.getD up default).id
              · exact ⟨1, (hpairs1 _ _).mpr (Or.inl ⟨hk, rfl⟩)⟩
              · obtain ⟨w, hw⟩ := hinv.votes_in_hv v h2
                exact ⟨w, (hpairs1 _ _).mpr (Or.inr ⟨hk, hw⟩)⟩
            · rw [List.mem_singleton] at h2
              subst h2
              exact ⟨1, (hpairs1 _ _).mpr (Or.inl ⟨rfl, rfl⟩)⟩
          · rw [List.map_append, List.nodup_append]
            refine ⟨hinv.votes_nodup, by simp, ?_⟩
            intro a ha hb
            simp only [List.map_cons, List.map_nil, List.mem_singleton] at hb
            subst hb
            obtain ⟨v, hv, hvk⟩ := List.mem_map.mp ha
            obtain ⟨w, hw⟩ := hinv.votes_in_hv v hv
            rw [hvk] at hw
            exact hnl ⟨w, hw⟩

theorem app_inv_step {s s' : app_state} (hinv : app_inv s) (op : app_op)
    (h : app_step s op = some s') : app_inv s' := by
  cases op with
  | register n e pw role =>
    simp only [app_step, Option.map_eq_some'] at h
    obtain ⟨⟨r, s2⟩, heq, rfl⟩ := h
    exact app_inv_register hinv n e pw role heq
  | login e pw pin =>
    simp only [app_step, Option.map_eq_some'] at h
    obtain ⟨⟨r, s2⟩, heq, rfl⟩ := h
    exact app_inv_login hinv e pw pin heq
  | logout =>
    simp only [app_step, Option.some.injEq] at h
    subst h
    exact app_inv_logout hinv
  | create_election t d c =>
    simp only [app_step, Option.map_eq_some'] at h
    obtain ⟨⟨r, s2⟩, heq, rfl⟩ := h
    exact app_inv_create hinv t d c heq
  | open_voting eid =>
    simp only [app_step, Option.map_eq_some'] at h
    obtain ⟨⟨r, s2⟩, heq, rfl⟩ := h
    exact app_inv_open hinv eid heq
  | close_voting eid =>
    simp only [app_step, Option.map_eq_some'] at h
    obtain ⟨⟨r, s2⟩, heq, rfl⟩ := h
    exact app_inv_close hinv eid heq
  | cast_vote eid c =>
    simp only [app_step, Option.map_eq_some'] at h
    obtain ⟨⟨r, s2⟩, heq, rfl⟩ := h
    exact app_inv_cast hinv eid c heq

theorem app_inv_run : ∀ (ops : List app_op) (s s' : app_state), app_inv s →
    app_run ops s = some s' → app_inv s' := by
  intro ops
  induction ops with
  | nil =>
    intro s s' hinv h
    simp only [app_run, Option.some.injEq] at h
    subst h
    exact hinv
  | cons op rest ih =>
    intro s s' hinv h
    simp only [app_run] at h
    split at h
    · exact absurd h (by simp)
    · rename_i s1 hstep
      exact ih s1 s' (app_inv_step hinv op hstep) h

/-- Every reachable engine state satisfies the invariant. -/
theorem app_inv_reach {s : app_state} (h : app_reach s) : app_inv s := by
  obtain ⟨ops, hops⟩ := h
  exact app_inv_run ops app_init s app_inv_init hops

/-! ## Claim theorems: application layer -/

theorem length_le_one_of_map_const_nodup {α β : Type} (l : List α) (f : α → β)
    (c : β) (hn : (l.map f).Nodup) (hc : ∀ x ∈ l, f x = c) : l.length ≤ 1 := by
  cases l with
  | nil => simp
  | cons a t =>
    cases t with
    | nil => simp
    | cons b t2 =>
      exfalso
      simp only [List.map_cons, List.nodup_cons, List.mem_cons] at hn
      exact hn.1 (Or.inl (by rw [hc a (by simp), hc b (by simp)]))

/-- CLAIM C1: in every reachable engine state, at most one vote record
carries any given (election_id, voter_id) pair. -/
theorem claim_C1_at_most_one_vote_per_pair {s : app_state} (h : app_reach s)
    (election_id voter_id : Nat) :
    (s.votes.filter
      (fun v => v.election_id == election_id && v.voter_id == voter_id)).length ≤ 1 := by
  have hinv := app_inv_reach h
  refine length_le_one_of_map_const_nodup _ (fun v => vote_key v.election_id v.voter_id)
    (vote_key election_id voter_id)
    (hinv.votes_nodup.sublist (List.Sublist.map _ (List.filter_sublist _))) ?_
  intro v hv
  have hp := List.of_mem_filter hv
  simp only [Bool.and_eq_true, beq_iff_eq] at hp
  show vote_key v.election_id v.voter_id = _
  rw [hp.1, hp.2]

/-- Witness for C1 at the initial state. -/
theorem claim_C1_witness :
    (app_init.votes.filter
      (fun v => v.election_id == 7 && v.voter_id == 9)).length ≤ 1 :=
  claim_C1_at_most_one_vote_per_pair ⟨[], rfl⟩ 7 9

/-- CLAIM C2: on every reachable state `app_cast_vote` returns a code;
the code is nonzero exactly when one of the five preconditions fails (no
logged-in user, missing election, phase other than VOTING_OPEN,
out-of-range choice, or an existing has-voted entry for the key), and
every failure leaves the state completely unchanged. -/
theorem claim_C2_cast_vote_failure_conditions {s : app_state} (h : app_reach s)
    (election_id choice : Nat) :
    ∃ r s', app_cast_vote s election_id choice = some (r, s') ∧
      (r ≠ 0 → s' = s) ∧
      (r ≠ 0 ↔ (s.current_user = none ∨
        find_election_by_id s election_id = none ∨
        (∃ el, find_election_by_id s election_id = some el ∧
          el.phase ≠ VOTING_OPEN) ∨
        (∃ el, find_election_by_id s election_id = some el ∧
          el.candidate_count ≤ choice) ∨
        (∃ up, s.current_user = some up ∧
          liveKey s.has_voted
            (vote_key election_id (s.users.getD up default).id)))) := by
  have hinv := app_inv_reach h
  cases hcu : s.current_user with
  | none =>
    refine ⟨-1, s, ?_, fun _ => rfl, ?_⟩
    · unfold app_cast_vote
      rw [hcu]
    · exact ⟨fun _ => Or.inl rfl, fun _ => by decide⟩
  | some up =>
    obtain ⟨g1, hg1⟩ := get_total hinv.eid_wf hinv.eid_tf election_id
    cases g1 with
    | none =>
      have hfind : find_election_by_id s election_id = none := by
        unfold find_election_by_id
        rw [hg1]
      refine ⟨-1, s, ?_, fun _ => rfl, ?_⟩
      · unfold app_cast_vote
        rw [hcu, hg1]
      · exact ⟨fun _ => Or.inr (Or.inl hfind), fun _ => by decide⟩
    | some p =>
      have hfind : find_election_by_id s election_id =
          some (s.elections.getD p default) := by
        unfold find_election_by_id
        rw [hg1]
      by_cases hph : (s.elections.getD p default).phase = VOTING_OPEN
      · by_cases hcc : (s.elections.getD p default).candidate_count ≤ choice
        · refine ⟨-1, s, ?_, fun _ => rfl, ?_⟩
          · unfold app_cast_vote
            rw [hcu, hg1]
            dsimp only
            rw [if_neg (not_not_intro hph), if_pos hcc]
          · exact ⟨fun _ => Or.inr (Or.inr (Or.inr (Or.inl ⟨_, hfind, hcc⟩))),
              fun _ => by decide⟩
        · obtain ⟨g2, hg2⟩ := get_total hinv.hv_wf hinv.hv_tf
            (vote_key election_id (s.users.getD up default).id)
          cases g2 with
          | some w =>
            refine ⟨-1, s, ?_, fun _ => rfl, ?_⟩
            · unfold app_cast_vote
              rw [hcu, hg1]
              dsimp only
              rw [if_neg (not_not_intro hph), if_neg hcc]
              rw [hg2]
            · refine ⟨fun _ => Or.inr (Or.inr (Or.inr (Or.inr
                ⟨up, rfl, w, (get_some_iff hinv.hv_wf hinv.hv_tf).mp hg2⟩))),
                fun _ => by decide⟩
          | none =>
            obtain ⟨t1, heq1, -⟩ := hash_table_put_ok s.has_voted
              (vote_key election_id (s.users.getD up default).id) 1
              hinv.hv_wf hinv.hv_tf
            refine ⟨0, { s with
                next_vote_id := (s.next_vote_id + 1) % 2 ^ 64
                votes := s.votes ++
                  [⟨s.next_vote_id, election_id, (s.users.getD up default).id, choice⟩]
                has_voted := t1 }, ?_, fun h0 => absurd rfl h0, ?_⟩
            · unfold app_cast_vote
              rw [hcu, hg1]
              dsimp only
              rw [if_neg (not_not_intro hph), if_neg hcc]
              rw [hg2]
              dsimp only
              rw [heq1]
            · constructor
              · intro h0
                exact absurd rfl h0
              · intro hR
                exfalso
                rcases hR with hc | hc | ⟨el', hel', hph'⟩ | ⟨el', hel', hcc'⟩ |
                  ⟨up', hup', hlk⟩
                · exact absurd hc (by simp)
                · rw [hfind] at hc
                  exact absurd hc (by simp)
                · rw [hfind] at hel'
                  injection hel' with hel'
                  subst hel'
                  exact hph' hph
                · rw [hfind] at hel'
                  injection hel' with hel'
                  subst hel'
                  exact hcc hcc'
                · injection hup' with hup'
                  subst hup'
                  exact (get_none_iff hinv.hv_wf hinv.hv_tf).mp hg2 hlk
      · refine ⟨-1, s, ?_, fun _ => rfl, ?_⟩
        · unfold app_cast_vote
          rw [hcu, hg1]
          dsimp only
          rw [if_pos hph]
        · exact ⟨fun _ => Or.inr (Or.inr (Or.inl ⟨_, hfind, hph⟩)),
            fun _ => by decide⟩

/-- Witness for C2 at the initial state (no user is logged in, so the
call fails and changes nothing). -/
theorem claim_C2_witness :
    ∃ r s', app_cast_vote app_init 1 0 = some (r, s') ∧
      (r ≠ 0 → s' = app_init) ∧
      (r ≠ 0 ↔ (app_init.current_user = none ∨
        find_election_by_id app_init 1 = none ∨
        (∃ el, find_election_by_id app_init 1 = some el ∧
          el.phase ≠ VOTING_OPEN) ∨
        (∃ el, find_election_by_id app_init 1 = some el ∧
          el.candidate_count ≤ 0) ∨
        (∃ up, app_init.current_user = some up ∧
          liveKey app_init.has_voted
            (vote_key 1 (app_init.users.getD up default).id)))) :=
  claim_C2_cast_vote_failure_conditions ⟨[], rfl⟩ 1 0

theorem getD_set_self {α : Type} {l : List α} {p : Nat} (a d : α)
    (h : p < l.length) : (l.set p a).getD p d = a := by
  rw [List.getD_eq_getElem?_getD, ← List.get?_eq_getElem?, get?_set_self _ _ _ h]
  rfl

theorem getD_set_ne {α : Type} {l : List α} {i p : Nat} (a d : α) (h : i ≠ p) :
    (l.set p a).getD i d = l.getD i d := by
  rw [List.getD_eq_getElem?_getD, ← List.get?_eq_getElem?, get?_set_ne _ h,
    List.get?_eq_getElem?, List.getD_eq_getElem?_getD]

theorem register_elections {s : app_state} {n e pw : List Nat} {role : Nat}
    {r : Int} {s' : app_state}
    (h : app_register_user s n e pw role = some (r, s')) :
    s'.elections = s.elections := by
  unfold app_register_user at h
  by_cases hadm : role = ROLE_ADMIN ∧ s.admin_exists ≠ 0
  · rw [if_pos hadm] at h
    simp only [Option.some.injEq, Prod.mk.injEq] at h
    obtain ⟨-, rfl⟩ := h
    rfl
  · rw [if_neg hadm] at h
    split at h
    · exact absurd h (by simp)
    · simp only [Option.some.injEq, Prod.mk.injEq] at h
      obtain ⟨-, rfl⟩ := h
      rfl
    · dsimp only at h
      split at h
      · exact absurd h (by simp)
      · split at h
        · exact absurd h (by simp)
        · simp only [Option.some.injEq, Prod.mk.injEq] at h
          obtain ⟨-, rfl⟩ := h
          rfl

theorem login_elections {s : app_state} {e pw : List Nat}
    {pin : Option (List Nat)} {r : Int} {s' : app_state}
    (h : app_login s e pw pin = some (r, s')) : s'.elections = s.elections := by
  unfold app_login at h
  split at h
  · exact absurd h (by simp)
  · simp only [Option.some.injEq, Prod.mk.injEq] at h
    obtain ⟨-, rfl⟩ := h
    rfl
  · dsimp only at h
    split_ifs at h <;> simp only [Option.some.injEq, Prod.mk.injEq] at h <;>
      obtain ⟨-, rfl⟩ := h <;> rfl

theorem create_elections_getD {s : app_state} {t d : List Nat}
    {cands : List (List Nat)} {r : Int} {s' : app_state}
    (h : app_create_election s t d cands = some (r, s')) :
    ∀ i, i < s.elections.length →
      s'.elections.getD i default = s.elections.getD i default := by
  unfold app_create_election at h
  split at h
  · simp only [Option.some.injEq, Prod.mk.injEq] at h
    obtain ⟨-, rfl⟩ := h
    intro i hi
    rfl
  · split_ifs at h
    · simp only [Option.some.injEq, Prod.mk.injEq] at h
      obtain ⟨-, rfl⟩ := h
      intro i hi
      rfl
    · dsimp only at h
      split at h
      · exact absurd h (by simp)
      · simp only [Option.some.injEq, Prod.mk.injEq] at h
        obtain ⟨-, rfl⟩ := h
        intro i hi
        exact getD_app_left _ _ _ _ hi

theorem cast_elections {s : app_state} {eid c : Nat} {r : Int} {s' : app_state}
    (h : app_cast_vote s eid c = some (r, s')) : s'.elections = s.elections := by
  unfold app_cast_vote at h
  split at h
  · simp only [Option.some.injEq, Prod.mk.injEq] at h
    obtain ⟨-, rfl⟩ := h
    rfl
  · split at h
    · exact absurd h (by simp)
    · simp only [Option.some.injEq, Prod.mk.injEq] at h
      obtain ⟨-, rfl⟩ := h
      rfl
    · dsimp only at h
      split_ifs at h
      · simp only [Option.some.injEq, Prod.mk.injEq] at h
        obtain ⟨-, rfl⟩ := h
        rfl
      · simp only [Option.some.injEq, Prod.mk.injEq] at h
        obtain ⟨-, rfl⟩ := h
        rfl
      · split at h
        · exact absurd h (by simp)
        · simp only [Option.some.injEq, Prod.mk.injEq] at h
          obtain ⟨-, rfl⟩ := h
          rfl
        · split at h
          · exact absurd h (by simp)
          · simp only [Option.some.injEq, Prod.mk.injEq] at h
            obtain ⟨-, rfl⟩ := h
            rfl

theorem open_voting_phase_mono {s : app_state} {eid : Nat} {r : Int}
    {s' : app_state} (h : app_open_voting s eid = some (r, s')) :
    ∀ i, i < s.elections.length →
      ((s'.elections.getD i default).phase = (s.elections.getD i default).phase ∨
        ((s.elections.getD i default).phase < (s'.elections.getD i default).phase ∧
          (s'.elections.getD i default).phase ≤ TALLY_COMPLETE)) := by
  unfold app_open_voting at h
  split at h
  · exact absurd h (by simp)
  · simp only [Option.some.injEq, Prod.mk.injEq] at h
    obtain ⟨-, rfl⟩ := h
    intro i hi
    exact Or.inl rfl
  · rename_i p hget
    split at h
    · simp only [Option.some.injEq, Prod.mk.injEq] at h
      obtain ⟨-, rfl⟩ := h
      intro i hi
      exact Or.inl rfl
    · dsimp only at h
      split_ifs at h with h1 h2 <;> simp only [Option.some.injEq, Prod.mk.injEq] at h <;>
        obtain ⟨-, rfl⟩ := h
      · intro i hi
        exact Or.inl rfl
      · intro i hi
        by_cases hip : i = p
        · subst hip
          right
          dsimp only
          rw [getD_set_self _ _ hi]
          rcases h2 with h2 | h2 <;> rw [h2]
          · exact ⟨(by decide : ELECTION_CREATED < VOTING_OPEN),
              (by decide : VOTING_OPEN ≤ TALLY_COMPLETE)⟩
          · exact ⟨(by decide : REGISTRATION_OPEN < VOTING_OPEN),
              (by decide : VOTING_OPEN ≤ TALLY_COMPLETE)⟩
        · left
          dsimp only
          rw [getD_set_ne _ _ hip]
      · intro i hi
        exact Or.inl rfl

theorem close_voting_phase_mono {s : app_state} {eid : Nat} {r : Int}
    {s' : app_state} (h : app_close_voting s eid = some (r, s')) :
    ∀ i, i < s.elections.length →
      ((s'.elections.getD i default).phase = (s.elections.getD i default).phase ∨
        ((s.elections.getD i default).phase < (s'.elections.getD i default).phase ∧
          (s'.elections.getD i default).phase ≤ TALLY_COMPLETE)) := by
  unfold app_close_voting at h
  split at h
  · exact absurd h (by simp)
  · simp only [Option.some.injEq, Prod.mk.injEq] at h
    obtain ⟨-, rfl⟩ := h
    intro i hi
    exact Or.inl rfl
  · rename_i p hget
    split at h
    · simp only [Option.some.injEq, Prod.mk.injEq] at h
      obtain ⟨-, rfl⟩ := h
      intro i hi
      exact Or.inl rfl
    · dsimp only at h
      split_ifs at h with h1 h2 <;> simp only [Option.some.injEq, Prod.mk.injEq] at h <;>
        obtain ⟨-, rfl⟩ := h
      · intro i hi
        exact Or.inl rfl
      · intro i hi
        by_cases hip : i = p
        · subst hip
          right
          dsimp only
          rw [getD_set_self _ _ hi, h2]
          exact ⟨(by decide : VOTING_OPEN < VOTING_CLOSED),
            (by decide : VOTING_CLOSED ≤ TALLY_COMPLETE)⟩
        · left
          dsimp only
          rw [getD_set_ne _ _ hip]
      · intro i hi
        exact Or.inl rfl

/-- CLAIM C5: every engine operation leaves each stored election's phase
unchanged or strictly increases it within the five-phase order, and an
open-voting or close-voting call on an election whose phase is not the
legal predecessor returns -1 with the state unchanged. -/
theorem claim_C5_phase_monotone {s s' : app_state} (op : app_op)
    (hstep : app_step s op = some s') :
    (∀ i, i < s.elections.length →
      ((s'.elections.getD i default).phase = (s.elections.getD i default).phase ∨
        ((s.elections.getD i default).phase < (s'.elections.getD i default).phase ∧
          (s'.elections.getD i default).phase ≤ TALLY_COMPLETE))) ∧
    (∀ eid el, find_election_by_id s eid = some el →
      (¬(el.phase = ELECTION_CREATED ∨ el.phase = REGISTRATION_OPEN) →
        app_open_voting s eid = some (-1, s)) ∧
      (el.phase ≠ VOTING_OPEN → app_close_voting s eid = some (-1, s))) := by
  constructor
  · cases op with
    | register n e pw role =>
      simp only [app_step, Option.map_eq_some'] at hstep
      obtain ⟨⟨r, s2⟩, heq, rfl⟩ := hstep
      intro i hi
      rw [register_elections heq]
      exact Or.inl rfl
    | login e pw pin =>
      simp only [app_step, Option.map_eq_some'] at hstep
      obtain ⟨⟨r, s2⟩, heq, rfl⟩ := hstep
      intro i hi
      rw [login_elections heq]
      exact Or.inl rfl
    | logout =>
      simp only [app_step, Option.some.injEq] at hstep
      subst hstep
      intro i hi
      exact Or.inl rfl
    | create_election t d c =>
      simp only [app_step, Option.map_eq_some'] at hstep
      obtain ⟨⟨r, s2⟩, heq, rfl⟩ := hstep
      intro i hi
      rw [create_elections_getD heq i hi]
      exact Or.inl rfl
    | open_voting eid =>
      simp only [app_step, Option.map_eq_some'] at hstep
      obtain ⟨⟨r, s2⟩, heq, rfl⟩ := hstep
      exact open_voting_phase_mono heq
    | close_voting eid =>
      simp only [app_step, Option.map_eq_some'] at hstep
      obtain ⟨⟨r, s2⟩, heq, rfl⟩ := hstep
      exact close_voting_phase_mono heq
    | cast_vote eid c =>
      simp only [app_step, Option.map_eq_some'] at hstep
      obtain ⟨⟨r, s2⟩, heq, rfl⟩ := hstep
      intro i hi
      rw [cast_elections heq]
      exact Or.inl rfl
  · intro eid el hfind
    unfold find_election_by_id at hfind
    split at hfind
    · rename_i p hget
      injection hfind with hfind
      subst hfind
      constructor
      · intro hbad
        unfold app_open_voting
        rw [hget]
        cases hcu : s.current_user with
        | none => rfl
        | some up =>
          dsimp only
          by_cases hrole : (s.users.getD up default).role = ROLE_ADMIN
          · rw [if_neg (not_not_intro hrole), if_neg hbad]
          · rw [if_pos hrole]
      · intro hbad
        unfold app_close_voting
        rw [hget]
        cases hcu : s.current_user with
        | none => rfl
        | some up =>
          dsimp only
          by_cases hrole : (s.users.getD up default).role = ROLE_ADMIN
          · rw [if_neg (not_not_intro hrole), if_neg hbad]
          · rw [if_pos hrole]
    · exact absurd hfind (by simp)

/-- Witness for C5 on a concrete step (a logout from the initial state). -/
theorem claim_C5_witness :
    (∀ i, i < app_init.elections.length →
      (((app_logout app_init).elections.getD i default).phase =
          (app_init.elections.getD i default).phase ∨
        ((app_init.elections.getD i default).phase <
            ((app_logout app_init).elections.getD i default).phase ∧
          ((app_logout app_init).elections.getD i default).phase ≤
            TALLY_COMPLETE))) ∧
    (∀ eid el, find_election_by_id app_init eid = some el →
      (¬(el.phase = ELECTION_CREATED ∨ el.phase = REGISTRATION_OPEN) →
        app_open_voting app_init eid = some (-1, app_init)) ∧
      (el.phase ≠ VOTING_OPEN →
        app_close_voting app_init eid = some (-1, app_init))) :=
  claim_C5_phase_monotone .logout rfl

/-- The record update performed by the phase-transition operations
(`e->phase = ...` on one stored election). -/
def with_phase (el : election_rec) (ph : Nat) : election_rec :=
  { el with phase := ph }

/-- A concrete bootstrap script: register an admin, log in with the
admin PIN, create a two-candidate election (id 1, `start_time` 0). -/
def c7_ops : List app_op :=
  [.register [97] [97] [112] 1,
   .login [97] [112] (some (bytesOfString "1234")),
   .create_election [116] [100] [[99], [98]]]

/-- The engine state after `c7_ops`. -/
def c7_s3 : app_state := (app_run c7_ops app_init).getD app_init

/-- The engine state after additionally opening voting on election 1. -/
def c7_s4 : app_state := ((app_open_voting c7_s3 1).map Prod.snd).getD c7_s3

/-- CLAIM C7 counterexample: a successful `app_open_voting` call on an
election in phase CREATED with unset (zero) `start_time` sets the phase
to VOTING_OPEN but leaves `start_time` unset — the code never stamps it,
contradicting the spec's "if unset, stamps start_time". -/
theorem claim_C7_counterexample :
    app_run c7_ops app_init = some c7_s3 ∧
    (c7_s3.elections.getD 0 default).start_time = 0 ∧
    (c7_s3.elections.getD 0 default).phase = ELECTION_CREATED ∧
    app_open_voting c7_s3 1 = some (0, c7_s4) ∧
    (c7_s4.elections.getD 0 default).phase = VOTING_OPEN ∧
    (c7_s4.elections.getD 0 default).start_time = 0 := by
  refine ⟨?_, ?_, ?_, ?_, ?_, ?_⟩ <;> decide

/-- CLAIM C7 (amended): a successful open_voting call on a reachable
state replaces the target election's record by the same record with
phase set to VOTING_OPEN; every other field — including `start_time`,
which the spec claims is stamped — and every other part of the state is
unchanged. -/
theorem claim_C7_open_voting_frame {s s' : app_state} (hr : app_reach s)
    (eid : Nat) (h : app_open_voting s eid = some (0, s')) :
    ∃ p, hash_table_get s.election_by_id eid = some (some p) ∧
      p < s.elections.length ∧
      ((s.elections.getD p default).phase = ELECTION_CREATED ∨
        (s.elections.getD p default).phase = REGISTRATION_OPEN) ∧
      s'.elections = s.elections.set p
        (with_phase (s.elections.getD p default) VOTING_OPEN) ∧
      (s'.elections.getD p default).phase = VOTING_OPEN ∧
      (s'.elections.getD p default).start_time =
        (s.elections.getD p default).start_time ∧
      s'.users = s.users ∧ s'.votes = s.votes ∧
      s'.next_election_id = s.next_election_id ∧
      s'.current_user = s.current_user := by
  have hinv := app_inv_reach hr
  unfold app_open_voting at h
  split at h
  · exact absurd h (by simp)
  · simp only [Option.some.injEq, Prod.mk.injEq] at h
    exact absurd h.1 (by decide)
  · rename_i p hget
    split at h
    · simp only [Option.some.injEq, Prod.mk.injEq] at h
      exact absurd h.1 (by decide)
    · dsimp only at h
      split_ifs at h with h1 h2
      · simp only [Option.some.injEq, Prod.mk.injEq] at h
        exact absurd h.1 (by decide)
      · simp only [Option.some.injEq, Prod.mk.injEq] at h
        obtain ⟨-, rfl⟩ := h
        have hlp : livePair s.election_by_id eid p :=
          (get_some_iff hinv.eid_wf hinv.eid_tf).mp hget
        obtain ⟨el', hg', -⟩ := hinv.eid_sound eid p hlp
        have hplt : p < s.elections.length := by
          by_contra hge
          rw [List.get?_eq_getElem?, List.getElem?_eq_none (by omega)] at hg'
          exact absurd hg' (by simp)
        refine ⟨p, hget, hplt, h2, rfl, ?_, ?_, rfl, rfl, rfl, rfl⟩
        · dsimp only
          rw [getD_set_self _ _ hplt]
        · dsimp only
          rw [getD_set_self _ _ hplt]
      · simp only [Option.some.injEq, Prod.mk.injEq] at h
        exact absurd h.1 (by decide)

/-- Witness for the amended C7 theorem at the concrete bootstrap state. -/
theorem claim_C7_witness :
    ∃ p, hash_table_get c7_s3.election_by_id 1 = some (some p) ∧
      p < c7_s3.elections.length ∧
      ((c7_s3.elections.getD p default).phase = ELECTION_CREATED ∨
        (c7_s3.elections.getD p default).phase = REGISTRATION_OPEN) ∧
      c7_s4.elections = c7_s3.elections.set p
        (with_phase (c7_s3.elections.getD p default) VOTING_OPEN) ∧
      (c7_s4.elections.getD p default).phase = VOTING_OPEN ∧
      (c7_s4.elections.getD p default).start_time =
        (c7_s3.elections.getD p default).start_time ∧
      c7_s4.users = c7_s3.users ∧ c7_s4.votes = c7_s3.votes ∧
      c7_s4.next_election_id = c7_s3.next_election_id ∧
      c7_s4.current_user = c7_s3.current_user :=
  claim_C7_open_voting_frame ⟨c7_ops, by decide⟩ 1 (by decide)

/-- A 128-byte email: 127 times 'a' then 'x'.  Its copy into the 128-byte
`email` field keeps only the first 127 bytes. -/
def c8_e1 : List Nat := List.replicate 127 97 ++ [120]

/-- A 127-byte email of 'a's: exactly the stored truncation of `c8_e1`. -/
def c8_e2 : List Nat := List.replicate 127 97

/-- State after registering a voter under `c8_e1`. -/
def c8_s1 : app_state :=
  ((app_register_user app_init [110] c8_e1 [112] 0).map Prod.snd).getD app_init

/-- State after additionally registering a voter under `c8_e2`. -/
def c8_s2 : app_state :=
  ((app_register_user c8_s1 [110] c8_e2 [112] 0).map Prod.snd).getD c8_s1

/-- CLAIM C8 counterexample: after registering email `c8_e1`, a voter
whose stored email is byte-for-byte `c8_e2` exists, yet registering
`c8_e2` succeeds (the duplicate check compares 64-bit hashes of the
untruncated argument, not stored emails), leaving two distinct users
with identical stored emails. -/
theorem claim_C8_counterexample :
    app_register_user app_init [110] c8_e1 [112] 0 = some (0, c8_s1) ∧
    (c8_s1.users.getD 0 default).email = c8_e2 ∧
    app_register_user c8_s1 [110] c8_e2 [112] 0 = some (0, c8_s2) ∧
    c8_s2.users.length = 2 ∧
    (c8_s2.users.getD 0 default).email = (c8_s2.users.getD 1 default).email ∧
    (c8_s2.users.getD 0 default).id ≠ (c8_s2.users.getD 1 default).id := by
  refine ⟨?_, ?_, ?_, ?_, ?_, ?_⟩ <;> decide

/-- CLAIM C8 (amended): on a reachable state, register fails exactly when
the role is ADMIN and the admin flag is set, or the email index already
holds the 64-bit hash of the untruncated requested email; failure leaves
the state unchanged; success appends exactly one user with id
`next_user_id` (stored email truncated to 127 bytes) and bumps the
counter; and the emails users were registered under have pairwise
distinct hashes, with each stored email their 127-byte truncation. -/
theorem claim_C8_register_conditions {s : app_state} (hr : app_reach s)
    (n e pw : List Nat) (role : Nat) :
    (∃ r s', app_register_user s n e pw role = some (r, s') ∧
      (r ≠ 0 ↔ ((role = ROLE_ADMIN ∧ s.admin_exists ≠ 0) ∨
        liveKey s.user_by_email (email_hash64 e))) ∧
      (r ≠ 0 → s' = s) ∧
      (r = 0 → s'.users = s.users ++
        [⟨s.next_user_id, n.take 63, e.take 127, role, List.replicate 16 0,
          simple_hash (List.replicate 16 0) pw, 1⟩] ∧
        s'.next_user_id = (s.next_user_id + 1) % 2 ^ 64)) ∧
    (∃ origs : List (List Nat), origs.length = s.users.length ∧
      (∀ i, i < s.users.length →
        (s.users.getD i default).email = (origs.getD i default).take 127) ∧
      (origs.map email_hash64).Nodup) := by
  have hinv := app_inv_reach hr
  constructor
  · by_cases hadm : role = ROLE_ADMIN ∧ s.admin_exists ≠ 0
    · refine ⟨-1, s, ?_, ?_, fun _ => rfl, fun h0 => absurd h0 (by decide)⟩
      · unfold app_register_user
        rw [if_pos hadm]
      · exact ⟨fun _ => Or.inl hadm, fun _ => by decide⟩
    · obtain ⟨g, hg⟩ := get_total hinv.uem_wf hinv.uem_tf (email_hash64 e)
      cases g with
      | some p =>
        refine ⟨-1, s, ?_, ?_, fun _ => rfl, fun h0 => absurd h0 (by decide)⟩
        · unfold app_register_user
          rw [if_neg hadm, hg]
        · exact ⟨fun _ => Or.inr ⟨p, (get_some_iff hinv.uem_wf hinv.uem_tf).mp hg⟩,
            fun _ => by decide⟩
      | none =>
        obtain ⟨t1, heq1, -⟩ := hash_table_put_ok s.user_by_id s.next_user_id
          s.users.length hinv.uid_wf hinv.uid_tf
        obtain ⟨t2, heq2, -⟩ := hash_table_put_ok s.user_by_email (email_hash64 e)
          s.users.length hinv.uem_wf hinv.uem_tf
        refine ⟨0, { s with
            next_user_id := (s.next_user_id + 1) % 2 ^ 64
            users := s.users ++
              [⟨s.next_user_id, n.take 63, e.take 127, role, List.replicate 16 0,
                simple_hash (List.replicate 16 0) pw, 1⟩]
            user_by_id := t1
            user_by_email := t2
            admin_exists := if role = ROLE_ADMIN then 1 else s.admin_exists },
          ?_, ?_, fun h0 => absurd rfl h0, fun _ => ⟨rfl, rfl⟩⟩
        · unfold app_register_user
          rw [if_neg hadm, hg]
          dsimp only
          rw [heq1]
          dsimp only
          rw [heq2]
        · constructor
          · intro h0
            exact absurd rfl h0
          · intro hR
            exfalso
            rcases hR with hadm' | hl
            · exact hadm hadm'
            · exact (get_none_iff hinv.uem_wf hinv.uem_tf).mp hg hl
  · obtain ⟨origs, h1, h2, h3, -⟩ := hinv.emails
    exact ⟨origs, h1, h2, h3⟩

/-- Witness for the amended C8 theorem at the initial state. -/
theorem claim_C8_witness :
    (∃ r s', app_register_user app_init [110] [101] [112] 0 = some (r, s') ∧
      (r ≠ 0 ↔ ((0 = ROLE_ADMIN ∧ app_init.admin_exists ≠ 0) ∨
        liveKey app_init.user_by_email (email_hash64 [101]))) ∧
      (r ≠ 0 → s' = app_init) ∧
      (r = 0 → s'.users = app_init.users ++
        [⟨app_init.next_user_id, List.take 63 [110], List.take 127 [101], 0,
          List.replicate 16 0, simple_hash (List.replicate 16 0) [112], 1⟩] ∧
        s'.next_user_id = (app_init.next_user_id + 1) % 2 ^ 64)) ∧
    (∃ origs : List (List Nat), origs.length = app_init.users.length ∧
      (∀ i, i < app_init.users.length →
        (app_init.users.getD i default).email = (origs.getD i default).take 127) ∧
      (origs.map email_hash64).Nodup) :=
  claim_C8_register_conditions ⟨[], rfl⟩ [110] [101] [112] 0

/-! ## Indexed-store operation sequences (for the hash-table claims) -/

/-- An Indexed Store operation (the §4.1 contract's `put`/`delete`). -/
inductive ht_op where
  | put (key value : Nat)
  | del (key : Nat)
deriving DecidableEq

/-- One store operation; `none` = the C probe loop never terminates.  A
failed delete (key absent) leaves the table unchanged, as in the C code. -/
def ht_step (t : hash_table) : ht_op → Option hash_table
  | .put k v => hash_table_put t k v
  | .del k =>
    match hash_table_delete t k with
    | none => none
    | some none => some t
    | some (some t2) => some t2

/-- Running a sequence of store operations. -/
def ht_run : List ht_op → hash_table → Option hash_table
  | [], t => some t
  | op :: rest, t =>
    match ht_step t op with
    | none => none
    | some t2 => ht_run rest t2

/-- Insert key 2, overwrite it, insert colliding key 6 (both hash to
bucket 3 of a capacity-4 table). -/
def c9_ops : List ht_op := [.put 2 11, .put 2 22, .put 6 33]

/-- The capacity-4 table after `c9_ops`. -/
def c9_a : hash_table := (ht_run c9_ops (hash_table_init 4)).getD (hash_table_init 4)

/-- `c9_a` after deleting key 2 (leaving a tombstone on key 6's probe
path). -/
def c9_b : hash_table := (ht_run [.del 2] c9_a).getD c9_a

/-- A capacity-2 table with one tombstone and one live key: no bucket is
empty, so lookups of absent keys never terminate. -/
def c9_t2 : hash_table :=
  (ht_run [.put 1 11, .del 1, .put 2 22] (hash_table_init 2)).getD (hash_table_init 2)

/-- CLAIM C9 (code bug): the positive parts of the store contract hold on
small tables — put overwrites (key 2 maps to 22), delete leaves a
tombstone state distinct from empty, and a lookup probing past the
tombstone still finds the colliding key 6 — but the `get -> handle |
NOT_FOUND` contract is violated: on the reachable capacity-2 table
`c9_t2`, which has a tombstone and a live key and no empty bucket, the C
probe loop for the absent keys 3 and 1 never sees an empty bucket and
never terminates (`none` in the model), instead of returning NOT_FOUND. -/
theorem claim_C9_store_contract :
    ht_run c9_ops (hash_table_init 4) = some c9_a ∧
    hash_table_get c9_a 2 = some (some 22) ∧
    hash_table_get c9_a 6 = some (some 33) ∧
    ht_run [.del 2] c9_a = some c9_b ∧
    (bucketAt c9_b.buckets 3).state = 2 ∧
    hash_table_get c9_b 2 = some none ∧
    hash_table_get c9_b 6 = some (some 33) ∧
    ht_run [.put 1 11, .del 1, .put 2 22] (hash_table_init 2) = some c9_t2 ∧
    (∀ i, i < 2 → (bucketAt c9_t2.buckets i).state ≠ 0) ∧
    hash_table_get c9_t2 3 = none ∧
    hash_table_get c9_t2 1 = none := by
  refine ⟨?_, ?_, ?_, ?_, ?_, ?_, ?_, ?_, ?_, ?_, ?_⟩ <;> decide

/-- Put two keys into a capacity-2 table and delete both: the load-factor
check `(size + 1) * 10 >= capacity * 7` counts only live entries, so no
growth is triggered while every bucket becomes a tombstone. -/
def c10_ops : List ht_op := [.put 1 11, .del 1, .put 2 22, .del 2]

/-- The all-tombstone capacity-2 table after `c10_ops`. -/
def c10_t : hash_table :=
  (ht_run c10_ops (hash_table_init 2)).getD (hash_table_init 2)

/-- CLAIM C10 (code bug): a table with no empty bucket is reachable from
`hash_table_init` by put/delete operations (`c10_t`: both buckets are
tombstones, size 0, and the tombstone-blind load factor 10/14 triggers no
growth), and on it the probe loops of get, put and delete all fail to
terminate (`none` in the model): the loops only stop at an empty bucket
or a matching live key, and `c10_t` has neither. -/
theorem claim_C10_probe_loops_diverge :
    ht_run c10_ops (hash_table_init 2) = some c10_t ∧
    c10_t.capacity = 2 ∧
    (bucketAt c10_t.buckets 0).state = 2 ∧
    (bucketAt c10_t.buckets 1).state = 2 ∧
    c10_t.size = 0 ∧
    hash_table_get c10_t 1 = none ∧
    hash_table_get c10_t 3 = none ∧
    hash_table_put c10_t 1 99 = none ∧
    hash_table_delete c10_t 3 = none := by
  refine ⟨?_, ?_, ?_, ?_, ?_, ?_, ?_, ?_, ?_⟩ <;> decide

/-! ## Persistence: `app_load_from_disk` and the CLI bootstrap

The CSV files are modelled at the parsed-row level: a row carries the
already-tokenised field values (numeric fields as the `Nat` value of
`strtoull`/`atoi` on the token, strings as byte lists, the hex-coded
salt/hash fields as their decoded bytes).  Integer narrowing
(`uint8_t`/`uint32_t`/`uint64_t` casts) and `strncpy` truncation are
applied exactly where the C code applies them. -/

/-- One data row of `state.csv` (the save format always writes all five
fields). -/
structure state_row where
  admin_exists : Nat
  admin_pin : List Nat
  next_user_id : Nat
  next_election_id : Nat
  next_vote_id : Nat
deriving DecidableEq

/-- One data row of `users.csv`. -/
structure user_row where
  id : Nat
  name : List Nat
  email : List Nat
  role : Nat
  active : Nat
  salt : List Nat
  pass_hash : List Nat
deriving DecidableEq

/-- One data row of `elections.csv`; `candidates` is `none` when the
sixth field is missing (then the parsed `candidate_count` survives,
otherwise `split_candidates` overwrites it with the token count). -/
structure election_row where
  id : Nat
  title : List Nat
  description : List Nat
  phase : Nat
  candidate_count : Nat
  candidates : Option (List (List Nat))
deriving DecidableEq

/-- One data row of `votes.csv`. -/
structure vote_row where
  id : Nat
  election_id : Nat
  voter_id : Nat
  choice : Nat
deriving DecidableEq

/-- A parsed data directory: optional `state.csv` row plus the rows of
the three table files (a missing file is the empty row list). -/
structure load_dir where
  state : Option state_row
  users : List user_row
  elections : List election_row
  votes : List vote_row
deriving DecidableEq

/-- The `user_rec_t` built from a `users.csv` row. -/
def user_rec_of_row (r : user_row) : user_rec :=
  ⟨r.id % 2 ^ 64, r.name.take 63, r.email.take 127, r.role, r.salt,
    r.pass_hash, r.active % 256⟩

/-- The `election_rec_t` built from an `elections.csv` row
(`start_time`/`end_time` are not persisted and stay 0 from `calloc`). -/
def election_rec_of_row (r : election_row) : election_rec :=
  match r.candidates with
  | some cs =>
    let cs2 := (cs.take 128).map (fun c => c.take 63)
    ⟨r.id % 2 ^ 64, r.title.take 127, r.description.take 511, r.phase,
      0, 0, cs2.length, cs2⟩
  | none =>
    ⟨r.id % 2 ^ 64, r.title.take 127, r.description.take 511, r.phase,
      0, 0, r.candidate_count % 2 ^ 32, []⟩

/-- The `vote_rec_t` built from a `votes.csv` row. -/
def vote_rec_of_row (r : vote_row) : vote_rec :=
  ⟨r.id % 2 ^ 64, r.election_id % 2 ^ 64, r.voter_id % 2 ^ 64, r.choice % 2 ^ 32⟩

/-- The `state.csv` assignments at the top of `app_load_from_disk`. -/
def load_state_row (s : app_state) (row : state_row) : app_state :=
  { s with
    admin_exists := row.admin_exists % 256
    admin_pin := row.admin_pin.take 31
    next_user_id := row.next_user_id % 2 ^ 64
    next_election_id := row.next_election_id % 2 ^ 64
    next_vote_id := row.next_vote_id % 2 ^ 64 }

/-- One iteration of the `users.csv` load loop: append the record, index
it by id and by the hash of its (truncated) stored email, update the
admin flag and the `if (u->id >= next) next = u->id + 1` counter. -/
def load_user_row (s : app_state) (row : user_row) : Option app_state :=
  let u := user_rec_of_row row
  match hash_table_put s.user_by_id u.id s.users.length with
  | none => none
  | some t1 =>
    match hash_table_put s.user_by_email (email_hash64 u.email) s.users.length with
    | none => none
    | some t2 =>
      some { s with
        users := s.users ++ [u]
        user_by_id := t1
        user_by_email := t2
        admin_exists := if u.role = ROLE_ADMIN then 1 else s.admin_exists
        next_user_id := if s.next_user_id ≤ u.id then (u.id + 1) % 2 ^ 64
          else s.next_user_id }

/-- One iteration of the `elections.csv` load loop. -/
def load_election_row (s : app_state) (row : election_row) : Option app_state :=
  let el := election_rec_of_row row
  match hash_table_put s.election_by_id el.id s.elections.length with
  | none => none
  | some t =>
    some { s with
      elections := s.elections ++ [el]
      election_by_id := t
      next_election_id := if s.next_election_id ≤ el.id then (el.id + 1) % 2 ^ 64
        else s.next_election_id }

/-- One iteration of the `votes.csv` load loop. -/
def load_vote_row (s : app_state) (row : vote_row) : Option app_state :=
  let v := vote_rec_of_row row
  match hash_table_put s.has_voted (vote_key v.election_id v.voter_id) 1 with
  | none => none
  | some t =>
    some { s with
      votes := s.votes ++ [v]
      has_voted := t
      next_vote_id := if s.next_vote_id ≤ v.id then (v.id + 1) % 2 ^ 64
        else s.next_vote_id }

/-- Folding one of the load loops over its rows; `none` = a hash-table
probe loop inside would not terminate. -/
def load_rows {α : Type} (f : app_state → α → Option app_state) :
    List α → app_state → Option app_state
  | [], s => some s
  | r :: rest, s =>
    match f s r with
    | none => none
    | some s2 => load_rows f rest s2

/-- `app_load_from_disk` from app.c, over an already-initialised state
(the CLI calls it right after `app_init`): state.csv first, then users,
elections and votes, then `current_user = NULL`. -/
def app_load_from_disk (s : app_state) (d : load_dir) : Option app_state :=
  let s0 := match d.state with
    | none => s
    | some row => load_state_row s row
  match load_rows load_user_row d.users s0 with
  | none => none
  | some s1 =>
    match load_rows load_election_row d.elections s1 with
    | none => none
    | some s2 =>
      match load_rows load_vote_row d.votes s2 with
      | none => none
      | some s3 => some { s3 with current_user := none }

/-- The bootstrap portion of `cli_run`: init, load, and if the admin
flag is clear, register the default administrator (return code
ignored). -/
def cli_bootstrap (d : load_dir) : Option app_state :=
  match app_load_from_disk app_init d with
  | none => none
  | some s =>
    if s.admin_exists = 0 then
      match app_register_user s (bytesOfString "admin")
          (bytesOfString "admin@example.com") (bytesOfString "admin") ROLE_ADMIN with
      | none => none
      | some (_, s2) => some s2
    else some s

/-- The counter value produced by a load loop's
`if (id >= next) next = id + 1` updates, folded over the (64-bit) ids. -/
def nextAfter (base : Nat) (ids : List Nat) : Nat :=
  ids.foldl (fun acc i => if acc ≤ i then (i + 1) % 2 ^ 64 else acc) base

/-- The `next_user_id` seed in effect after the state.csv step. -/
def state_next_user (d : load_dir) : Nat :=
  match d.state with
  | some row => row.next_user_id % 2 ^ 64
  | none => 1

/-- The `next_election_id` seed in effect after the state.csv step. -/
def state_next_election (d : load_dir) : Nat :=
  match d.state with
  | some row => row.next_election_id % 2 ^ 64
  | none => 1

/-- The `next_vote_id` seed in effect after the state.csv step. -/
def state_next_vote (d : load_dir) : Nat :=
  match d.state with
  | some row => row.next_vote_id % 2 ^ 64
  | none => 1

theorem nextAfter_cons (base i : Nat) (ids : List Nat) :
    nextAfter base (i :: ids) =
      nextAfter (if base ≤ i then (i + 1) % 2 ^ 64 else base) ids := rfl

theorem le_nextAfter (ids : List Nat) (hw : ∀ i ∈ ids, i + 1 < 2 ^ 64) :
    ∀ base, base ≤ nextAfter base ids := by
  induction ids with
  | nil => intro base; exact le_refl _
  | cons i rest ih =>
    intro base
    rw [nextAfter_cons]
    have h1 : base ≤ (if base ≤ i then (i + 1) % 2 ^ 64 else base) := by
      by_cases hb : base ≤ i
      · rw [if_pos hb, Nat.mod_eq_of_lt (hw i (List.mem_cons_self _ _))]
        omega
      · rw [if_neg hb]
    exact le_trans h1 (ih (fun j hj => hw j (List.mem_cons_of_mem _ hj)) _)

theorem nextAfter_gt (ids : List Nat) (hw : ∀ i ∈ ids, i + 1 < 2 ^ 64) :
    ∀ base i, i ∈ ids → i < nextAfter base ids := by
  induction ids with
  | nil =>
    intro base i hi
    simp at hi
  | cons j rest ih =>
    intro base i hi
    rw [nextAfter_cons]
    rcases List.mem_cons.mp hi with rfl | hi2
    · have hstep : i < (if base ≤ i then (i + 1) % 2 ^ 64 else base) := by
        by_cases hb : base ≤ i
        · rw [if_pos hb, Nat.mod_eq_of_lt (hw i (List.mem_cons_self _ _))]
          omega
        · rw [if_neg hb]
          omega
      exact lt_of_lt_of_le hstep
        (le_nextAfter rest (fun x hx => hw x (List.mem_cons_of_mem _ hx)) _)
    · exact ih (fun x hx => hw x (List.mem_cons_of_mem _ hx)) _ i hi2

theorem load_user_row_ok {s0 : app_state} (r : user_row)
    (hw1 : table_wf s0.user_by_id) (ht1 : tomb_free s0.user_by_id)
    (hw2 : table_wf s0.user_by_email) (ht2 : tomb_free s0.user_by_email) :
    ∃ s1, load_user_row s0 r = some s1 ∧
      s1.users = s0.users ++ [user_rec_of_row r] ∧
      s1.next_user_id = (if s0.next_user_id ≤ r.id % 2 ^ 64
        then (r.id % 2 ^ 64 + 1) % 2 ^ 64 else s0.next_user_id) ∧
      table_wf s1.user_by_id ∧ tomb_free s1.user_by_id ∧
      table_wf s1.user_by_email ∧ tomb_free s1.user_by_email ∧
      (∀ k, liveKey s1.user_by_email k ↔
        (k = email_hash64 (r.email.take 127) ∨ liveKey s0.user_by_email k)) ∧
      s1.admin_exists = (if r.role = ROLE_ADMIN then 1 else s0.admin_exists) ∧
      s1.elections = s0.elections ∧ s1.votes = s0.votes ∧
      s1.next_election_id = s0.next_election_id ∧
      s1.next_vote_id = s0.next_vote_id ∧
      s1.election_by_id = s0.election_by_id ∧ s1.has_voted = s0.has_voted ∧
      s1.admin_pin = s0.admin_pin ∧ s1.current_user = s0.current_user := by
  obtain ⟨t1, heq1, hwf1, htf1, -, -, -, -⟩ :=
    hash_table_put_ok s0.user_by_id (user_rec_of_row r).id s0.users.length hw1 ht1
  obtain ⟨t2, heq2, hwf2, htf2, -, -, -, hpairs2⟩ :=
    hash_table_put_ok s0.user_by_email (email_hash64 (user_rec_of_row r).email)
      s0.users.length hw2 ht2
  refine ⟨{ s0 with
      users := s0.users ++ [user_rec_of_row r]
      user_by_id := t1
      user_by_email := t2
      admin_exists := if (user_rec_of_row r).role = ROLE_ADMIN then 1
        else s0.admin_exists
      next_user_id := if s0.next_user_id ≤ (user_rec_of_row r).id
        then ((user_rec_of_row r).id + 1) % 2 ^ 64 else s0.next_user_id },
    ?_, rfl, rfl, hwf1, htf1, hwf2, htf2,
    fun k => liveKey_iff_of_pairs hpairs2 k,
    rfl, rfl, rfl, rfl, rfl, rfl, rfl, rfl, rfl⟩
  unfold load_user_row
  dsimp only
  rw [heq1]
  dsimp only
  rw [heq2]

theorem load_users_ok (rows : List user_row) : ∀ s0 : app_state,
    table_wf s0.user_by_id → tomb_free s0.user_by_id →
    table_wf s0.user_by_email → tomb_free s0.user_by_email →
    ∃ s1, load_rows load_user_row rows s0 = some s1 ∧
      s1.next_user_id =
        nextAfter s0.next_user_id (rows.map (fun r => r.id % 2 ^ 64)) ∧
      s1.users = s0.users ++ rows.map user_rec_of_row ∧
      table_wf s1.user_by_id ∧ tomb_free s1.user_by_id ∧
      table_wf s1.user_by_email ∧ tomb_free s1.user_by_email ∧
      (∀ k, liveKey s1.user_by_email k ↔ (liveKey s0.user_by_email k ∨
        ∃ r ∈ rows, email_hash64 (r.email.take 127) = k)) ∧
      (s1.admin_exists ≠ 0 ↔
        (s0.admin_exists ≠ 0 ∨ ∃ r ∈ rows, r.role = ROLE_ADMIN)) ∧
      s1.elections = s0.elections ∧ s1.votes = s0.votes ∧
      s1.next_election_id = s0.next_election_id ∧
      s1.next_vote_id = s0.next_vote_id ∧
      s1.election_by_id = s0.election_by_id ∧ s1.has_voted = s0.has_voted ∧
      s1.admin_pin = s0.admin_pin ∧ s1.current_user = s0.current_user := by
  induction rows with
  | nil =>
    intro s0 hw1 ht1 hw2 ht2
    refine ⟨s0, rfl, rfl, by simp, hw1, ht1, hw2, ht2, fun k => by simp,
      by simp, rfl, rfl, rfl, rfl, rfl, rfl, rfl, rfl⟩
  | cons r rest ih =>
    intro s0 hw1 ht1 hw2 ht2
    obtain ⟨mid, hstep, hmu, hmn, hmw1, hmt1, hmw2, hmt2, hmlive, hmadm,
      hmel, hmv, hmne, hmnv, hmeid, hmhv, hmpin, hmcu⟩ :=
      load_user_row_ok r hw1 ht1 hw2 ht2
    obtain ⟨s1, hrun, hin, hiu, hiw1, hit1, hiw2, hit2, hilive, hiadm,
      hiel, hiv, hine, hinv, hieid, hihv, hipin, hicu⟩ :=
      ih mid hmw1 hmt1 hmw2 hmt2
    refine ⟨s1, ?_, ?_, ?_, hiw1, hit1, hiw2, hit2, ?_, ?_, ?_, ?_, ?_, ?_,
      ?_, ?_, ?_, ?_⟩
    · simp only [load_rows, hstep]
      exact hrun
    · rw [hin, hmn, List.map_cons, nextAfter_cons]
    · rw [hiu, hmu]
      simp [List.append_assoc]
    · intro k
      rw [hilive k, hmlive k]
      constructor
      · rintro ((hk | hs) | ⟨r2, h2, hh⟩)
        · exact Or.inr ⟨r, List.mem_cons_self _ _, hk.symm⟩
        · exact Or.inl hs
        · exact Or.inr ⟨r2, List.mem_cons_of_mem _ h2, hh⟩
      · rintro (hs | ⟨r2, h2, hh⟩)
        · exact Or.inl (Or.inr hs)
        · rcases List.mem_cons.mp h2 with rfl | h2b
          · exact Or.inl (Or.inl hh.symm)
          · exact Or.inr ⟨r2, h2b, hh⟩
    · rw [hiadm, hmadm]
      by_cases hrole : r.role = ROLE_ADMIN
      · rw [if_pos hrole]
        exact ⟨fun _ => Or.inr ⟨r, List.mem_cons_self _ _, hrole⟩,
          fun _ => Or.inl one_ne_zero⟩
      · rw [if_neg hrole]
        constructor
        · rintro (h0 | ⟨r2, h2, hh⟩)
          · exact Or.inl h0
          · exact Or.inr ⟨r2, List.mem_cons_of_mem _ h2, hh⟩
        · rintro (h0 | ⟨r2, h2, hh⟩)
          · exact Or.inl h0
          · rcases List.mem_cons.mp h2 with rfl | h2b
            · exact absurd hh hrole
            · exact Or.inr ⟨r2, h2b, hh⟩
    · rw [hiel, hmel]
    · rw [hiv, hmv]
    · rw [hine, hmne]
    · rw [hinv, hmnv]
    · rw [hieid, hmeid]
    · rw [hihv, hmhv]
    · rw [hipin, hmpin]
    · rw [hicu, hmcu]

theorem election_rec_of_row_id (r : election_row) :
    (election_rec_of_row r).id = r.id % 2 ^ 64 := by
  obtain ⟨rid, rtitle, rdesc, rphase, rcc, rcands⟩ := r
  cases rcands <;> rfl

theorem load_election_row_ok {s0 : app_state} (r : election_row)
    (hw : table_wf s0.election_by_id) (ht : tomb_free s0.election_by_id) :
    ∃ s1, load_election_row s0 r = some s1 ∧
      s1.elections = s0.elections ++ [election_rec_of_row r] ∧
      s1.next_election_id = (if s0.next_election_id ≤ r.id % 2 ^ 64
        then (r.id % 2 ^ 64 + 1) % 2 ^ 64 else s0.next_election_id) ∧
      table_wf s1.election_by_id ∧ tomb_free s1.election_by_id ∧
      s1.users = s0.users ∧ s1.votes = s0.votes ∧
      s1.next_user_id = s0.next_user_id ∧ s1.next_vote_id = s0.next_vote_id ∧
      s1.user_by_id = s0.user_by_id ∧ s1.user_by_email = s0.user_by_email ∧
      s1.has_voted = s0.has_voted ∧ s1.admin_exists = s0.admin_exists ∧
      s1.admin_pin = s0.admin_pin ∧ s1.current_user = s0.current_user := by
  obtain ⟨t1, heq1, hwf1, htf1, -, -, -, -⟩ :=
    hash_table_put_ok s0.election_by_id (election_rec_of_row r).id
      s0.elections.length hw ht
  refine ⟨{ s0 with
      elections := s0.elections ++ [election_rec_of_row r]
      election_by_id := t1
      next_election_id := if s0.next_election_id ≤ (election_rec_of_row r).id
        then ((election_rec_of_row r).id + 1) % 2 ^ 64 else s0.next_election_id },
    ?_, rfl, ?_, hwf1, htf1, rfl, rfl, rfl, rfl, rfl, rfl, rfl, rfl, rfl, rfl⟩
  · unfold load_election_row
    dsimp only
    rw [heq1]
  · rw [← election_rec_of_row_id]

theorem load_elections_ok (rows : List election_row) : ∀ s0 : app_state,
    table_wf s0.election_by_id → tomb_free s0.election_by_id →
    ∃ s1, load_rows load_election_row rows s0 = some s1 ∧
      s1.next_election_id =
        nextAfter s0.next_election_id (rows.map (fun r => r.id % 2 ^ 64)) ∧
      s1.elections = s0.elections ++ rows.map election_rec_of_row ∧
      table_wf s1.election_by_id ∧ tomb_free s1.election_by_id ∧
      s1.users = s0.users ∧ s1.votes = s0.votes ∧
      s1.next_user_id = s0.next_user_id ∧ s1.next_vote_id = s0.next_vote_id ∧
      s1.user_by_id = s0.user_by_id ∧ s1.user_by_email = s0.user_by_email ∧
      s1.has_voted = s0.has_voted ∧ s1.admin_exists = s0.admin_exists ∧
      s1.admin_pin = s0.admin_pin ∧ s1.current_user = s0.current_user := by
  induction rows with
  | nil =>
    intro s0 hw ht
    exact ⟨s0, rfl, rfl, by simp, hw, ht, rfl, rfl, rfl, rfl, rfl, rfl, rfl,
      rfl, rfl, rfl⟩
  | cons r rest ih =>
    intro s0 hw ht
    obtain ⟨mid, hstep, hmel, hmn, hmw, hmt, hmu, hmv, hmnu, hmnv, hmuid,
      hmuem, hmhv, hmadm, hmpin, hmcu⟩ := load_election_row_ok r hw ht
    obtain ⟨s1, hrun, hin, hiel, hiw, hit, hiu, hiv, hinu, hinv, hiuid,
      hiuem, hihv, hiadm, hipin, hicu⟩ := ih mid hmw hmt
    refine ⟨s1, ?_, ?_, ?_, hiw, hit, ?_, ?_, ?_, ?_, ?_, ?_, ?_, ?_, ?_, ?_⟩
    · simp only [load_rows, hstep]
      exact hrun
    · rw [hin, hmn, List.map_cons, nextAfter_cons]
    · rw [hiel, hmel]
      simp [List.append_assoc]
    · rw [hiu, hmu]
    · rw [hiv, hmv]
    · rw [hinu, hmnu]
    · rw [hinv, hmnv]
    · rw [hiuid, hmuid]
    · rw [hiuem, hmuem]
    · rw [hihv, hmhv]
    · rw [hiadm, hmadm]
    · rw [hipin, hmpin]
    · rw [hicu, hmcu]

theorem load_vote_row_ok {s0 : app_state} (r : vote_row)
    (hw : table_wf s0.has_voted) (ht : tomb_free s0.has_voted) :
    ∃ s1, load_vote_row s0 r = some s1 ∧
      s1.votes = s0.votes ++ [vote_rec_of_row r] ∧
      s1.next_vote_id = (if s0.next_vote_id ≤ r.id % 2 ^ 64
        then (r.id % 2 ^ 64 + 1) % 2 ^ 64 else s0.next_vote_id) ∧
      table_wf s1.has_voted ∧ tomb_free s1.has_voted ∧
      s1.users = s0.users ∧ s1.elections = s0.elections ∧
      s1.next_user_id = s0.next_user_id ∧
      s1.next_election_id = s0.next_election_id ∧
      s1.user_by_id = s0.user_by_id ∧ s1.user_by_email = s0.user_by_email ∧
      s1.election_by_id = s0.election_by_id ∧
      s1.admin_exists = s0.admin_exists ∧
      s1.admin_pin = s0.admin_pin ∧ s1.current_user = s0.current_user := by
  obtain ⟨t1, heq1, hwf1, htf1, -, -, -, -⟩ :=
    hash_table_put_ok s0.has_voted
      (vote_key (vote_rec_of_row r).election_id (vote_rec_of_row r).voter_id) 1 hw ht
  refine ⟨{ s0 with
      votes := s0.votes ++ [vote_rec_of_row r]
      has_voted := t1
      next_vote_id := if s0.next_vote_id ≤ (vote_rec_of_row r).id
        then ((vote_rec_of_row r).id + 1) % 2 ^ 64 else s0.next_vote_id },
    ?_, rfl, rfl, hwf1, htf1, rfl, rfl, rfl, rfl, rfl, rfl, rfl, rfl, rfl, rfl⟩
  unfold load_vote_row
  dsimp only
  rw [heq1]

theorem load_votes_ok (rows : List vote_row) : ∀ s0 : app_state,
    table_wf s0.has_voted → tomb_free s0.has_voted →
    ∃ s1, load_rows load_vote_row rows s0 = some s1 ∧
      s1.next_vote_id =
        nextAfter s0.next_vote_id (rows.map (fun r => r.id % 2 ^ 64)) ∧
      s1.votes = s0.votes ++ rows.map vote_rec_of_row ∧
      table_wf s1.has_voted ∧ tomb_free s1.has_voted ∧
      s1.users = s0.users ∧ s1.elections = s0.elections ∧
      s1.next_user_id = s0.next_user_id ∧
      s1.next_election_id = s0.next_election_id ∧
      s1.user_by_id = s0.user_by_id ∧ s1.user_by_email = s0.user_by_email ∧
      s1.election_by_id = s0.election_by_id ∧
      s1.admin_exists = s0.admin_exists ∧
      s1.admin_pin = s0.admin_pin ∧ s1.current_user = s0.current_user := by
  induction rows with
  | nil =>
    intro s0 hw ht
    exact ⟨s0, rfl, rfl, by simp, hw, ht, rfl, rfl, rfl, rfl, rfl, rfl, rfl,
      rfl, rfl, rfl⟩
  | cons r rest ih =>
    intro s0 hw ht
    obtain ⟨mid, hstep, hmv, hmn, hmw, hmt, hmu, hmel, hmnu, hmne, hmuid,
      hmuem, hmeid, hmadm, hmpin, hmcu⟩ := load_vote_row_ok r hw ht
    obtain ⟨s1, hrun, hin, hiv, hiw, hit, hiu, hiel, hinu, hine, hiuid,
      hiuem, hieid, hiadm, hipin, hicu⟩ := ih mid hmw hmt
    refine ⟨s1, ?_, ?_, ?_, hiw, hit, ?_, ?_, ?_, ?_, ?_, ?_, ?_, ?_, ?_, ?_⟩
    · simp only [load_rows, hstep]
      exact hrun
    · rw [hin, hmn, List.map_cons, nextAfter_cons]
    · rw [hiv, hmv]
      simp [List.append_assoc]
    · rw [hiu, hmu]
    · rw [hiel, hmel]
    · rw [hinu, hmnu]
    · rw [hine, hmne]
    · rw [hiuid, hmuid]
    · rw [hiuem, hmuem]
    · rw [hieid, hmeid]
    · rw [hiadm, hmadm]
    · rw [hipin, hmpin]
    · rw [hicu, hmcu]

/-- The `admin_exists` value in effect after the state.csv step. -/
def state_admin (d : load_dir) : Nat :=
  match d.state with
  | some row => row.admin_exists % 256
  | none => 0

theorem app_load_ok (d : load_dir) :
    ∃ s', app_load_from_disk app_init d = some s' ∧
      s'.next_user_id =
        nextAfter (state_next_user d) (d.users.map (fun r => r.id % 2 ^ 64)) ∧
      s'.next_election_id =
        nextAfter (state_next_election d)
          (d.elections.map (fun r => r.id % 2 ^ 64)) ∧
      s'.next_vote_id =
        nextAfter (state_next_vote d) (d.votes.map (fun r => r.id % 2 ^ 64)) ∧
      s'.users = d.users.map user_rec_of_row ∧
      s'.elections = d.elections.map election_rec_of_row ∧
      s'.votes = d.votes.map vote_rec_of_row ∧
      table_wf s'.user_by_id ∧ tomb_free s'.user_by_id ∧
      table_wf s'.user_by_email ∧ tomb_free s'.user_by_email ∧
      (∀ k, liveKey s'.user_by_email k ↔
        ∃ r ∈ d.users, email_hash64 (r.email.take 127) = k) ∧
      (s'.admin_exists ≠ 0 ↔
        (state_admin d ≠ 0 ∨ ∃ r ∈ d.users, r.role = ROLE_ADMIN)) := by
  obtain ⟨hw, ht, hn⟩ := hash_table_init_ok 64
  cases hd : d.state with
  | none =>
    obtain ⟨s1, hrun1, h1n, h1u, h1w1, h1t1, h1w2, h1t2, h1live, h1adm, h1el,
      h1v, h1ne, h1nv, h1eid, h1hv, h1pin, h1cu⟩ :=
      load_users_ok d.users app_init hw ht hw ht
    obtain ⟨s2, hrun2, h2n, h2el, h2w, h2t, h2u, h2v, h2nu, h2nv, h2uid,
      h2uem, h2hv, h2adm, h2pin, h2cu⟩ :=
      load_elections_ok d.elections s1 (by rw [h1eid]; exact hw)
        (by rw [h1eid]; exact ht)
    obtain ⟨s3, hrun3, h3n, h3v, h3w, h3t, h3u, h3el, h3nu, h3ne, h3uid,
      h3uem, h3eid, h3adm, h3pin, h3cu⟩ :=
      load_votes_ok d.votes s2 (by rw [h2hv, h1hv]; exact hw)
        (by rw [h2hv, h1hv]; exact ht)
    refine ⟨{ s3 with current_user := none }, ?_, ?_, ?_, ?_, ?_, ?_, ?_,
      ?_, ?_, ?_, ?_, ?_, ?_⟩
    · unfold app_load_from_disk
      dsimp only
      rw [hd]
      dsimp only
      rw [hrun1]
      dsimp only
      rw [hrun2]
      dsimp only
      rw [hrun3]
    · exact h3nu.trans (h2nu.trans (h1n.trans
        (by simp [state_next_user, hd, app_init])))
    · exact h3ne.trans (h2n.trans
        (by simp [state_next_election, hd, app_init, h1ne]))
    · exact h3n.trans (by simp [state_next_vote, hd, app_init, h2nv, h1nv])
    · exact h3u.trans (h2u.trans (h1u.trans (by simp [app_init])))
    · exact h3el.trans (h2el.trans (by simp [app_init, h1el]))
    · exact h3v.trans (by simp [app_init, h2v, h1v])
    · rw [show ({ s3 with current_user := none } : app_state).user_by_id =
        s1.user_by_id from h3uid.trans h2uid]
      exact h1w1
    · rw [show ({ s3 with current_user := none } : app_state).user_by_id =
        s1.user_by_id from h3uid.trans h2uid]
      exact h1t1
    · rw [show ({ s3 with current_user := none } : app_state).user_by_email =
        s1.user_by_email from h3uem.trans h2uem]
      exact h1w2
    · rw [show ({ s3 with current_user := none } : app_state).user_by_email =
        s1.user_by_email from h3uem.trans h2uem]
      exact h1t2
    · intro k
      rw [show ({ s3 with current_user := none } : app_state).user_by_email =
        s1.user_by_email from h3uem.trans h2uem, h1live k]
      constructor
      · rintro (⟨v, hp⟩ | hex)
        · exact absurd hp (hn k v)
        · exact hex
      · intro hex
        exact Or.inr hex
    · rw [show ({ s3 with current_user := none } : app_state).admin_exists =
        s1.admin_exists from h3adm.trans h2adm, h1adm,
        show (app_init.admin_exists : Nat) = state_admin d from
          by simp [state_admin, hd, app_init]]
  | some row =>
    obtain ⟨s1, hrun1, h1n, h1u, h1w1, h1t1, h1w2, h1t2, h1live, h1adm, h1el,
      h1v, h1ne, h1nv, h1eid, h1hv, h1pin, h1cu⟩ :=
      load_users_ok d.users (load_state_row app_init row) hw ht hw ht
    obtain ⟨s2, hrun2, h2n, h2el, h2w, h2t, h2u, h2v, h2nu, h2nv, h2uid,
      h2uem, h2hv, h2adm, h2pin, h2cu⟩ :=
      load_elections_ok d.elections s1 (by rw [h1eid]; exact hw)
        (by rw [h1eid]; exact ht)
    obtain ⟨s3, hrun3, h3n, h3v, h3w, h3t, h3u, h3el, h3nu, h3ne, h3uid,
      h3uem, h3eid, h3adm, h3pin, h3cu⟩ :=
      load_votes_ok d.votes s2 (by rw [h2hv, h1hv]; exact hw)
        (by rw [h2hv, h1hv]; exact ht)
    refine ⟨{ s3 with current_user := none }, ?_, ?_, ?_, ?_, ?_, ?_, ?_,
      ?_, ?_, ?_, ?_, ?_, ?_⟩
    · unfold app_load_from_disk
      dsimp only
      rw [hd]
      dsimp only
      rw [hrun1]
      dsimp only
      rw [hrun2]
      dsimp only
      rw [hrun3]
    · exact h3nu.trans (h2nu.trans (h1n.trans
        (by simp [state_next_user, hd, load_state_row])))
    · exact h3ne.trans (h2n.trans
        (by simp [state_next_election, hd, load_state_row, h1ne]))
    · exact h3n.trans
        (by simp [state_next_vote, hd, load_state_row, h2nv, h1nv])
    · exact h3u.trans (h2u.trans (h1u.trans
        (by simp [load_state_row, app_init])))
    · exact h3el.trans (h2el.trans (by simp [load_state_row, app_init, h1el]))
    · exact h3v.trans (by simp [load_state_row, app_init, h2v, h1v])
    · rw [show ({ s3 with current_user := none } : app_state).user_by_id =
        s1.user_by_id from h3uid.trans h2uid]
      exact h1w1
    · rw [show ({ s3 with current_user := none } : app_state).user_by_id =
        s1.user_by_id from h3uid.trans h2uid]
      exact h1t1
    · rw [show ({ s3 with current_user := none } : app_state).user_by_email =
        s1.user_by_email from h3uem.trans h2uem]
      exact h1w2
    · rw [show ({ s3 with current_user := none } : app_state).user_by_email =
        s1.user_by_email from h3uem.trans h2uem]
      exact h1t2
    · intro k
      rw [show ({ s3 with current_user := none } : app_state).user_by_email =
        s1.user_by_email from h3uem.trans h2uem, h1live k]
      constructor
      · rintro (⟨v, hp⟩ | hex)
        · exact absurd hp (hn k v)
        · exact hex
      · intro hex
        exact Or.inr hex
    · rw [show ({ s3 with current_user := none } : app_state).admin_exists =
        s1.admin_exists from h3adm.trans h2adm, h1adm,
        show ((load_state_row app_init row).admin_exists : Nat) = state_admin d
          from by simp [state_admin, hd, load_state_row]]

/-- A data directory whose state.csv carries `next_user_id = 100` while
the only user row has id 5. -/
def c4_dir : load_dir :=
  ⟨some ⟨0, bytesOfString "1234", 100, 1, 1⟩,
   [⟨5, [110], [101], 0, 1, List.replicate 16 0, List.replicate 32 0⟩],
   [], []⟩

/-- The state loaded from `c4_dir`. -/
def c4_s : app_state := (app_load_from_disk app_init c4_dir).getD app_init

/-- CLAIM C4 counterexample: loading `c4_dir` (one user with id 5,
state.csv seed 100) leaves `next_user_id = 100`, not
`max(ids present) + 1 = 6`: the load only raises the pre-seeded counter,
it never rederives it from the ids alone. -/
theorem claim_C4_counterexample :
    app_load_from_disk app_init c4_dir = some c4_s ∧
    c4_s.users.length = 1 ∧
    (c4_s.users.getD 0 default).id = 5 ∧
    c4_s.next_user_id = 100 ∧ c4_s.next_user_id ≠ 5 + 1 := by
  refine ⟨?_, ?_, ?_, ?_, ?_⟩ <;> decide

/-- CLAIM C4 (amended): after a load the next-id counter of each record
type equals the fold of `if (id >= next) next = id + 1` over the loaded
64-bit ids, started from the state.csv seed (or the initial 1) — that
is, the maximum of the seed and `max(ids) + 1`, not `max(ids) + 1`
itself — and it is strictly greater than every loaded id provided no id
is the largest 64-bit value. -/
theorem claim_C4_next_ids_after_load (d : load_dir) :
    ∃ s', app_load_from_disk app_init d = some s' ∧
      s'.next_user_id =
        nextAfter (state_next_user d) (d.users.map (fun r => r.id % 2 ^ 64)) ∧
      s'.next_election_id =
        nextAfter (state_next_election d)
          (d.elections.map (fun r => r.id % 2 ^ 64)) ∧
      s'.next_vote_id =
        nextAfter (state_next_vote d) (d.votes.map (fun r => r.id % 2 ^ 64)) ∧
      ((∀ r ∈ d.users, r.id % 2 ^ 64 + 1 < 2 ^ 64) →
        ∀ u ∈ s'.users, u.id < s'.next_user_id) ∧
      ((∀ r ∈ d.elections, r.id % 2 ^ 64 + 1 < 2 ^ 64) →
        ∀ el ∈ s'.elections, el.id < s'.next_election_id) ∧
      ((∀ r ∈ d.votes, r.id % 2 ^ 64 + 1 < 2 ^ 64) →
        ∀ v ∈ s'.votes, v.id < s'.next_vote_id) := by
  obtain ⟨s', heq, hnu, hne, hnv, hus, hel, hvs, -, -, -, -, -, -⟩ :=
    app_load_ok d
  refine ⟨s', heq, hnu, hne, hnv, ?_, ?_, ?_⟩
  · intro hww u hu
    rw [hus] at hu
    obtain ⟨r, hr, rfl⟩ := List.mem_map.mp hu
    rw [hnu]
    exact nextAfter_gt _
      (fun i hi => by
        obtain ⟨r2, hr2, rfl⟩ := List.mem_map.mp hi
        exact hww r2 hr2) _ _
      (List.mem_map_of_mem _ hr)
  · intro hww el hel2
    rw [hel] at hel2
    obtain ⟨r, hr, rfl⟩ := List.mem_map.mp hel2
    rw [hne, election_rec_of_row_id]
    exact nextAfter_gt _
      (fun i hi => by
        obtain ⟨r2, hr2, rfl⟩ := List.mem_map.mp hi
        exact hww r2 hr2) _ _
      (List.mem_map_of_mem _ hr)
  · intro hww v hv
    rw [hvs] at hv
    obtain ⟨r, hr, rfl⟩ := List.mem_map.mp hv
    rw [hnv]
    exact nextAfter_gt _
      (fun i hi => by
        obtain ⟨r2, hr2, rfl⟩ := List.mem_map.mp hi
        exact hww r2 hr2) _ _
      (List.mem_map_of_mem _ hr)

theorem register_success {s : app_state} (n e pw : List Nat) (role : Nat)
    (hadm : ¬(role = ROLE_ADMIN ∧ s.admin_exists ≠ 0))
    (hw1 : table_wf s.user_by_id) (ht1 : tomb_free s.user_by_id)
    (hw2 : table_wf s.user_by_email) (ht2 : tomb_free s.user_by_email)
    (hnl : ¬ liveKey s.user_by_email (email_hash64 e)) :
    ∃ s', app_register_user s n e pw role = some (0, s') ∧
      s'.users = s.users ++
        [⟨s.next_user_id, n.take 63, e.take 127, role, List.replicate 16 0,
          simple_hash (List.replicate 16 0) pw, 1⟩] := by
  obtain ⟨t1, heq1, -⟩ :=
    hash_table_put_ok s.user_by_id s.next_user_id s.users.length hw1 ht1
  obtain ⟨t2, heq2, -⟩ :=
    hash_table_put_ok s.user_by_email (email_hash64 e) s.users.length hw2 ht2
  refine ⟨{ s with
      next_user_id := (s.next_user_id + 1) % 2 ^ 64
      users := s.users ++
        [⟨s.next_user_id, n.take 63, e.take 127, role, List.replicate 16 0,
          simple_hash (List.replicate 16 0) pw, 1⟩]
      user_by_id := t1
      user_by_email := t2
      admin_exists := if role = ROLE_ADMIN then 1 else s.admin_exists },
    ?_, rfl⟩
  unfold app_register_user
  rw [if_neg hadm, get_not_found hw2 ht2 hnl]
  dsimp only
  rw [heq1]
  dsimp only
  rw [heq2]

/-- A data directory whose state.csv claims `admin_exists = 1` while no
user row (indeed no row at all) is present. -/
def c6_dir : load_dir := ⟨some ⟨1, bytesOfString "1234", 1, 1, 1⟩, [], [], []⟩

/-- The engine state after the CLI bootstrap on `c6_dir`. -/
def c6_s : app_state := (cli_bootstrap c6_dir).getD app_init

/-- CLAIM C6 counterexample: bootstrapping from `c6_dir` — no loaded
record has role ADMIN — synthesizes no default administrator at all
(the guard reads the `admin_exists` flag pre-seeded from state.csv, not
the loaded records), so no administrator exists post-bootstrap. -/
theorem claim_C6_counterexample :
    cli_bootstrap c6_dir = some c6_s ∧
    c6_s.users = [] ∧
    (c6_s.users.filter (fun u => u.role == ROLE_ADMIN)).length = 0 ∧
    c6_s.admin_exists = 1 := by
  refine ⟨?_, ?_, ?_, ?_⟩ <;> decide

/-- CLAIM C6 (amended): if the state.csv admin flag is clear (or no
state.csv exists), no loaded user row has role ADMIN, and no loaded
email's 64-bit hash collides with that of `admin@example.com`, then the
bootstrap synthesizes exactly one administrator, with the deterministic
credentials `admin` / `admin@example.com`. -/
theorem claim_C6_default_admin (d : load_dir)
    (hstate : state_admin d = 0)
    (hnoadmin : ∀ r ∈ d.users, r.role ≠ ROLE_ADMIN)
    (hnocoll : ∀ r ∈ d.users,
      email_hash64 (r.email.take 127) ≠
        email_hash64 (bytesOfString "admin@example.com")) :
    ∃ s' uid, cli_bootstrap d = some s' ∧
      s'.users = d.users.map user_rec_of_row ++
        [⟨uid, (bytesOfString "admin").take 63,
          (bytesOfString "admin@example.com").take 127, ROLE_ADMIN,
          List.replicate 16 0,
          simple_hash (List.replicate 16 0) (bytesOfString "admin"), 1⟩] ∧
      (s'.users.filter (fun u => u.role == ROLE_ADMIN)).length = 1 := by
  obtain ⟨sl, heq, hnu, hne, hnv, hus, hel, hvs, hw1, ht1, hw2, ht2, hlive,
    hadm⟩ := app_load_ok d
  have hadm0 : sl.admin_exists = 0 := by
    by_contra h0
    rcases hadm.mp h0 with hs | ⟨r, hr, hrole⟩
    · exact hs hstate
    · exact hnoadmin r hr hrole
  have hnl : ¬ liveKey sl.user_by_email
      (email_hash64 (bytesOfString "admin@example.com")) := by
    intro hl
    obtain ⟨r, hr, hh⟩ := (hlive _).mp hl
    exact hnocoll r hr hh
  obtain ⟨s2, hreg, hu2⟩ := register_success (bytesOfString "admin")
    (bytesOfString "admin@example.com") (bytesOfString "admin") ROLE_ADMIN
    (by rintro ⟨-, h0⟩; exact h0 hadm0) hw1 ht1 hw2 ht2 hnl
  refine ⟨s2, sl.next_user_id, ?_, ?_, ?_⟩
  · unfold cli_bootstrap
    rw [heq]
    dsimp only
    rw [if_pos hadm0, hreg]
  · rw [hu2, hus]
  · rw [hu2, List.filter_append]
    have hmap : sl.users.filter (fun u => u.role == ROLE_ADMIN) = [] := by
      rw [List.filter_eq_nil_iff]
      intro u hu
      rw [hus] at hu
      obtain ⟨r, hr, rfl⟩ := List.mem_map.mp hu
      simpa [user_rec_of_row] using hnoadmin r hr
    rw [hmap]
    rfl

/-- Witness for the amended C6 theorem: one non-admin loaded user, clear
admin flag. -/
theorem claim_C6_witness :
    ∃ s' uid, cli_bootstrap
        ⟨some ⟨0, bytesOfString "1234", 1, 1, 1⟩,
         [⟨5, [110], [101], 0, 1, List.replicate 16 0, List.replicate 32 0⟩],
         [], []⟩ = some s' ∧
      s'.users = (⟨some ⟨0, bytesOfString "1234", 1, 1, 1⟩,
         [⟨5, [110], [101], 0, 1, List.replicate 16 0, List.replicate 32 0⟩],
         [], []⟩ : load_dir).users.map user_rec_of_row ++
        [⟨uid, (bytesOfString "admin").take 63,
          (bytesOfString "admin@example.com").take 127, ROLE_ADMIN,
          List.replicate 16 0,
          simple_hash (List.replicate 16 0) (bytesOfString "admin"), 1⟩] ∧
      (s'.users.filter (fun u => u.role == ROLE_ADMIN)).length = 1 :=
  claim_C6_default_admin
    ⟨some ⟨0, bytesOfString "1234", 1, 1, 1⟩,
     [⟨5, [110], [101], 0, 1, List.replicate 16 0, List.replicate 32 0⟩],
     [], []⟩ (by decide) (by decide) (by decide)
